import Mathlib

/-!
# go-simpleyaml: a shallow embedding of `yaml.go`

The development embeds the scalar classifier `parseValue`, the block parser
`parseYAMLLines` with its helpers `getIndent`, `getIndentedBlock` and `isList`,
the entry point `ParseYAML` and the path accessor `Path`, and proves properties
of them.

Modelling conventions.

* A Go `string` is a list of Unicode code points (`Str`).  Every delimiter the
  program inspects is ASCII, so slicing by byte index in the source and slicing
  by code point here select the same text of a valid UTF-8 string.
* A run-time panic of the Go program (index or slice bounds out of range) is a
  value of `Fault`; a function that can panic returns `Except Fault _`.
* `interface{}` values are the closed type `Value`; a `YAMLNode` is an
  association list in which `Node.set` overwrites the entry of a key that is
  already present and appends a new entry otherwise.
* Loops whose cursor moves by a computed amount, and the recursion through
  `getIndentedBlock`, are written by structural recursion on a fuel argument;
  the entry points supply the number of lines (or characters), which is shown
  to be enough.
-/

namespace SimpleYaml

/-- A Go string, as its sequence of code points. -/
abbrev Str := List Char

/-- The single quote character. -/
def sq : Char := Char.ofNat 39

/-- The double quote character. -/
def dq : Char := Char.ofNat 34

/-- The newline character. -/
def nl : Char := Char.ofNat 10

/-- The ways the Go program can stop without a result.  `outOfFuel` belongs to
the embedding only: it is what a fuel-indexed function returns when its fuel is
spent, and the entry points never return it. -/
inductive Fault where
  | indexOutOfRange
  | sliceBoundsOutOfRange
  | outOfFuel
  deriving DecidableEq, Repr

/-! ## The Go standard library functions the program calls -/

/-- The predicate `unicode.IsSpace`. -/
def isSpace (c : Char) : Bool :=
  c = Char.ofNat 9 || c = Char.ofNat 10 || c = Char.ofNat 11 || c = Char.ofNat 12 ||
  c = Char.ofNat 13 || c = Char.ofNat 32 || c = Char.ofNat 0x85 || c = Char.ofNat 0xA0 ||
  c = Char.ofNat 0x1680 || (0x2000 ≤ c.toNat && c.toNat ≤ 0x200A) ||
  c = Char.ofNat 0x2028 || c = Char.ofNat 0x2029 || c = Char.ofNat 0x202F ||
  c = Char.ofNat 0x205F || c = Char.ofNat 0x3000

/-- The function `strings.TrimSpace`: leading and trailing white space removed. -/
def trimSpace (s : Str) : Str :=
  (s.dropWhile isSpace).rdropWhile isSpace

/-- The function `unicode.ToLower` as far as its result can be an ASCII letter:
the ASCII capitals, and the two other code points whose lower case is ASCII
(U+0130 and U+212A).  Every other code point outside ASCII is mapped by Go to a
code point outside ASCII; the model leaves it in place, which gives the same
answer whenever the lowered text is compared with ASCII text. -/
def toLowerRune (c : Char) : Char :=
  if 65 ≤ c.toNat ∧ c.toNat ≤ 90 then Char.ofNat (c.toNat + 32)
  else if c.toNat = 0x130 then 'i'
  else if c.toNat = 0x212A then 'k'
  else c

/-- The function `strings.ToLower`. -/
def toLower (s : Str) : Str := s.map toLowerRune

/-- The function `strings.Split(s, sep)` for a one-character separator: the
pieces between the occurrences of `sep`, one more than there are occurrences. -/
def split (sep : Char) : Str → List Str
  | [] => [[]]
  | c :: cs =>
    if c = sep then [] :: split sep cs
    else
      match split sep cs with
      | [] => [[c]]
      | p :: ps => (c :: p) :: ps

/-- The function `strings.SplitN(s, sep, 2)` for a one-character separator: the
whole text when `sep` does not occur, otherwise the text before and the text
after its first occurrence. -/
def splitN2 (sep : Char) : Str → List Str
  | [] => [[]]
  | c :: cs =>
    if c = sep then [[], cs]
    else
      match splitN2 sep cs with
      | [a, b] => [c :: a, b]
      | _ => [c :: cs]

/-- The function `strings.HasPrefix(s, p)` for a one-character `p`. -/
def hasPrefix (s : Str) (c : Char) : Bool := s.head? = some c

/-- The function `strings.HasSuffix(s, p)` for a one-character `p`. -/
def hasSuffix (s : Str) (c : Char) : Bool := s.getLast? = some c

/-- The function `strings.Contains(s, p)` for a one-character `p`. -/
def contains (s : Str) (c : Char) : Bool := s.elem c

/-- The function `strings.TrimPrefix(s, p)` for a one-character `p`. -/
def trimPrefix (s : Str) (c : Char) : Str :=
  match s with
  | [] => []
  | d :: ds => if d = c then ds else d :: ds

/-- The function `strings.Replace(s, old, new, 1)` for one-character `old` and
`new`: the first occurrence only. -/
def replaceFirst (old new : Char) : Str → Str
  | [] => []
  | c :: cs => if c = old then new :: cs else c :: replaceFirst old new cs

/-- The function `strings.Join`. -/
def join (sep : Str) : List Str → Str
  | [] => []
  | [a] => a
  | a :: b :: rest => a ++ sep ++ join sep (b :: rest)

/-- The function `strings.Replace(s, " \n ", "\n", -1)`: every occurrence of
space, newline, space, found from the left without overlap, becomes a newline. -/
def foldBreaks : Str → Str
  | c :: d :: e :: rest =>
    if c = ' ' ∧ d = nl ∧ e = ' ' then nl :: foldBreaks rest
    else c :: foldBreaks (d :: e :: rest)
  | c :: cs => c :: foldBreaks cs
  | [] => []

/-- The function `strconv.ParseBool`, with `none` for its error. -/
def parseBool (s : Str) : Option Bool :=
  if s = "1".toList ∨ s = "t".toList ∨ s = "T".toList ∨ s = "true".toList ∨
      s = "TRUE".toList ∨ s = "True".toList then some true
  else if s = "0".toList ∨ s = "f".toList ∨ s = "F".toList ∨ s = "false".toList ∨
      s = "FALSE".toList ∨ s = "False".toList then some false
  else none

/-- The value of a decimal digit character. -/
def digitVal (c : Char) : Option Nat :=
  if 48 ≤ c.toNat ∧ c.toNat ≤ 57 then some (c.toNat - 48) else none

/-- The digit loop of `strconv.ParseUint(s, 10, 64)`: `none` when a character
is not a decimal digit (syntax error) or when the value leaves the unsigned
64-bit range (range error). -/
def parseUintLoop : Str → Nat → Option Nat
  | [], n => some n
  | c :: cs, n =>
    match digitVal c with
    | none => none
    | some d =>
      if n ≥ (2 ^ 64 - 1) / 10 + 1 then none
      else if n * 10 + d > 2 ^ 64 - 1 then none
      else parseUintLoop cs (n * 10 + d)

/-- The function `strconv.ParseUint(s, 10, 64)`, with `none` for any error.
`ParseInt` fails on each of these errors: a range error of `ParseUint` comes
with the value `2^64 - 1`, which is beyond both cut-offs of `ParseInt`. -/
def parseUint (s : Str) : Option Nat :=
  match s with
  | [] => none
  | _ => parseUintLoop s 0

/-- The function `strconv.ParseInt(s, 10, 64)`, with `none` for any error: an
optional sign, then decimal digits, the value within the signed 64-bit range. -/
def parseInt (s : Str) : Option Int :=
  match s with
  | [] => none
  | c :: cs =>
    let neg := decide (c = '-')
    let body := if c = '+' ∨ c = '-' then cs else c :: cs
    match parseUint body with
    | none => none
    | some un =>
      if ¬ neg ∧ un ≥ 2 ^ 63 then none
      else if neg ∧ un > 2 ^ 63 then none
      else some (if neg then -(un : Int) else (un : Int))

/-- The number a floating-point literal denotes, before it is rounded to a
64-bit float: `finite neg mant base exp` is `± mant * base ^ exp` with `base`
ten (decimal literals) or two (hexadecimal literals).  `strconv.ParseFloat`
rounds this number to the nearest 64-bit float; the rounding is not part of the
embedding, only the decision whether the text is accepted is. -/
inductive FloatVal where
  | finite (neg : Bool) (mant : Nat) (base : Nat) (exp : Int)
  | inf (neg : Bool)
  | nan
  deriving DecidableEq, Repr

/-- The helper `lower` of `strconv`: `c | 0x20` on a byte; bytes of a code
point outside ASCII are left alone. -/
def lowerByte (c : Char) : Char :=
  if c.toNat < 128 then Char.ofNat (c.toNat ||| 32) else c

/-- The helper `commonPrefixLenIgnoreCase` of `strconv`. -/
def commonPrefixLenIgnoreCase : Str → Str → Nat
  | c :: s, p :: ps =>
    let c1 := if 65 ≤ c.toNat ∧ c.toNat ≤ 90 then Char.ofNat (c.toNat + 32) else c
    if c1 = p then commonPrefixLenIgnoreCase s ps + 1 else 0
  | _, _ => 0

/-- The `inf`/`infinity` case of `special`, entered after an optional sign of
`nsign` characters. -/
def specialInf (neg : Bool) (nsign : Nat) (s : Str) : Option (FloatVal × Nat) :=
  let n := commonPrefixLenIgnoreCase s "infinity".toList
  let n := if 3 < n ∧ n < 8 then 3 else n
  if n = 3 ∨ n = 8 then some (FloatVal.inf neg, nsign + n) else none

/-- The helper `special` of `strconv`: the literals `inf`, `infinity` (with an
optional sign) and `nan`, in any letter case, with the number of characters
read. -/
def special (s : Str) : Option (FloatVal × Nat) :=
  match s with
  | [] => none
  | c :: cs =>
    if c = '+' ∨ c = '-' then specialInf (decide (c = '-')) 1 cs
    else if c = 'i' ∨ c = 'I' then specialInf false 0 (c :: cs)
    else if c = 'n' ∨ c = 'N' then
      if commonPrefixLenIgnoreCase (c :: cs) "nan".toList = 3 then some (FloatVal.nan, 3)
      else none
    else none

/-- The value of a hexadecimal letter digit, `a` to `f` in either case. -/
def hexLetterVal (c : Char) : Option Nat :=
  if 97 ≤ (lowerByte c).toNat ∧ (lowerByte c).toNat ≤ 102 then some ((lowerByte c).toNat - 87)
  else none

/-- What the mantissa loop of `readFloat` has seen: the value of all digits
read, how many of them came after the point, and the three flags of the source. -/
structure Mantissa where
  mant : Nat
  frac : Nat
  sawdot : Bool
  sawdigits : Bool
  underscores : Bool

/-- One more digit of value `d` in base `b`. -/
def Mantissa.push (m : Mantissa) (b d : Nat) : Mantissa :=
  { m with mant := m.mant * b + d, frac := if m.sawdot then m.frac + 1 else m.frac,
           sawdigits := true }

/-- The mantissa loop of `readFloat`: digits, at most one point, underscores;
it stops in front of the first other character and returns the rest. -/
def readMantissa (hex : Bool) : Str → Mantissa → Mantissa × Str
  | [], m => (m, [])
  | c :: cs, m =>
    if c = '_' then readMantissa hex cs { m with underscores := true }
    else if c = '.' then
      if m.sawdot then (m, c :: cs) else readMantissa hex cs { m with sawdot := true }
    else
      match digitVal c with
      | some d => readMantissa hex cs (m.push (if hex then 16 else 10) d)
      | none =>
        if hex then
          match hexLetterVal c with
          | some d => readMantissa hex cs (m.push 16 d)
          | none => (m, c :: cs)
        else (m, c :: cs)

/-- The exponent loop of `readFloat`: decimal digits and underscores; the
exponent stops growing once it has reached 10000. -/
def readExponent : Str → Nat → Bool → Nat × Bool × Str
  | [], e, u => (e, u, [])
  | c :: cs, e, u =>
    if c = '_' then readExponent cs e true
    else
      match digitVal c with
      | some d => readExponent cs (if e < 10000 then e * 10 + d else e) u
      | none => (e, u, c :: cs)

/-- The loop of `underscoreOK`; `saw` is the class of the last character. -/
def underscoreLoop (hex : Bool) : Str → Char → Bool
  | [], saw => saw ≠ '_'
  | c :: cs, saw =>
    if (digitVal c).isSome ∨ (hex = true ∧ (hexLetterVal c).isSome) then underscoreLoop hex cs '0'
    else if c = '_' then
      if saw ≠ '0' then false else underscoreLoop hex cs '_'
    else if saw = '_' then false
    else underscoreLoop hex cs '!'

/-- The helper `underscoreOK` of `strconv`: underscores only between digits, or
between a base prefix and a digit. -/
def underscoreOK (s : Str) : Bool :=
  let s1 := match s with
    | c :: cs => if c = '-' ∨ c = '+' then cs else c :: cs
    | [] => []
  match s1 with
  | a :: b :: rest =>
    if a = '0' ∧ (lowerByte b = 'b' ∨ lowerByte b = 'o' ∨ lowerByte b = 'x') then
      underscoreLoop (decide (lowerByte b = 'x')) rest '0'
    else underscoreLoop false s1 '^'
  | _ => underscoreLoop false s1 '^'

/-- The end of `readFloat`: the check on underscores, over the text read so
far, and the number denoted. -/
def readFloatFinish (s : Str) (hex neg : Bool) (m : Mantissa) (e : Int) (underscores : Bool)
    (rest : Str) : Option (FloatVal × Str) :=
  if underscores = true ∧ underscoreOK (s.take (s.length - rest.length)) = false then none
  else if hex then some (FloatVal.finite neg m.mant 2 (e - 4 * (m.frac : Int)), rest)
  else some (FloatVal.finite neg m.mant 10 (e - (m.frac : Int)), rest)

/-- The test for a hexadecimal prefix in `readFloat`: `0x` or `0X` with at
least one more character after it. -/
def hasHexPrefix : Str → Bool
  | a :: b :: _ :: _ => decide (a = '0' ∧ lowerByte b = 'x')
  | _ => false

/-- The exponent part of `readFloat`, entered with the mantissa `m` read and
`r` the text after it: an exponent introduced by `e` (hexadecimal: `p`), with
an optional sign and at least one digit; a hexadecimal mantissa must have one. -/
def readFloatExp (s : Str) (hex neg : Bool) (m : Mantissa) (r : Str) : Option (FloatVal × Str) :=
  match r with
  | c :: r1 =>
    if lowerByte c = (if hex then 'p' else 'e') then
      match r1 with
      | [] => none
      | d :: r2 =>
        let esign : Int := if d = '-' then -1 else 1
        let r3 := if d = '+' ∨ d = '-' then r2 else d :: r2
        match r3 with
        | [] => none
        | x :: _ =>
          if (digitVal x).isNone then none
          else
            match readExponent r3 0 m.underscores with
            | (e, u, rest) => readFloatFinish s hex neg m (esign * (e : Int)) u rest
    else if hex then none
    else readFloatFinish s hex neg m 0 m.underscores (c :: r1)
  | [] =>
    if hex then none
    else readFloatFinish s hex neg m 0 m.underscores []

/-- The part of `readFloat` after the optional sign; `s1` is the text after
the sign. -/
def readFloatUnsigned (s : Str) (neg : Bool) (s1 : Str) : Option (FloatVal × Str) :=
  match readMantissa (hasHexPrefix s1) (if hasHexPrefix s1 then s1.drop 2 else s1)
      ⟨0, 0, false, false, false⟩ with
  | (m, r) =>
    if m.sawdigits = false then none
    else readFloatExp s (hasHexPrefix s1) neg m r

/-- The helper `readFloat` of `strconv`: an optional sign, an optional `0x`
prefix, the mantissa, an exponent.  The result is the number denoted and the
text left unread; `none` is the source's `ok = false`.  The source keeps the
first 19 (hexadecimal: 16) digits and a flag for the others, from which
`ParseFloat` still rounds the full number correctly; the model keeps all digits. -/
def readFloat (s : Str) : Option (FloatVal × Str) :=
  match s with
  | [] => none
  | c0 :: cs0 =>
    readFloatUnsigned s (decide (c0 = '-')) (if c0 = '+' ∨ c0 = '-' then cs0 else c0 :: cs0)

/-- Whether `mant * base ^ exp` rounds, to nearest with ties to even, beyond
the largest finite 64-bit float: whether it reaches `2^1024 - 2^970`, the
midpoint between that float and `2^1024`.  This is when `ParseFloat` reports a
range error. -/
def floatOverflows (mant base : Nat) (exp : Int) : Bool :=
  if 0 ≤ exp then decide (2 ^ 1024 - 2 ^ 970 ≤ mant * base ^ exp.toNat)
  else decide ((2 ^ 1024 - 2 ^ 970) * base ^ (-exp).toNat ≤ mant)

/-- The function `strconv.ParseFloat(s, 64)`, with `none` for any error: the
whole text must be read, and the number must not overflow. -/
def parseFloat (s : Str) : Option FloatVal :=
  match special s with
  | some (v, n) => if n = s.length then some v else none
  | none =>
    match readFloat s with
    | none => none
    | some (v, rest) =>
      if rest ≠ [] then none
      else
        match v with
        | FloatVal.finite _ mant base exp => if floatOverflows mant base exp then none else some v
        | _ => some v

/-! ## The data model -/

/-- A value of the Go type `interface{}` as the program produces it: `nil`,
`bool`, `int64`, `float64`, `string`, `[]interface{}` and `YAMLNode`. -/
inductive Value where
  | null
  | bool (b : Bool)
  | int (n : Int)
  | float (f : FloatVal)
  | str (s : Str)
  | seq (items : List Value)
  | node (entries : List (Str × Value))

/-- The Go type `YAMLNode`, a map from strings to values. -/
abbrev Node := List (Str × Value)

/-- The map assignment `n[k] = v`. -/
def Node.set : Node → Str → Value → Node
  | [], k, v => [(k, v)]
  | (k1, v1) :: rest, k, v =>
    if k1 = k then (k, v) :: rest else (k1, v1) :: Node.set rest k v

/-- The map lookup `n[k]`, with `none` for an absent key. -/
def Node.get? : Node → Str → Option Value
  | [], _ => none
  | (k1, v1) :: rest, k => if k1 = k then some v1 else Node.get? rest k

/-! ## `parseValue` -/

/-- The slice expression `s[lo:hi]`. -/
def slice (s : Str) (lo hi : Nat) : Except Fault Str :=
  if lo ≤ hi ∧ hi ≤ s.length then .ok ((s.take hi).drop lo)
  else .error Fault.sliceBoundsOutOfRange

/-- The loop over the items of an inline array (source lines 222-224), with
`pv` the recursive call. -/
def inlineItems (pv : Str → Except Fault Value) : List Str → List Value → Except Fault (List Value)
  | [], array => .ok array
  | item :: rest, array =>
    match pv (trimSpace item) with
    | .error e => .error e
    | .ok v => inlineItems pv rest (array ++ [v])

/-- The loop over the pairs of an inline map (source lines 210-215), with `pv`
the recursive call.  `parts[1]` is out of range when the pair has no colon. -/
def inlinePairs (pv : Str → Except Fault Value) : List Str → Node → Except Fault Node
  | [], yamlObject => .ok yamlObject
  | pair :: rest, yamlObject =>
    let parts := splitN2 ':' pair
    let key := trimSpace (parts.headD [])
    match parts.get? 1 with
    | none => .error Fault.indexOutOfRange
    | some p1 =>
      match pv (trimSpace p1) with
      | .error e => .error e
      | .ok val => inlinePairs pv rest (yamlObject.set key val)

/-- The body of `parseValue` (source lines 186-228).  `self` is the function
the body calls on the elements of an inline map or array; it is `none` when
the fuel of the embedding is spent. -/
def parseValueBody (self : Option (Str → Except Fault Value)) (value : Str) :
    Except Fault Value :=
  if value = [] then .ok Value.null
  else if toLower value = "true".toList ∨ toLower value = "false".toList then
    .ok (Value.bool ((parseBool value).getD false))
  else
    match parseInt value with
    | some intValue => .ok (Value.int intValue)
    | none =>
      match parseFloat value with
      | some floatValue => .ok (Value.float floatValue)
      | none =>
        if hasPrefix value sq ∧ hasSuffix value sq then
          (slice value 1 (value.length - 1)).map Value.str
        else if hasPrefix value dq ∧ hasSuffix value dq then
          (slice value 1 (value.length - 1)).map Value.str
        else if hasPrefix value '{' ∧ hasSuffix value '}' then
          match self with
          | none => .error Fault.outOfFuel
          | some pv =>
            match slice value 1 (value.length - 1) with
            | .error e => .error e
            | .ok inner => (inlinePairs pv (split ',' inner) []).map Value.node
        else if hasPrefix value '[' ∧ hasSuffix value ']' then
          match self with
          | none => .error Fault.outOfFuel
          | some pv =>
            match slice value 1 (value.length - 1) with
            | .error e => .error e
            | .ok inner => (inlineItems pv (split ',' inner) []).map Value.seq
        else .ok (Value.str value)

/-- The function `parseValue` with fuel for its recursion. -/
def parseValueAux : Nat → Str → Except Fault Value
  | 0 => parseValueBody none
  | fuel + 1 => parseValueBody (some (parseValueAux fuel))

/-- The function `parseValue`: the recursion is on text at least two
characters shorter, so the length of the text is enough fuel. -/
def parseValue (value : Str) : Except Fault Value :=
  parseValueAux value.length value

/-! ## The block parser -/

/-- The function `getIndent` (source lines 152-164): one for each leading
space, eight for each leading tab. -/
def getIndent : Str → Nat
  | [] => 0
  | c :: cs =>
    if c = ' ' then getIndent cs + 1
    else if c = Char.ofNat 9 then getIndent cs + 8
    else 0

/-- The function `isList` (source lines 231-233). -/
def isList (line : Str) : Bool := hasPrefix (trimSpace line) '-'

/-- The function `getIndentedBlock` (source lines 167-183), with `parse` the
call of `parseYAMLLines`: the leading lines indented at least as far as the
first one, parsed, and their number.  `lines[0]` is out of range for an empty
slice. -/
def getIndentedBlock (parse : List Str → Except Fault Node) (lines : List Str) :
    Except Fault (Node × Nat) :=
  match lines with
  | [] => .error Fault.indexOutOfRange
  | l0 :: _ =>
    let blockLines := lines.takeWhile (fun l => decide (¬ getIndent l < getIndent l0))
    match parse blockLines with
    | .error e => .error e
    | .ok childNode => .ok (childNode, blockLines.length)

/-- The loop over the items of a block sequence (source lines 82-105).  The
cursor `i` is represented by the lines from `lines[i]` on.  The result is the
list built and the lines at which the outer loop goes on after its own `i++`:
after a blank line, at a line that is not an item (the source steps back one
line, the outer loop forward again), or at the end.  The assignment to
`block[0]` writes the line with its first `-` replaced into the slice; that
line is not read again by this call, so the embedding only passes it on. -/
def listLoop (parse : List Str → Except Fault Node) (pv : Str → Except Fault Value) :
    Nat → List Str → List Value → Except Fault (List Value × List Str)
  | _, [], list => .ok (list, [])
  | 0, _ :: _, _ => .error Fault.outOfFuel
  | fuel + 1, raw :: tl, list =>
    let line := trimSpace raw
    if isList line then
      if contains line ':' then
        match getIndentedBlock parse (replaceFirst '-' ' ' raw :: tl) with
        | .error e => .error e
        | .ok (item, childLines) =>
          listLoop parse pv fuel ((raw :: tl).drop childLines) (list ++ [Value.node item])
      else
        match pv (trimSpace (trimPrefix line '-')) with
        | .error e => .error e
        | .ok item => listLoop parse pv fuel tl (list ++ [item])
    else if line = [] then .ok (list, tl)
    else .ok (list, raw :: tl)

/-- One line of a multiline block (source lines 122-131): the trimmed line, or
for a blank line the marker, a newline in a folded block and the empty text in
a literal block. -/
def blockLine (folded : Bool) (raw : Str) : Str :=
  if trimSpace raw = [] then (if folded then [nl] else []) else trimSpace raw

/-- The text of a multiline block (source lines 135-141). -/
def blockText (folded : Bool) (blockLines : List Str) : Str :=
  if folded then foldBreaks (join [' '] blockLines) else join [nl] blockLines

/-- The loop of `parseYAMLLines` (source lines 57-146).  The cursor `i` is
represented by the lines from `lines[i]` on, and `first` tells whether `i` is
zero; `node` is the map built so far. -/
def parseLinesAux : Nat → Bool → List Str → Node → Except Fault Node
  | _, _, [], node => .ok node
  | 0, _, _ :: _, _ => .error Fault.outOfFuel
  | fuel + 1, first, raw :: tl, node =>
    let line := trimSpace raw
    if line = [] ∨ line.head? = some '#' then parseLinesAux fuel false tl node
    else if line = "---".toList then
      if first then parseLinesAux fuel false tl node else .ok node
    else
      match splitN2 ':' line with
      | [k, v] =>
        let key := trimSpace k
        let value := trimSpace v
        if value = [] ∧ tl ≠ [] then
          if isList (tl.headD []) then
            match listLoop (fun b => parseLinesAux fuel true b []) parseValue fuel tl [] with
            | .error e => .error e
            | .ok (list, rest) => parseLinesAux fuel false rest (node.set key (Value.seq list))
          else
            match getIndentedBlock (fun b => parseLinesAux fuel true b []) tl with
            | .error e => .error e
            | .ok (childNode, childLines) =>
              parseLinesAux fuel false (tl.drop childLines) (node.set key (Value.node childNode))
        else if hasPrefix value '|' ∨ hasPrefix value '>' then
          match tl with
          | [] => .error Fault.indexOutOfRange
          | l0 :: _ =>
            let consumed := tl.takeWhile (fun l => decide (¬ getIndent l < getIndent l0))
            let blockLines := consumed.map (blockLine (hasPrefix value '>'))
            parseLinesAux fuel false (tl.drop consumed.length)
              (node.set key (Value.str (blockText (hasPrefix value '>') blockLines)))
        else
          match parseValue value with
          | .error e => .error e
          | .ok val => parseLinesAux fuel false tl (node.set key val)
      | _ => parseLinesAux fuel false tl node

/-- The function `parseYAMLLines` (source lines 53-149): each step of the loop
and each recursive call works on fewer lines, so the number of lines is enough
fuel. -/
def parseYAMLLines (lines : List Str) : Except Fault Node :=
  parseLinesAux lines.length true lines []

/-- The function `ParseYAML` (source lines 48-50). -/
def ParseYAML (input : Str) : Except Fault Node :=
  parseYAMLLines (split nl input)

/-! ## The path accessor -/

/-- The function `strings.Index(s, c)` for a one-character `c`: the position of
its first occurrence, or -1 when it does not occur. -/
def index (s : Str) (c : Char) : Int :=
  if c ∈ s then (s.indexOf c : Nat) else -1

/-- The slice expression `s[lo:hi]` with bounds of the Go type `int`. -/
def sliceInt (s : Str) (lo hi : Int) : Except Fault Str :=
  if 0 ≤ lo ∧ lo ≤ hi ∧ hi ≤ s.length then .ok ((s.take hi.toNat).drop lo.toNat)
  else .error Fault.sliceBoundsOutOfRange

/-- The function `strconv.Atoi`, with `none` for any error.  On a 64-bit
platform its fast path and `ParseInt(s, 10, 0)` accept the same texts with the
same values. -/
def atoi (s : Str) : Option Int := parseInt s

/-- The comparison `value == nil`. -/
def Value.isNil : Value → Bool
  | .null => true
  | _ => false

/-- The type assertion `value.(YAMLNode)` with its second result dropped: the
map when the value is one, the nil map otherwise. -/
def asNode : Value → Node
  | .node m => m
  | _ => []

/-- The map read `n[key]`: `nil` for an absent key. -/
def Node.read (n : Node) (key : Str) : Value := (n.get? key).getD Value.null

/-- The index expression `list[index]` with an index of the Go type `int`. -/
def elemAt (list : List Value) (i : Int) : Except Fault Value :=
  if 0 ≤ i then
    match list.get? i.toNat with
    | some v => .ok v
    | none => .error Fault.indexOutOfRange
  else .error Fault.indexOutOfRange

/-- The value one part of a path addresses in the map `n` (source lines
17-36); `none` is a `return nil` of the source. -/
def pathPart (n : Node) (part : Str) : Except Fault (Option Value) :=
  if contains part '[' ∧ contains part ']' then
    match sliceInt part 0 (index part '[') with
    | .error e => .error e
    | .ok key =>
      match sliceInt part (index part '[' + 1) (index part ']') with
      | .error e => .error e
      | .ok indexStr =>
        match atoi indexStr with
        | none => .ok none
        | some idx =>
          match n.read key with
          | .seq list =>
            if idx ≥ list.length then .ok none
            else (elemAt list idx).map some
          | _ => .ok none
  else .ok (some (n.read part))

/-- The loop of `Path` (source lines 16-41) over the parts that are left, with
the current map `n` and the current `value`.  The result `Value.null` is the
`nil` of the source. -/
def pathLoop : List Str → Node → Value → Except Fault Value
  | [], _, value => .ok value
  | part :: parts, n, _ =>
    match pathPart n part with
    | .error e => .error e
    | .ok none => .ok Value.null
    | .ok (some value) =>
      if value.isNil then .ok Value.null
      else pathLoop parts (asNode value) value

/-- The method `Path` (source lines 13-43). -/
def Path (n : Node) (path : Str) : Except Fault Value :=
  pathLoop (split '.' path) n (Value.node n)

/-! ## Definitions used to state the properties -/

/-- Characters with which no boolean and no number accepted by `parseValue`
starts: not a digit, a sign, a point, an underscore, the first letter of `inf`
or `nan`, or a letter that lowers to the first letter of `true` or `false`. -/
def plainStart (c : Char) : Bool :=
  (digitVal c).isNone && c != '+' && c != '-' && c != '.' && c != '_' && c != 'i' && c != 'I' &&
  c != 'n' && c != 'N' && toLowerRune c != 't' && toLowerRune c != 'f'

/-- The text `{k1: v1, ..., kn: vn}` of an inline map with the given key and
value texts. -/
def inlineMapText (pairs : List (Str × Str)) : Str :=
  '{' :: (join ", ".toList (pairs.map fun kv => kv.1 ++ ": ".toList ++ kv.2) ++ ['}'])

/-- The map obtained from the empty map by assigning the pairs in order. -/
def Node.ofList (kvs : List (Str × Value)) : Node :=
  kvs.foldl (fun n kv => n.set kv.1 kv.2) []

/-- The value of the last pair with key `q`, if there is one. -/
def lastValue (kvs : List (Str × Value)) (q : Str) : Option Value :=
  (kvs.reverse.find? fun kv => decide (kv.1 = q)).map Prod.snd

/-- The canonical base-10 text of an integer, as `strconv.FormatInt(n, 10)`
writes it: the decimal digits of the absolute value without leading zeros,
after a minus sign when the integer is negative. -/
def formatInt (n : Int) : Str :=
  if n < 0 then '-' :: Nat.toDigits 10 n.natAbs else Nat.toDigits 10 n.toNat

/-- The classification of one `key: value` pair: the trimmed key with
`parseValue` of the trimmed value text; a fault of `parseValue` is passed on. -/
def classifyPair (kv : Str × Str) : Except Fault (Str × Value) :=
  Except.map (fun w => (trimSpace kv.1, w)) (parseValue (trimSpace kv.2))

/-- A line of a flat document: a `key: value` line, or a line that is blank or
a comment. -/
inductive DocLine where
  | entry (key value : Str)
  | filler (text : Str)

/-- The text of a line. -/
def DocLine.text : DocLine → Str
  | .entry k v => k ++ ": ".toList ++ v
  | .filler t => t

/-- The conditions on the lines of a flat document.  A key has no colon and
does not start a comment; a value is not empty after trimming and does not
start with `|` or `>`; a filler line is blank or a comment; no text contains a
line break. -/
def DocLine.wellFormed : DocLine → Prop
  | .entry k v =>
    ':' ∉ k ∧ nl ∉ k ∧ nl ∉ v ∧ hasPrefix (trimSpace k) '#' = false ∧ trimSpace v ≠ [] ∧
      hasPrefix (trimSpace v) '|' = false ∧ hasPrefix (trimSpace v) '>' = false
  | .filler t => nl ∉ t ∧ (trimSpace t = [] ∨ hasPrefix (trimSpace t) '#' = true)

/-- The `key: value` pairs of a flat document, in the order of the lines. -/
def docEntries : List DocLine → List (Str × Str)
  | [] => []
  | .entry k v :: rest => (k, v) :: docEntries rest
  | .filler _ :: rest => docEntries rest

/-- Text made of spaces and tabs only, as the indentation of a line. -/
def isIndentation (ind : Str) : Prop := ∀ c ∈ ind, c = ' ' ∨ c = Char.ofNat 9

/-- The conditions on a key that introduces a block: no colon, no line break,
not the start of a comment. -/
def blockKey (k : Str) : Prop :=
  ':' ∉ k ∧ nl ∉ k ∧ hasPrefix (trimSpace k) '#' = false

/-- The lines of a block sequence of scalars under the key `k`: the line `k:`
and one line `- t` for each token, all with the indentation `ind`. -/
def scalarSequenceLines (k ind : Str) (ts : List Str) : List Str :=
  (k ++ ":".toList) :: ts.map fun t => ind ++ "- ".toList ++ t

/-- The lines of one item of a block sequence of maps: the first pair on the
`- ` line, the other pairs on the following lines, aligned with the first key. -/
def itemLines (ind : Str) : List (Str × Str) → List Str
  | [] => []
  | kv :: others =>
    (ind ++ "- ".toList ++ (kv.1 ++ ": ".toList ++ kv.2)) ::
      others.map fun kv1 => ind ++ "  ".toList ++ (kv1.1 ++ ": ".toList ++ kv1.2)

/-- The lines of a block sequence of maps under the key `k`. -/
def mapSequenceLines (k ind : Str) (items : List (List (Str × Str))) : List Str :=
  (k ++ ":".toList) :: (items.map (itemLines ind)).flatten

/-- The conditions on a `key: value` pair of an item: the key has no colon,
does not start a comment and does not start with a space or a tab (it stands
at its column); the value is a plain scalar text, not empty after trimming and
not starting with `|` or `>`; no text contains a line break. -/
def itemPair (kv : Str × Str) : Prop :=
  ':' ∉ kv.1 ∧ nl ∉ kv.1 ∧ nl ∉ kv.2 ∧ hasPrefix (trimSpace kv.1) '#' = false ∧
    getIndent kv.1 = 0 ∧ trimSpace kv.2 ≠ [] ∧
    hasPrefix (trimSpace kv.2) '|' = false ∧ hasPrefix (trimSpace kv.2) '>' = false

/-- The map of one item: its pairs classified in order and assigned. -/
def itemNode (item : List (Str × Str)) : Except Fault Value :=
  Except.map (fun kvs => Value.node (Node.ofList kvs)) (item.mapM classifyPair)

/-- A segment of a path expression: `name`, or `name[i]`. -/
inductive Segment where
  | key (name : Str)
  | indexed (name : Str) (i : Nat)

/-- The name of a segment. -/
def Segment.name : Segment → Str
  | .key name => name
  | .indexed name _ => name

/-- The text of a segment; the index is written in decimal. -/
def Segment.text : Segment → Str
  | .key name => name
  | .indexed name i => name ++ '[' :: (Nat.toDigits 10 i ++ [']'])

/-- The condition on the name of a segment: no `.`, `[` or `]`. -/
def Segment.wellFormed (s : Segment) : Prop :=
  '.' ∉ s.name ∧ '[' ∉ s.name ∧ ']' ∉ s.name

/-- Whether the index of a segment is a value of the Go type `int`, that is,
below `2^63`.  The length of a Go slice is an `int`, so an index that is not is
below the length of no Sequence. -/
def Segment.fitsInt : Segment → Bool
  | .key _ => true
  | .indexed _ i => decide (i < 2 ^ 63)

/-- One step of the resolution of a path as the specification words it: a
segment `name` looks the name up in the current Node; a segment `name[i]` looks
the name up, requires a Sequence longer than `i` and takes its element `i`.  A
missing key, a Null value, a value that is no Sequence under an indexed
segment, or an index not below the length gives not-found (`none`). -/
def resolveSegment (n : Node) : Segment → Option Value
  | .key name =>
    match n.get? name with
    | some v => if v.isNil then none else some v
    | none => none
  | .indexed name i =>
    match n.get? name with
    | some (.seq items) =>
      match items.get? i with
      | some v => if v.isNil then none else some v
      | none => none
    | _ => none

/-- The stepwise resolution of a path from a current value, as the
specification words it: the value reached after the last segment; a Node value
becomes the current Node for the next segment, and a current value that is no
Node while segments remain gives not-found. -/
def resolve : Value → List Segment → Option Value
  | v, [] => some v
  | .node n, seg :: rest =>
    match resolveSegment n seg with
    | some w => resolve w rest
    | none => none
  | _, _ :: _ => none

/-- The Node of the repository's tests of `Path`: under the key `a` a Sequence
of one Node, in which the key `b` has the String `v1`. -/
def testNode : Node :=
  [("a".toList, Value.seq [Value.node [("b".toList, Value.str "v1".toList)]])]

/-- The content lines of a folded block: the lines of the first paragraph, then
for each further paragraph its separator line and its lines. -/
def foldedContent (p0 : List Str) (rest : List (Str × List Str)) : List Str :=
  p0 ++ (rest.map fun sp => sp.1 :: sp.2).flatten

/-- The text of a paragraph: its trimmed lines joined by a single space. -/
def paragraphText (p : List Str) : Str := join [' '] (p.map trimSpace)

/-- Two lines that differ only in their leading white space, in a way that
leaves the indentation `getIndent` counts unchanged whatever follows the white
space: each is white space followed by the same text `body`. -/
def IndentEquiv (l l1 : Str) : Prop :=
  ∃ ws ws1 body : Str, l = ws ++ body ∧ l1 = ws1 ++ body ∧
    (∀ c ∈ ws, isSpace c = true) ∧ (∀ c ∈ ws1, isSpace c = true) ∧
    ∀ x : Str, getIndent (ws ++ x) = getIndent (ws1 ++ x)

/-- One iteration of the loop of `parseYAMLLines` (source lines 58-145) as
`parseLinesAux` runs it, at the line `raw` with the lines `tl` after it: the
map after the iteration and the lines from the cursor of the next iteration on,
or `none` after a `break`.  `parse` is the recursive call of `parseYAMLLines`
and `fuel` the fuel of the list loop. -/
def loopStep (parse : List Str → Except Fault Node) (fuel : Nat) (first : Bool) (raw : Str)
    (tl : List Str) (node : Node) : Except Fault (Node × Option (List Str)) :=
  let line := trimSpace raw
  if line = [] ∨ line.head? = some '#' then .ok (node, some tl)
  else if line = "---".toList then
    if first then .ok (node, some tl) else .ok (node, none)
  else
    match splitN2 ':' line with
    | [k, v] =>
      let key := trimSpace k
      let value := trimSpace v
      if value = [] ∧ tl ≠ [] then
        if isList (tl.headD []) then
          match listLoop parse parseValue fuel tl [] with
          | .error e => .error e
          | .ok (list, rest) => .ok (node.set key (Value.seq list), some rest)
        else
          match getIndentedBlock parse tl with
          | .error e => .error e
          | .ok (childNode, childLines) =>
            .ok (node.set key (Value.node childNode), some (tl.drop childLines))
      else if hasPrefix value '|' ∨ hasPrefix value '>' then
        match tl with
        | [] => .error Fault.indexOutOfRange
        | l0 :: _ =>
          let consumed := tl.takeWhile (fun l => decide (¬ getIndent l < getIndent l0))
          let blockLines := consumed.map (blockLine (hasPrefix value '>'))
          .ok (node.set key (Value.str (blockText (hasPrefix value '>') blockLines)),
            some (tl.drop consumed.length))
      else
        match parseValue value with
        | .error e => .error e
        | .ok val => .ok (node.set key val, some tl)
    | _ => .ok (node, some tl)

/-- How the loop of `parseYAMLLines` goes on after an iteration: with the next
iteration, or with the map as the result after a `break`. -/
def loopNext (fuel : Nat) (r : Node × Option (List Str)) : Except Fault Node :=
  match r.2 with
  | none => .ok r.1
  | some rest => parseLinesAux fuel false rest r.1

/-! # Properties -/

/-! ## Scalars: texts that are not booleans or numbers -/

theorem parseInt_none_of_plainStart (c : Char) (s : Str) (h : plainStart c = true) :
    parseInt (c :: s) = none := by
  simp only [plainStart, Bool.and_eq_true, Option.isNone_iff_eq_none, bne_iff_ne, ne_eq] at h
  obtain ⟨⟨⟨⟨⟨⟨⟨⟨⟨⟨hd, hp⟩, hm⟩, _⟩, _⟩, _⟩, _⟩, _⟩, _⟩, _⟩, _⟩ := h
  simp [parseInt, hp, hm, parseUint, parseUintLoop, hd]

theorem parseFloat_none_of_plainStart (c : Char) (s : Str) (h : plainStart c = true) :
    parseFloat (c :: s) = none := by
  simp only [plainStart, Bool.and_eq_true, Option.isNone_iff_eq_none, bne_iff_ne, ne_eq] at h
  obtain ⟨⟨⟨⟨⟨⟨⟨⟨⟨⟨hd, hp⟩, hm⟩, hdot⟩, hu⟩, hi⟩, hI⟩, hn⟩, hN⟩, _⟩, _⟩ := h
  have h0 : c ≠ '0' := by
    rintro rfl; exact absurd hd (by decide)
  have hx : hasHexPrefix (c :: s) = false := by
    unfold hasHexPrefix
    split <;> simp_all
  simp [parseFloat, special, hp, hm, hi, hI, hn, hN, readFloat, readFloatUnsigned, hx,
    readMantissa, hu, hdot, hd]

theorem toLower_ne_of_plainStart (c : Char) (s : Str) (h : plainStart c = true) :
    ¬ (toLower (c :: s) = "true".toList ∨ toLower (c :: s) = "false".toList) := by
  simp only [plainStart, Bool.and_eq_true, bne_iff_ne, ne_eq] at h
  obtain ⟨⟨_, ht⟩, hf⟩ := h
  simp only [toLower, List.map_cons]
  rintro (h | h)
  · exact ht (List.cons.inj h).1
  · exact hf (List.cons.inj h).1


theorem plainStart_sq : plainStart sq = true := by decide
theorem plainStart_dq : plainStart dq = true := by decide
theorem plainStart_lbracket : plainStart '[' = true := by decide
theorem plainStart_lbrace : plainStart '{' = true := by decide

theorem getLast?_cons_append_singleton (c : Char) (s : Str) (d : Char) :
    (c :: (s ++ [d])).getLast? = some d := by
  rw [← List.cons_append, List.getLast?_append]
  simp

theorem slice_inner (c : Char) (s : Str) (d : Char) :
    slice (c :: (s ++ [d])) 1 ((c :: (s ++ [d])).length - 1) = .ok s := by
  simp [slice]

theorem slice_inner_succ (c : Char) (s : Str) (d : Char) :
    slice (c :: (s ++ [d])) 1 (s.length + 1) = .ok s := by
  simp [slice]

/-- What `parseValueBody` does on a text that is neither empty, a boolean nor a number. -/
theorem parseValueBody_plain (self : Option (Str → Except Fault Value)) (c : Char) (s : Str)
    (h : plainStart c = true) :
    parseValueBody self (c :: s) =
      if hasPrefix (c :: s) sq ∧ hasSuffix (c :: s) sq then
        (slice (c :: s) 1 ((c :: s).length - 1)).map Value.str
      else if hasPrefix (c :: s) dq ∧ hasSuffix (c :: s) dq then
        (slice (c :: s) 1 ((c :: s).length - 1)).map Value.str
      else if hasPrefix (c :: s) '{' ∧ hasSuffix (c :: s) '}' then
        match self with
        | none => .error Fault.outOfFuel
        | some pv =>
          match slice (c :: s) 1 ((c :: s).length - 1) with
          | .error e => .error e
          | .ok inner => (inlinePairs pv (split ',' inner) []).map Value.node
      else if hasPrefix (c :: s) '[' ∧ hasSuffix (c :: s) ']' then
        match self with
        | none => .error Fault.outOfFuel
        | some pv =>
          match slice (c :: s) 1 ((c :: s).length - 1) with
          | .error e => .error e
          | .ok inner => (inlineItems pv (split ',' inner) []).map Value.seq
      else .ok (Value.str (c :: s)) := by
  unfold parseValueBody
  rw [if_neg (by simp), if_neg (toLower_ne_of_plainStart c s h),
    parseInt_none_of_plainStart c s h, parseFloat_none_of_plainStart c s h]

theorem parseValue_eq_body (value : Str) :
    parseValue value = parseValueBody
      (match value.length with
       | 0 => none
       | n + 1 => some (parseValueAux n)) value := by
  unfold parseValue
  cases value.length <;> rfl

/-- C5: for every text `s`, `parseValue` of `s` between two single quotes, and
of `s` between two double quotes, is the String `s`: the two enclosing quotes
are removed and nothing else is done to `s`, which may itself contain quotes
or look like a number. -/
theorem parseValue_quoted (s : Str) :
    parseValue (sq :: (s ++ [sq])) = .ok (Value.str s) ∧
    parseValue (dq :: (s ++ [dq])) = .ok (Value.str s) := by
  constructor
  · rw [parseValue_eq_body, parseValueBody_plain _ _ _ plainStart_sq]
    simp [hasPrefix, hasSuffix, getLast?_cons_append_singleton, slice_inner_succ, Except.map]
  · rw [parseValue_eq_body, parseValueBody_plain _ _ _ plainStart_dq]
    have : ¬ (dq = sq) := by decide
    simp [hasPrefix, hasSuffix, getLast?_cons_append_singleton, slice_inner_succ, Except.map, this]

/-! ## Fuel of `parseValue` -/

theorem length_le_of_mem_split (sep : Char) :
    ∀ (t : Str) (p : Str), p ∈ split sep t → p.length ≤ t.length
  | [], p, h => by
    simp [split] at h
    simp [h]
  | c :: cs, p, h => by
    have ih := length_le_of_mem_split sep cs
    unfold split at h
    split at h
    · rcases List.mem_cons.1 h with rfl | h
      · simp
      · exact Nat.le_succ_of_le (ih p h)
    · split at h
      · simp at h
        simp [h]
      · next q qs hq =>
        rcases List.mem_cons.1 h with rfl | h
        · have := ih q (by rw [hq]; exact List.mem_cons_self _ _)
          simpa using this
        · exact Nat.le_succ_of_le (ih p (by rw [hq]; exact List.mem_cons_of_mem _ h))

theorem trimSpace_length_le (s : Str) : (trimSpace s).length ≤ s.length := by
  unfold trimSpace
  exact le_trans (List.rdropWhile_prefix isSpace _).length_le (List.dropWhile_suffix isSpace).length_le


theorem slice_ok_length (s inner : Str) (h : slice s 1 (s.length - 1) = .ok inner) :
    inner.length + 2 ≤ s.length := by
  unfold slice at h
  split at h
  · next hc =>
    injection h with h
    subst h
    simp
    omega
  · cases h

theorem length_splitN2_get (sep : Char) :
    ∀ (t p1 : Str), (splitN2 sep t).get? 1 = some p1 → p1.length ≤ t.length
  | [], p1, h => by simp [splitN2] at h
  | c :: cs, p1, h => by
    have ih := length_splitN2_get sep cs
    unfold splitN2 at h
    split at h
    · simp at h
      simp [← h]
    · split at h
      · next a b hab =>
        simp at h
        have := ih b (by rw [hab]; rfl)
        subst h
        simp; omega
      · simp at h

theorem inlineItems_congr (pv1 pv2 : Str → Except Fault Value) :
    ∀ (l : List Str) (acc : List Value), (∀ p ∈ l, pv1 (trimSpace p) = pv2 (trimSpace p)) →
      inlineItems pv1 l acc = inlineItems pv2 l acc
  | [], acc, _ => rfl
  | p :: l, acc, h => by
    unfold inlineItems
    rw [h p (List.mem_cons_self _ _)]
    cases pv2 (trimSpace p) with
    | error e => rfl
    | ok v => exact inlineItems_congr pv1 pv2 l _ (fun q hq => h q (List.mem_cons_of_mem _ hq))

theorem inlinePairs_congr (pv1 pv2 : Str → Except Fault Value) :
    ∀ (l : List Str) (m : Node),
      (∀ p ∈ l, ∀ p1, (splitN2 ':' p).get? 1 = some p1 → pv1 (trimSpace p1) = pv2 (trimSpace p1)) →
      inlinePairs pv1 l m = inlinePairs pv2 l m
  | [], m, _ => rfl
  | p :: l, m, h => by
    unfold inlinePairs
    simp only []
    cases hp : (splitN2 ':' p).get? 1 with
    | none => rfl
    | some p1 =>
      simp only []
      rw [h p (List.mem_cons_self _ _) p1 hp]
      cases pv2 (trimSpace p1) with
      | error e => rfl
      | ok v => exact inlinePairs_congr pv1 pv2 l _ (fun q hq => h q (List.mem_cons_of_mem _ hq))

theorem parseValueBody_congr (pv1 pv2 : Str → Except Fault Value) (s : Str)
    (h : ∀ t : Str, t.length + 2 ≤ s.length → pv1 t = pv2 t) :
    parseValueBody (some pv1) s = parseValueBody (some pv2) s := by
  unfold parseValueBody
  cases hs : slice s 1 (s.length - 1) with
  | error e => rfl
  | ok inner =>
    have hl := slice_ok_length s inner hs
    have h1 : inlinePairs pv1 (split ',' inner) [] = inlinePairs pv2 (split ',' inner) [] := by
      apply inlinePairs_congr
      intro p hp p1 hp1
      apply h
      have a1 := length_le_of_mem_split ',' inner p hp
      have a2 := length_splitN2_get ':' p p1 hp1
      have a3 := trimSpace_length_le p1
      omega
    have h2 : inlineItems pv1 (split ',' inner) [] = inlineItems pv2 (split ',' inner) [] := by
      apply inlineItems_congr
      intro p hp
      apply h
      have a1 := length_le_of_mem_split ',' inner p hp
      have a3 := trimSpace_length_le p
      omega
    simp only [h1, h2]

theorem parseValueBody_nil (self : Option (Str → Except Fault Value)) :
    parseValueBody self [] = .ok Value.null := by
  simp [parseValueBody]

/-- The result of `parseValueAux` does not depend on the fuel once the fuel is
at least the length of the text. -/
theorem parseValueAux_fuel : ∀ (n m : Nat) (s : Str), s.length ≤ n → s.length ≤ m →
    parseValueAux n s = parseValueAux m s
  | 0, m, s, hn, _ => by
    have : s = [] := List.length_eq_zero.1 (Nat.le_zero.1 hn)
    subst this
    cases m <;> simp [parseValueAux, parseValueBody_nil]
  | n + 1, 0, s, _, hm => by
    have : s = [] := List.length_eq_zero.1 (Nat.le_zero.1 hm)
    subst this
    simp [parseValueAux, parseValueBody_nil]
  | n + 1, m + 1, s, hn, hm => by
    simp only [parseValueAux]
    apply parseValueBody_congr
    intro t ht
    exact parseValueAux_fuel n m t (by omega) (by omega)

theorem parseValueAux_eq (n : Nat) (s : Str) (h : s.length ≤ n) :
    parseValueAux n s = parseValue s :=
  parseValueAux_fuel n s.length s h (le_refl _)

theorem inlineItems_ne_outOfFuel (pv : Str → Except Fault Value) :
    ∀ (l : List Str) (acc : List Value),
      (∀ p ∈ l, pv (trimSpace p) ≠ .error Fault.outOfFuel) →
      inlineItems pv l acc ≠ .error Fault.outOfFuel
  | [], acc, _ => by simp [inlineItems]
  | p :: l, acc, h => by
    unfold inlineItems
    have hp := h p (List.mem_cons_self _ _)
    cases hv : pv (trimSpace p) with
    | error e =>
      rw [hv] at hp
      simpa using hp
    | ok v => exact inlineItems_ne_outOfFuel pv l _ (fun q hq => h q (List.mem_cons_of_mem _ hq))

theorem inlinePairs_ne_outOfFuel (pv : Str → Except Fault Value) :
    ∀ (l : List Str) (m : Node),
      (∀ p ∈ l, ∀ p1, (splitN2 ':' p).get? 1 = some p1 →
        pv (trimSpace p1) ≠ .error Fault.outOfFuel) →
      inlinePairs pv l m ≠ .error Fault.outOfFuel
  | [], m, _ => by simp [inlinePairs]
  | p :: l, m, h => by
    unfold inlinePairs
    simp only []
    cases hp : (splitN2 ':' p).get? 1 with
    | none => simp
    | some p1 =>
      simp only []
      have hp1 := h p (List.mem_cons_self _ _) p1 hp
      cases hv : pv (trimSpace p1) with
      | error e =>
        rw [hv] at hp1
        simpa using hp1
      | ok v => exact inlinePairs_ne_outOfFuel pv l _ (fun q hq => h q (List.mem_cons_of_mem _ hq))

theorem map_ne_outOfFuel {α β : Type} (f : α → β) (x : Except Fault α)
    (h : x ≠ .error Fault.outOfFuel) : Except.map f x ≠ .error Fault.outOfFuel := by
  cases x with
  | error e => simpa [Except.map] using h
  | ok a => simp [Except.map]

theorem slice_ne_outOfFuel (s : Str) (lo hi : Nat) : slice s lo hi ≠ .error Fault.outOfFuel := by
  unfold slice
  split <;> simp

theorem matchSlice_ne_outOfFuel (s : Str) (f : Str → Except Fault Value)
    (hf : ∀ inner, slice s 1 (s.length - 1) = .ok inner → f inner ≠ .error Fault.outOfFuel) :
    (match slice s 1 (s.length - 1) with
      | Except.error e => Except.error e
      | Except.ok inner => f inner) ≠ Except.error Fault.outOfFuel := by
  have hsl := slice_ne_outOfFuel s 1 (s.length - 1)
  cases hs : slice s 1 (s.length - 1) with
  | error e =>
    rw [hs] at hsl
    simpa using hsl
  | ok inner => exact hf inner hs

theorem parseValueBody_some_ne_outOfFuel (pv : Str → Except Fault Value) (s : Str)
    (h : ∀ t : Str, t.length + 2 ≤ s.length → pv t ≠ .error Fault.outOfFuel) :
    parseValueBody (some pv) s ≠ .error Fault.outOfFuel := by
  unfold parseValueBody
  by_cases h1 : s = []
  · simp [h1]
  rw [if_neg h1]
  by_cases h2 : toLower s = "true".toList ∨ toLower s = "false".toList
  · rw [if_pos h2]
    simp
  rw [if_neg h2]
  cases parseInt s with
  | some n => simp
  | none =>
    cases parseFloat s with
    | some f => simp
    | none =>
      simp only []
      split_ifs
      · exact map_ne_outOfFuel _ _ (slice_ne_outOfFuel _ _ _)
      · exact map_ne_outOfFuel _ _ (slice_ne_outOfFuel _ _ _)
      · apply matchSlice_ne_outOfFuel
        intro inner hs
        have hl := slice_ok_length s inner hs
        apply map_ne_outOfFuel
        apply inlinePairs_ne_outOfFuel
        intro p hp p1 hp1
        apply h
        have a1 := length_le_of_mem_split ',' inner p hp
        have a2 := length_splitN2_get ':' p p1 hp1
        have a3 := trimSpace_length_le p1
        omega
      · apply matchSlice_ne_outOfFuel
        intro inner hs
        have hl := slice_ok_length s inner hs
        apply map_ne_outOfFuel
        apply inlineItems_ne_outOfFuel
        intro p hp
        apply h
        have a1 := length_le_of_mem_split ',' inner p hp
        have a3 := trimSpace_length_le p
        omega
      · simp

theorem parseValueAux_ne_outOfFuel : ∀ (n : Nat) (s : Str), s.length ≤ n →
    parseValueAux n s ≠ .error Fault.outOfFuel
  | 0, s, hn => by
    have : s = [] := List.length_eq_zero.1 (Nat.le_zero.1 hn)
    subst this
    simp [parseValueAux, parseValueBody_nil]
  | n + 1, s, hn => by
    simp only [parseValueAux]
    apply parseValueBody_some_ne_outOfFuel
    intro t ht
    exact parseValueAux_ne_outOfFuel n t (by omega)

/-- The embedding of `parseValue` never runs out of fuel: each result is a
value or a fault of the Go program. -/
theorem parseValue_ne_outOfFuel (s : Str) : parseValue s ≠ .error Fault.outOfFuel :=
  parseValueAux_ne_outOfFuel s.length s (le_refl _)

/-! ## Inline arrays and maps -/

theorem inlineItems_eq_mapM (pv : Str → Except Fault Value) :
    ∀ (l : List Str) (acc : List Value),
      inlineItems pv l acc = Except.map (fun vs => acc ++ vs) (l.mapM fun p => pv (trimSpace p))
  | [], acc => by
    rw [List.mapM_nil]
    simp [inlineItems, Except.map, pure, Except.pure]
  | p :: l, acc => by
    unfold inlineItems
    rw [List.mapM_cons]
    cases hv : pv (trimSpace p) with
    | error e => simp [Except.map, bind, Except.bind]
    | ok v =>
      simp only [inlineItems_eq_mapM pv l, bind, Except.bind]
      cases l.mapM fun p => pv (trimSpace p) with
      | error e => simp [Except.map]
      | ok vs => simp [Except.map, pure, Except.pure]

theorem length_split (sep : Char) : ∀ t : Str, (split sep t).length = t.count sep + 1
  | [] => by simp [split]
  | c :: cs => by
    have ih := length_split sep cs
    unfold split
    by_cases h : c = sep
    · subst h
      simp [ih]
    · rw [if_neg h]
      have hc : (c == sep) = false := by simpa using h
      rw [List.count_cons, hc]
      cases hs : split sep cs with
      | nil => rw [hs] at ih; simp at ih
      | cons p ps =>
        rw [hs] at ih
        simpa using ih

theorem map_append_nil (x : Except Fault (List Value)) :
    Except.map (fun vs => ([] : List Value) ++ vs) x = x := by
  cases x <;> simp [Except.map]

theorem hasPrefix_cons (c : Char) (s : Str) (d : Char) :
    hasPrefix (c :: s) d = decide (c = d) := by
  simp [hasPrefix]

/-- For every interior text `t`, `parseValue` of `[` + `t` + `]` is the Sequence
of the results of `parseValue` on the trimmed pieces of `t` between its commas,
in the order of the pieces.  The equation is one of results that may be
faults: when `parseValue` faults on a piece, the call on the bracketed text
faults in the same way, at the first such piece. -/
theorem parseValue_inline_array (t : Str) :
    parseValue ('[' :: (t ++ [']'])) =
      Except.map Value.seq ((split ',' t).mapM fun p => parseValue (trimSpace p)) := by
  rw [parseValue_eq_body, parseValueBody_plain _ _ _ plainStart_lbracket]
  have e1 : hasPrefix ('[' :: (t ++ [']'])) sq = false := by
    rw [hasPrefix_cons]; decide
  have e2 : hasPrefix ('[' :: (t ++ [']'])) dq = false := by
    rw [hasPrefix_cons]; decide
  have e3 : hasPrefix ('[' :: (t ++ [']'])) '{' = false := by
    rw [hasPrefix_cons]; decide
  have e4 : hasPrefix ('[' :: (t ++ [']'])) '[' = true := by
    rw [hasPrefix_cons]; decide
  have e5 : hasSuffix ('[' :: (t ++ [']'])) ']' = true := by
    simp [hasSuffix, getLast?_cons_append_singleton]
  simp only [e1, e2, e3, e4, e5, List.length_cons, List.length_append, List.length_singleton,
    List.length_nil, Nat.zero_add, Nat.add_sub_cancel, slice_inner_succ]
  simp only [Bool.false_eq_true, false_and, and_self, if_true, if_false]
  rw [inlineItems_congr _ parseValue, inlineItems_eq_mapM, map_append_nil]
  intro p hp
  apply parseValueAux_eq
  have a1 := length_le_of_mem_split ',' t p hp
  have a3 := trimSpace_length_le p
  omega


/-! ### Splitting and joining -/

theorem split_ne_nil (sep : Char) : ∀ t : Str, split sep t ≠ []
  | [] => by simp [split]
  | c :: cs => by
    unfold split
    split
    · simp
    · split <;> simp

theorem split_of_not_mem (sep : Char) : ∀ a : Str, sep ∉ a → split sep a = [a]
  | [], _ => rfl
  | c :: cs, h => by
    have hc : c ≠ sep := fun e => h (e ▸ List.mem_cons_self _ _)
    have ih := split_of_not_mem sep cs (fun e => h (List.mem_cons_of_mem _ e))
    unfold split
    rw [if_neg hc, ih]

theorem split_append_sep (sep : Char) (rest : Str) :
    ∀ a : Str, sep ∉ a → split sep (a ++ sep :: rest) = a :: split sep rest
  | [], _ => by simp [split]
  | c :: cs, h => by
    have hc : c ≠ sep := fun e => h (e ▸ List.mem_cons_self _ _)
    have ih := split_append_sep sep rest cs (fun e => h (List.mem_cons_of_mem _ e))
    rw [List.cons_append, split, if_neg hc, ih]

theorem split_join (sep : Char) : ∀ (l : List Str) (a : Str), (∀ s ∈ a :: l, sep ∉ s) →
    split sep (join [sep] (a :: l)) = a :: l
  | [], a, h => by
    simpa [join] using split_of_not_mem sep a (h a (List.mem_cons_self _ _))
  | b :: l, a, h => by
    have ih := split_join sep l b (fun s hs => h s (List.mem_cons_of_mem _ hs))
    rw [join, List.append_assoc, List.singleton_append,
      split_append_sep sep _ a (h a (List.mem_cons_self _ _)), ih]

theorem join_append_head (sep x : Str) : ∀ (b : Str) (l : List Str),
    join sep ((x ++ b) :: l) = x ++ join sep (b :: l)
  | b, [] => by simp [join]
  | b, c :: l => by simp [join]

theorem join_cons_sep (c : Char) (sep : Str) : ∀ (l : List Str) (a : Str),
    join (c :: sep) (a :: l) = join [c] (a :: l.map fun s => sep ++ s)
  | [], a => by simp [join]
  | b :: l, a => by
    have ih := join_cons_sep c sep l b
    simp only [join, List.map_cons, ih, join_append_head]
    simp

theorem splitN2_append_sep (sep : Char) (b : Str) :
    ∀ a : Str, sep ∉ a → splitN2 sep (a ++ sep :: b) = [a, b]
  | [], _ => by simp [splitN2]
  | c :: cs, h => by
    have hc : c ≠ sep := fun e => h (e ▸ List.mem_cons_self _ _)
    have ih := splitN2_append_sep sep b cs (fun e => h (List.mem_cons_of_mem _ e))
    rw [List.cons_append, splitN2, if_neg hc, ih]

theorem splitN2_of_not_mem (sep : Char) : ∀ a : Str, sep ∉ a → splitN2 sep a = [a]
  | [], _ => rfl
  | c :: cs, h => by
    have hc : c ≠ sep := fun e => h (e ▸ List.mem_cons_self _ _)
    have ih := splitN2_of_not_mem sep cs (fun e => h (List.mem_cons_of_mem _ e))
    rw [splitN2, if_neg hc, ih]

theorem trimSpace_cons_space (s : Str) : trimSpace (' ' :: s) = trimSpace s := by
  have : isSpace ' ' = true := by decide
  simp [trimSpace, List.dropWhile, this]

/-! ### Maps -/

theorem Node.get?_set (q k : Str) (v : Value) : ∀ m : Node,
    (m.set k v).get? q = if k = q then some v else m.get? q
  | [] => by simp [Node.set, Node.get?]
  | (k1, v1) :: rest => by
    have ih := Node.get?_set q k v rest
    unfold Node.set
    by_cases h1 : k1 = k
    · subst h1
      by_cases h2 : k1 = q <;> simp [Node.get?, h2]
    · rw [if_neg h1]
      by_cases h2 : k = q
      · subst h2
        simp [Node.get?, h1, ih]
      · simp [Node.get?, ih, h2]

theorem Node.get?_foldl_set (q : Str) : ∀ (kvs : List (Str × Value)) (m : Node),
    (kvs.foldl (fun n kv => n.set kv.1 kv.2) m).get? q =
      match lastValue kvs q with
      | some v => some v
      | none => m.get? q
  | [], m => by simp [lastValue]
  | kv :: kvs, m => by
    rw [List.foldl_cons, Node.get?_foldl_set q kvs, Node.get?_set]
    simp only [lastValue, List.reverse_cons, List.find?_append]
    cases h : List.find? (fun kv => decide (kv.1 = q)) kvs.reverse with
    | some x => simp
    | none =>
      by_cases hk : kv.1 = q <;> simp [hk, List.find?]

/-- Looking a key up in the map built from a list of pairs gives the value of
the last pair with that key. -/
theorem Node.get?_ofList (kvs : List (Str × Value)) (q : Str) :
    (Node.ofList kvs).get? q = lastValue kvs q := by
  rw [Node.ofList, Node.get?_foldl_set]
  cases lastValue kvs q <;> simp [Node.get?]

theorem inlinePairs_eq_mapM (pv : Str → Except Fault Value) :
    ∀ (segs : List Str) (pairs : List (Str × Str)) (m : Node),
      List.Forall₂ (fun seg kv => ∃ a b, splitN2 ':' seg = [a, b] ∧
        trimSpace a = trimSpace kv.1 ∧ trimSpace b = trimSpace kv.2) segs pairs →
      inlinePairs pv segs m =
        Except.map (fun kvs => kvs.foldl (fun n kv => n.set kv.1 kv.2) m)
          (pairs.mapM fun kv => Except.map (fun w => (trimSpace kv.1, w)) (pv (trimSpace kv.2)))
  | _, _, m, .nil => by
    rw [List.mapM_nil]
    simp [inlinePairs, Except.map, pure, Except.pure]
  | seg :: segs, kv :: pairs, m, .cons h hrest => by
    obtain ⟨a, b, hab, ha, hb⟩ := h
    unfold inlinePairs
    rw [List.mapM_cons]
    simp only [hab, List.headD_cons, List.get?_cons_succ, List.get?_cons_zero, ha, hb]
    cases hv : pv (trimSpace kv.2) with
    | error e => simp [Except.map, bind, Except.bind]
    | ok v =>
      simp only [inlinePairs_eq_mapM pv segs pairs _ hrest]
      generalize (pairs.mapM fun kv =>
        Except.map (fun w => (trimSpace kv.1, w)) (pv (trimSpace kv.2))) = r
      cases r <;> simp [Except.map, bind, Except.bind, pure, Except.pure]


theorem map_map_node (x : Except Fault (List (Str × Value))) :
    Except.map Value.node (Except.map
      (fun kvs : List (Str × Value) => kvs.foldl (fun n kv => Node.set n kv.1 kv.2) []) x) =
      Except.map (fun kvs => Value.node (Node.ofList kvs)) x := by
  cases x <;> simp [Except.map, Node.ofList]

theorem inlineSegments_forall₂ (pre : Str) (hpre : ':' ∉ pre) (htrim : ∀ s, trimSpace (pre ++ s) = trimSpace s) :
    ∀ (pairs : List (Str × Str)), (∀ kv ∈ pairs, ':' ∉ kv.1) →
      List.Forall₂ (fun seg kv => ∃ a b, splitN2 ':' seg = [a, b] ∧
        trimSpace a = trimSpace kv.1 ∧ trimSpace b = trimSpace kv.2)
        (pairs.map fun kv => pre ++ (kv.1 ++ ": ".toList ++ kv.2)) pairs
  | [], _ => List.Forall₂.nil
  | kv :: pairs, h => by
    refine List.Forall₂.cons ⟨pre ++ kv.1, ' ' :: kv.2, ?_, htrim _, trimSpace_cons_space _⟩
      (inlineSegments_forall₂ pre hpre htrim pairs (fun x hx => h x (List.mem_cons_of_mem _ hx)))
    have hk := h kv (List.mem_cons_self _ _)
    have : pre ++ (kv.1 ++ ": ".toList ++ kv.2) = (pre ++ kv.1) ++ ':' :: (' ' :: kv.2) := by
      simp
    show splitN2 ':' (pre ++ (kv.1 ++ ": ".toList ++ kv.2)) = _
    rw [this]
    apply splitN2_append_sep
    simp [hpre, hk]

/-- For every non-empty list of key and value texts in which no key contains a
comma or a colon and no value contains a comma, `parseValue` of
`{k1: v1, ..., kn: vn}` is the Node built by assigning, in order, to each
trimmed key the result of `parseValue` on its trimmed value text.  When
`parseValue` faults on a value text, the call on the map text faults in the
same way. -/
theorem parseValue_inline_map (pairs : List (Str × Str)) (hne : pairs ≠ [])
    (hk : ∀ kv ∈ pairs, ',' ∉ kv.1 ∧ ':' ∉ kv.1) (hv : ∀ kv ∈ pairs, ',' ∉ kv.2) :
    parseValue (inlineMapText pairs) =
      Except.map (fun kvs => Value.node (Node.ofList kvs)) (pairs.mapM classifyPair) := by
  show parseValue (inlineMapText pairs) =
      Except.map (fun kvs => Value.node (Node.ofList kvs))
        (pairs.mapM fun kv =>
          Except.map (fun w => (trimSpace kv.1, w)) (parseValue (trimSpace kv.2)))
  obtain ⟨kv1, rest, rfl⟩ := List.exists_cons_of_ne_nil hne
  -- the interior, as pieces separated by single commas
  have hinner : join ", ".toList ((kv1 :: rest).map fun kv => kv.1 ++ ": ".toList ++ kv.2) =
      join [','] ((kv1.1 ++ ": ".toList ++ kv1.2) ::
        rest.map fun kv => [' '] ++ (kv.1 ++ ": ".toList ++ kv.2)) := by
    have : ", ".toList = ',' :: [' '] := rfl
    rw [this, List.map_cons, join_cons_sep, List.map_map]
    rfl
  have hsegs : ∀ s ∈ (kv1.1 ++ ": ".toList ++ kv1.2) ::
      rest.map (fun kv => [' '] ++ (kv.1 ++ ": ".toList ++ kv.2)), ',' ∉ s := by
    intro s hs
    rcases List.mem_cons.1 hs with rfl | hs
    · have a1 := hk kv1 (List.mem_cons_self _ _)
      have a2 := hv kv1 (List.mem_cons_self _ _)
      simp [a1.1, a2]
    · obtain ⟨kv, hkv, rfl⟩ := List.mem_map.1 hs
      have a1 := hk kv (List.mem_cons_of_mem _ hkv)
      have a2 := hv kv (List.mem_cons_of_mem _ hkv)
      simp [a1.1, a2]
  have hall : List.Forall₂ (fun seg kv => ∃ a b, splitN2 ':' seg = [a, b] ∧
        trimSpace a = trimSpace kv.1 ∧ trimSpace b = trimSpace kv.2)
      ((kv1.1 ++ ": ".toList ++ kv1.2) ::
        rest.map fun kv => [' '] ++ (kv.1 ++ ": ".toList ++ kv.2)) (kv1 :: rest) := by
    refine List.Forall₂.cons ?_ (inlineSegments_forall₂ [' '] (by decide)
      (fun s => trimSpace_cons_space s) rest (fun x hx => (hk x (List.mem_cons_of_mem _ hx)).2))
    have := inlineSegments_forall₂ [] (by simp) (fun s => rfl) [kv1]
      (fun x hx => (hk x (by
        rw [List.mem_singleton.1 hx]
        exact List.mem_cons_self _ _)).2)
    simpa using this
  unfold inlineMapText
  rw [hinner, parseValue_eq_body, parseValueBody_plain _ _ _ plainStart_lbrace]
  generalize hI : join [','] ((kv1.1 ++ ": ".toList ++ kv1.2) ::
        rest.map fun kv => [' '] ++ (kv.1 ++ ": ".toList ++ kv.2)) = inner
  have e1 : hasPrefix ('{' :: (inner ++ ['}'])) sq = false := by
    rw [hasPrefix_cons]; decide
  have e2 : hasPrefix ('{' :: (inner ++ ['}'])) dq = false := by
    rw [hasPrefix_cons]; decide
  have e3 : hasPrefix ('{' :: (inner ++ ['}'])) '{' = true := by
    rw [hasPrefix_cons]; decide
  have e5 : hasSuffix ('{' :: (inner ++ ['}'])) '}' = true := by
    simp [hasSuffix, getLast?_cons_append_singleton]
  simp only [e1, e2, e3, e5, List.length_cons, List.length_append, List.length_singleton,
    List.length_nil, Nat.zero_add, Nat.add_sub_cancel, slice_inner_succ]
  simp only [Bool.false_eq_true, false_and, and_self, if_true, if_false]
  rw [inlinePairs_congr _ parseValue, ← hI, split_join ',' _ _ hsegs,
    inlinePairs_eq_mapM parseValue _ _ _ hall, map_map_node]
  intro p hp p1 hp1
  apply parseValueAux_eq
  have a1 := length_le_of_mem_split ',' inner p hp
  have a2 := length_splitN2_get ':' p p1 hp1
  have a3 := trimSpace_length_le p1
  omega

/-! ## Integers -/

theorem digitVal_digitChar (d : Nat) (h : d < 10) : digitVal (Nat.digitChar d) = some d := by
  interval_cases d <;> rfl

/-- Reading the digits that `Nat.toDigitsCore` writes in front of `ds` adds the
number written to the accumulator, shifted. -/
theorem parseUintLoop_toDigitsCore : ∀ (fuel n : Nat) (ds : Str), n < fuel →
    ∃ k : Nat, ∀ a : Nat, a * 10 ^ k + n < 2 ^ 64 →
      parseUintLoop (Nat.toDigitsCore 10 fuel n ds) a = parseUintLoop ds (a * 10 ^ k + n)
  | 0, n, ds, h => absurd h (Nat.not_lt_zero _)
  | fuel + 1, n, ds, h => by
    unfold Nat.toDigitsCore
    simp only []
    by_cases hn : n / 10 = 0
    · rw [if_pos hn]
      refine ⟨1, fun a ha => ?_⟩
      have hlt : n < 10 := by omega
      have hmod : n % 10 = n := Nat.mod_eq_of_lt hlt
      rw [hmod, parseUintLoop, digitVal_digitChar n hlt]
      simp only [pow_one] at ha ⊢
      rw [if_neg (by omega), if_neg (by omega)]
    · rw [if_neg hn]
      obtain ⟨k, hk⟩ := parseUintLoop_toDigitsCore fuel (n / 10) (Nat.digitChar (n % 10) :: ds)
        (by omega)
      refine ⟨k + 1, fun a ha => ?_⟩
      have hdm := Nat.div_add_mod n 10
      have hpow : a * 10 ^ (k + 1) = (a * 10 ^ k) * 10 := by ring
      rw [hk a (by omega), parseUintLoop, digitVal_digitChar _ (Nat.mod_lt _ (by decide))]
      simp only []
      rw [if_neg (by omega), if_neg (by omega)]
      congr 1
      omega

theorem toDigits_ne_nil (n : Nat) : Nat.toDigits 10 n ≠ [] := by
  unfold Nat.toDigits Nat.toDigitsCore
  simp only []
  split
  · simp
  · intro h
    have := congrArg List.length h
    rw [Nat.toDigitsCore_lens_eq] at this
    simp at this

theorem parseUint_toDigits (n : Nat) (h : n < 2 ^ 64) : parseUint (Nat.toDigits 10 n) = some n := by
  obtain ⟨k, hk⟩ := parseUintLoop_toDigitsCore (n + 1) n [] (Nat.lt_succ_self _)
  have := hk 0 (by simpa using h)
  unfold parseUint
  split
  · next he => exact absurd he (toDigits_ne_nil n)
  · next s hs =>
    simpa [Nat.toDigits, parseUintLoop] using this


theorem toLowerRune_of_digit (c : Char) (h : (digitVal c).isSome) :
    toLowerRune c ≠ 't' ∧ toLowerRune c ≠ 'f' ∧ c ≠ '+' ∧ c ≠ '-' := by
  unfold digitVal at h
  split at h
  · next hc =>
    have e : toLowerRune c = c := by
      unfold toLowerRune
      rw [if_neg (by omega), if_neg (by omega), if_neg (by omega)]
    rw [e]
    refine ⟨?_, ?_, ?_, ?_⟩ <;>
    · rintro rfl
      revert hc
      decide
  · simp at h

theorem parseUint_head_digit (c : Char) (cs : Str) (n : Nat) (h : parseUint (c :: cs) = some n) :
    (digitVal c).isSome := by
  unfold parseUint parseUintLoop at h
  cases hd : digitVal c with
  | none => simp [hd] at h
  | some d => simp

/-- A text that `parseInt` accepts is not a boolean literal. -/
theorem toLower_ne_of_parseInt (s : Str) (n : Int) (h : parseInt s = some n) :
    ¬ (toLower s = "true".toList ∨ toLower s = "false".toList) := by
  cases s with
  | nil => simp [toLower]
  | cons c cs =>
    have key : toLowerRune c ≠ 't' ∧ toLowerRune c ≠ 'f' := by
      by_cases hs : c = '+' ∨ c = '-'
      · rcases hs with rfl | rfl <;> decide
      · unfold parseInt at h
        simp only [if_neg hs] at h
        cases hu : parseUint (c :: cs) with
        | none => simp [hu] at h
        | some un =>
          have := toLowerRune_of_digit c (parseUint_head_digit c cs un hu)
          exact ⟨this.1, this.2.1⟩
    simp only [toLower, List.map_cons]
    rintro (h | h)
    · exact key.1 (List.cons.inj h).1
    · exact key.2 (List.cons.inj h).1

theorem parseValueBody_of_parseInt (self : Option (Str → Except Fault Value)) (s : Str) (n : Int)
    (h : parseInt s = some n) : parseValueBody self s = .ok (Value.int n) := by
  have hne : s ≠ [] := by
    rintro rfl
    simp [parseInt] at h
  unfold parseValueBody
  rw [if_neg hne, if_neg (toLower_ne_of_parseInt s n h), h]

theorem parseInt_formatInt (n : Int) (hlo : -(2 ^ 63) ≤ n) (hhi : n < 2 ^ 63) :
    parseInt (formatInt n) = some n := by
  unfold formatInt
  by_cases hneg : n < 0
  · rw [if_pos hneg]
    have hu := parseUint_toDigits n.natAbs (by omega)
    unfold parseInt
    have e2 : -(n.natAbs : Int) = n := by omega
    simp [hu, e2, -Int.natCast_natAbs]
    omega
  · rw [if_neg hneg]
    have hu := parseUint_toDigits n.toNat (by omega)
    cases hd : Nat.toDigits 10 n.toNat with
    | nil => exact absurd hd (toDigits_ne_nil _)
    | cons c cs =>
      rw [hd] at hu
      have hc := toLowerRune_of_digit c (parseUint_head_digit c cs _ hu)
      unfold parseInt
      have hs : ¬ (c = '+' ∨ c = '-') := by
        rintro (h | h)
        · exact hc.2.2.1 h
        · exact hc.2.2.2 h
      simp only [if_neg hs, hu]
      have e1 : ¬ (n.toNat ≥ 2 ^ 63) := by omega
      simp [hc.2.2.2, e1]
      omega

/-- C3: for every integer `n` of the signed 64-bit range, `parseValue` of the
canonical base-10 text of `n` is the Integer `n`, not a Float, a Boolean or a
String. -/
theorem parseValue_formatInt (n : Int) (hlo : -(2 ^ 63) ≤ n) (hhi : n < 2 ^ 63) :
    parseValue (formatInt n) = .ok (Value.int n) := by
  rw [parseValue_eq_body]
  exact parseValueBody_of_parseInt _ _ _ (parseInt_formatInt n hlo hhi)

/-- C3 at the least and at the greatest signed 64-bit integer. -/
theorem parseValue_formatInt_witness :
    parseValue (formatInt (-9223372036854775808)) = .ok (Value.int (-9223372036854775808)) ∧
    parseValue (formatInt 9223372036854775807) = .ok (Value.int 9223372036854775807) :=
  ⟨parseValue_formatInt (-9223372036854775808) (by norm_num) (by norm_num),
   parseValue_formatInt 9223372036854775807 (by norm_num) (by norm_num)⟩

/-- An integer that `parseInt` returns is within the signed 64-bit range. -/
theorem parseInt_range (s : Str) (n : Int) (h : parseInt s = some n) :
    -(2 ^ 63) ≤ n ∧ n < 2 ^ 63 := by
  cases s with
  | nil => simp [parseInt] at h
  | cons c cs =>
    unfold parseInt at h
    simp only [] at h
    split at h
    · cases h
    · next un hu =>
      split at h
      · cases h
      · next h1 =>
        split at h
        · cases h
        · next h2 =>
          injection h with h
          subst h
          by_cases hneg : c = '-'
          · simp [hneg] at h1 h2 ⊢
            omega
          · simp [hneg] at h1 h2 ⊢
            omega


theorem map_ne_int {α : Type} (f : α → Value) (x : Except Fault α) (n : Int)
    (hf : ∀ a, f a ≠ Value.int n) : Except.map f x ≠ .ok (Value.int n) := by
  cases x with
  | error e => simp [Except.map]
  | ok a => simpa [Except.map] using hf a

/-- The result of `parseValue` is an Integer only through `parseInt`. -/
theorem parseInt_of_parseValueBody (self : Option (Str → Except Fault Value)) (s : Str) (n : Int)
    (h : parseValueBody self s = .ok (Value.int n)) : parseInt s = some n := by
  unfold parseValueBody at h
  by_cases h1 : s = []
  · simp [h1] at h
  rw [if_neg h1] at h
  by_cases h2 : toLower s = "true".toList ∨ toLower s = "false".toList
  · rw [if_pos h2] at h
    simp at h
  rw [if_neg h2] at h
  cases hi : parseInt s with
  | some m =>
    rw [hi] at h
    simpa using h
  | none =>
    rw [hi] at h
    exfalso
    revert h
    cases parseFloat s with
    | some f => simp
    | none =>
      simp only []
      split_ifs
      · exact map_ne_int _ _ _ (by simp)
      · exact map_ne_int _ _ _ (by simp)
      · cases self with
        | none => simp
        | some pv =>
          simp only []
          cases slice s 1 (s.length - 1) with
          | error e => simp
          | ok inner => exact map_ne_int _ _ _ (by simp)
      · cases self with
        | none => simp
        | some pv =>
          simp only []
          cases slice s 1 (s.length - 1) with
          | error e => simp
          | ok inner => exact map_ne_int _ _ _ (by simp)
      · simp

/-- An Integer result, written back as decimal text and parsed again, is the
same Integer. -/
theorem parseValue_int_roundtrip (s : Str) (n : Int) (h : parseValue s = .ok (Value.int n)) :
    parseValue (formatInt n) = .ok (Value.int n) := by
  rw [parseValue_eq_body] at h
  have hi := parseInt_of_parseValueBody _ s n h
  have hr := parseInt_range s n hi
  rw [parseValue_eq_body]
  exact parseValueBody_of_parseInt _ _ _ (parseInt_formatInt n hr.1 hr.2)

/-! ## White space -/

theorem rdropWhile_cons (p : Char → Bool) (c : Char) (cs : Str) :
    List.rdropWhile p (c :: cs) =
      if List.rdropWhile p cs = [] ∧ p c = true then [] else c :: List.rdropWhile p cs := by
  induction cs using List.reverseRecOn generalizing c with
  | nil =>
    have := List.rdropWhile_singleton p c
    by_cases h : p c = true <;> simp [this, h]
  | append_singleton l x ih =>
    rw [← List.cons_append, List.rdropWhile_concat, List.rdropWhile_concat]
    by_cases hx : p x = true
    · simp only [hx, if_true]
      exact ih c
    · simp [hx]

theorem dropWhile_rdropWhile_comm (p : Char → Bool) : ∀ l : Str,
    List.dropWhile p (List.rdropWhile p l) = List.rdropWhile p (List.dropWhile p l)
  | [] => by simp
  | c :: cs => by
    have ih := dropWhile_rdropWhile_comm p cs
    rw [rdropWhile_cons]
    by_cases hc : p c = true
    · by_cases hn : List.rdropWhile p cs = []
      · rw [if_pos ⟨hn, hc⟩, List.dropWhile_cons_of_pos hc, ← ih, hn]
      · rw [if_neg (fun h => hn h.1), List.dropWhile_cons_of_pos hc, List.dropWhile_cons_of_pos hc, ih]
    · have hc2 : ¬ (List.rdropWhile p cs = [] ∧ p c = true) := fun h => hc h.2
      rw [if_neg hc2, List.dropWhile_cons_of_neg hc, List.dropWhile_cons_of_neg hc, rdropWhile_cons,
        if_neg hc2]

theorem dropWhile_dropWhile (p : Char → Bool) (l : Str) :
    List.dropWhile p (List.dropWhile p l) = List.dropWhile p l := by
  induction l with
  | nil => rfl
  | cons c cs ih =>
    by_cases hc : p c = true
    · simpa [List.dropWhile_cons_of_pos hc] using ih
    · simp [List.dropWhile_cons_of_neg hc]

theorem trimSpace_dropWhile (s : Str) : trimSpace (List.dropWhile isSpace s) = trimSpace s := by
  simp [trimSpace, dropWhile_dropWhile]

theorem trimSpace_rdropWhile (s : Str) : trimSpace (List.rdropWhile isSpace s) = trimSpace s := by
  simp [trimSpace, dropWhile_rdropWhile_comm, List.rdropWhile_idempotent]

theorem trimSpace_trimSpace (s : Str) : trimSpace (trimSpace s) = trimSpace s := by
  have : trimSpace s = List.rdropWhile isSpace (List.dropWhile isSpace s) := rfl
  rw [this, trimSpace_rdropWhile, trimSpace_dropWhile]
  rfl

theorem dropWhile_append_cons (p : Char → Bool) (c : Char) (hc : p c = false) (b : Str) :
    ∀ a : Str, List.dropWhile p (a ++ c :: b) = List.dropWhile p a ++ c :: b
  | [] => by simp [List.dropWhile, hc]
  | x :: a => by
    by_cases hx : p x = true
    · simpa [List.dropWhile_cons_of_pos hx] using dropWhile_append_cons p c hc b a
    · simp [List.dropWhile_cons_of_neg hx]

theorem rdropWhile_append_cons (p : Char → Bool) (c : Char) (hc : p c = false) (a b : Str) :
    List.rdropWhile p (a ++ c :: b) = a ++ c :: List.rdropWhile p b := by
  induction b using List.reverseRecOn with
  | nil =>
    rw [show a ++ [c] = a ++ [c] from rfl, List.rdropWhile_concat_neg _ _ _ (by simp [hc])]
    simp
  | append_singleton l x ih =>
    rw [show a ++ c :: (l ++ [x]) = (a ++ c :: l) ++ [x] by simp, List.rdropWhile_concat,
      List.rdropWhile_concat, ih]
    by_cases hx : p x = true <;> simp [hx]

/-- A line with a character that is not white space: trimming removes the
white space before the text in front of it and after the text behind it. -/
theorem trimSpace_append_cons (c : Char) (hc : isSpace c = false) (a b : Str) :
    trimSpace (a ++ c :: b) = List.dropWhile isSpace a ++ c :: List.rdropWhile isSpace b := by
  rw [trimSpace, dropWhile_append_cons isSpace c hc, rdropWhile_append_cons isSpace c hc]

theorem head?_trimSpace (s : Str) : (trimSpace s).head? = (List.dropWhile isSpace s).head? := by
  unfold trimSpace
  cases h : List.dropWhile isSpace s with
  | nil => simp
  | cons c cs =>
    have hc : ¬ (isSpace c = true) := by
      have := List.head_dropWhile_not isSpace s (by simp [h])
      simpa [h] using this
    rw [rdropWhile_cons, if_neg (fun hh => hc hh.2)]
    rfl

theorem trimSpace_eq_nil_iff (s : Str) : trimSpace s = [] ↔ List.dropWhile isSpace s = [] := by
  constructor
  · intro h
    have := head?_trimSpace s
    rw [h] at this
    cases hd : List.dropWhile isSpace s with
    | nil => rfl
    | cons c cs => simp [hd] at this
  · intro h
    simp [trimSpace, h]

/-! ## Flat documents -/

theorem parseLinesAux_filler (fuel : Nat) (first : Bool) (t : Str) (tl : List Str) (node : Node)
    (h : trimSpace t = [] ∨ hasPrefix (trimSpace t) '#' = true) :
    parseLinesAux (fuel + 1) first (t :: tl) node = parseLinesAux fuel false tl node := by
  rw [parseLinesAux]
  have : trimSpace t = [] ∨ (trimSpace t).head? = some '#' := by
    simpa [hasPrefix] using h
  simp only [this, if_true]

/-- The facts about a trimmed `key: value` line that the loop inspects. -/
theorem entry_line (k v : Str) (hk : ':' ∉ k) (hc : hasPrefix (trimSpace k) '#' = false) :
    trimSpace (k ++ ": ".toList ++ v) ≠ [] ∧
    (trimSpace (k ++ ": ".toList ++ v)).head? ≠ some '#' ∧
    trimSpace (k ++ ": ".toList ++ v) ≠ "---".toList ∧
    ∃ a b, splitN2 ':' (trimSpace (k ++ ": ".toList ++ v)) = [a, b] ∧
      trimSpace a = trimSpace k ∧ trimSpace b = trimSpace v := by
  have hline : trimSpace (k ++ ": ".toList ++ v) =
      List.dropWhile isSpace k ++ ':' :: List.rdropWhile isSpace (' ' :: v) := by
    have : k ++ ": ".toList ++ v = k ++ ':' :: (' ' :: v) := by simp
    rw [this, trimSpace_append_cons ':' (by decide)]
  have hk2 : ':' ∉ List.dropWhile isSpace k :=
    fun h => hk ((List.dropWhile_suffix isSpace).subset h)
  rw [hline]
  refine ⟨by simp, ?_, ?_, _, _, splitN2_append_sep ':' _ _ hk2, trimSpace_dropWhile k, ?_⟩
  · rw [hasPrefix, head?_trimSpace] at hc
    cases hd : List.dropWhile isSpace k with
    | nil => simp
    | cons c cs =>
      rw [hd] at hc
      simpa using hc
  · intro h
    have : ':' ∈ List.dropWhile isSpace k ++ ':' :: List.rdropWhile isSpace (' ' :: v) := by simp
    rw [h] at this
    revert this
    decide
  · rw [trimSpace_rdropWhile, trimSpace_cons_space]

theorem parseLinesAux_entry (fuel : Nat) (first : Bool) (k v : Str) (tl : List Str) (node : Node)
    (hk : ':' ∉ k) (hc : hasPrefix (trimSpace k) '#' = false) (hv : trimSpace v ≠ [])
    (hb1 : hasPrefix (trimSpace v) '|' = false) (hb2 : hasPrefix (trimSpace v) '>' = false) :
    parseLinesAux (fuel + 1) first ((k ++ ": ".toList ++ v) :: tl) node =
      match parseValue (trimSpace v) with
      | .error e => .error e
      | .ok val => parseLinesAux fuel false tl (node.set (trimSpace k) val) := by
  obtain ⟨h1, h2, h3, a, b, hab, ha, hb⟩ := entry_line k v hk hc
  rw [parseLinesAux]
  simp only [h1, h2, h3, or_self, if_false, hab, ha, hb, hv, false_and, hb1, hb2,
    Bool.false_eq_true]


theorem parseLinesAux_nil (fuel : Nat) (first : Bool) (node : Node) :
    parseLinesAux fuel first [] node = .ok node := by
  cases fuel <;> rw [parseLinesAux]

/-- The loop of `parseYAMLLines` on the lines of a flat document: the pairs are
classified in order and assigned to the map. -/
theorem parseLinesAux_doc : ∀ (doc : List DocLine) (fuel : Nat) (first : Bool) (node : Node),
    (∀ d ∈ doc, d.wellFormed) → doc.length ≤ fuel →
    parseLinesAux fuel first (doc.map DocLine.text) node =
      Except.map (fun kvs => kvs.foldl (fun n kv => Node.set n kv.1 kv.2) node)
        ((docEntries doc).mapM classifyPair)
  | [], fuel, first, node, _, _ => by
    rw [List.map_nil, parseLinesAux_nil, docEntries, List.mapM_nil]
    rfl
  | .filler t :: rest, 0, _, _, _, hf => by simp at hf
  | .entry k v :: rest, 0, _, _, _, hf => by simp at hf
  | .filler t :: rest, fuel + 1, first, node, hwf, hf => by
    have ht := hwf (.filler t) (List.mem_cons_self _ _)
    rw [List.map_cons, DocLine.text, parseLinesAux_filler _ _ _ _ _ ht.2, docEntries]
    exact parseLinesAux_doc rest fuel false node
      (fun d hd => hwf d (List.mem_cons_of_mem _ hd)) (by simpa using hf)
  | .entry k v :: rest, fuel + 1, first, node, hwf, hf => by
    obtain ⟨hk, _, _, hc, hv, hb1, hb2⟩ := hwf (.entry k v) (List.mem_cons_self _ _)
    rw [List.map_cons, DocLine.text, parseLinesAux_entry _ _ _ _ _ _ hk hc hv hb1 hb2, docEntries,
      List.mapM_cons]
    unfold classifyPair
    cases hp : parseValue (trimSpace v) with
    | error e => simp [Except.map, bind, Except.bind]
    | ok val =>
      simp only []
      rw [parseLinesAux_doc rest fuel false _
        (fun d hd => hwf d (List.mem_cons_of_mem _ hd)) (by simpa using hf)]
      unfold classifyPair
      generalize (List.mapM (fun kv : Str × Str =>
        Except.map (fun w => (trimSpace kv.1, w)) (parseValue (trimSpace kv.2))) (docEntries rest)) = r
      cases r <;> simp [Except.map, bind, Except.bind, pure, Except.pure]

theorem not_mem_text (d : DocLine) (h : d.wellFormed) : nl ∉ d.text := by
  cases d with
  | entry k v =>
    obtain ⟨_, hk, hv, _⟩ := h
    have : nl ≠ ':' ∧ nl ≠ ' ' := by decide
    simp [DocLine.text, hk, hv, this.1, this.2]
  | filler t => exact h.1

/-- For every flat document, a list of `key: value` lines (keys free of
colons that do not start a comment, values that are not empty after trimming
and do not start with `|` or `>`) mixed with any number of blank lines and
comment lines, `ParseYAML` is the Node built by assigning, in the order of the
lines, to each trimmed key the result of `parseValue` on its trimmed value;
blank and comment lines add nothing, and looking a key up in the Node gives
the value of the last line with that key.  The result is stated with the
faults of `parseValue`: a value on which `parseValue` faults makes `ParseYAML`
fault in the same way. -/
theorem ParseYAML_flat_document (doc : List DocLine) (hwf : ∀ d ∈ doc, d.wellFormed) :
    ParseYAML (join [nl] (doc.map DocLine.text)) =
      Except.map Node.ofList ((docEntries doc).mapM classifyPair) ∧
    ∀ kvs, (docEntries doc).mapM classifyPair = .ok kvs →
      ∀ q, (Node.ofList kvs).get? q = lastValue kvs q := by
  refine ⟨?_, fun kvs _ q => Node.get?_ofList kvs q⟩
  cases doc with
  | nil =>
    rw [List.map_nil, docEntries, List.mapM_nil]
    rfl
  | cons d rest =>
    have hs : split nl (join [nl] ((d :: rest).map DocLine.text)) = (d :: rest).map DocLine.text := by
      rw [List.map_cons]
      apply split_join
      intro s hs
      rw [← List.map_cons] at hs
      obtain ⟨x, hx, rfl⟩ := List.mem_map.1 hs
      exact not_mem_text x (hwf x hx)
    rw [ParseYAML, hs, parseYAMLLines, parseLinesAux_doc (d :: rest) _ true [] hwf (by simp)]
    rfl

/-- A flat document with a blank line, a comment and a repeated key: the
result is the Node with `a` true and `b` the String `str`. -/
theorem ParseYAML_flat_document_example :
    ParseYAML (join [nl] ([DocLine.entry "a".toList "1".toList, DocLine.filler [],
        DocLine.filler "# note".toList, DocLine.entry "b".toList "str".toList,
        DocLine.entry "a".toList "true".toList].map DocLine.text)) =
      .ok [("a".toList, Value.bool true), ("b".toList, Value.str "str".toList)] :=
  (ParseYAML_flat_document [DocLine.entry "a".toList "1".toList, DocLine.filler [],
        DocLine.filler "# note".toList, DocLine.entry "b".toList "str".toList,
        DocLine.entry "a".toList "true".toList] (by
    intro d hd
    simp only [List.mem_cons, List.mem_singleton, List.not_mem_nil, or_false] at hd
    rcases hd with rfl | rfl | rfl | rfl | rfl
    · exact ⟨by decide, by decide, by decide, by decide, by decide, by decide, by decide⟩
    · exact ⟨by decide, Or.inl (by decide)⟩
    · exact ⟨by decide, Or.inr (by decide)⟩
    · exact ⟨by decide, by decide, by decide, by decide, by decide, by decide, by decide⟩
    · exact ⟨by decide, by decide, by decide, by decide, by decide, by decide, by decide⟩)).1.trans
    rfl

/-! ## Block sequences -/

theorem isSpace_of_isIndentation (ind : Str) (h : isIndentation ind) : ∀ c ∈ ind, isSpace c = true := by
  intro c hc
  rcases h c hc with rfl | rfl <;> decide

theorem dropWhile_indentation (ind : Str) (h : isIndentation ind) (s : Str) :
    List.dropWhile isSpace (ind ++ s) = List.dropWhile isSpace s := by
  induction ind with
  | nil => rfl
  | cons c cs ih =>
    have hc := isSpace_of_isIndentation _ h c (List.mem_cons_self _ _)
    rw [List.cons_append, List.dropWhile_cons_of_pos hc]
    exact ih (fun x hx => h x (List.mem_cons_of_mem _ hx))

theorem trimSpace_indentation (ind : Str) (h : isIndentation ind) (s : Str) :
    trimSpace (ind ++ s) = trimSpace s := by
  rw [trimSpace, dropWhile_indentation ind h, trimSpace]

/-- The key line `k:` of a block. -/
theorem key_line (k : Str) (hk : blockKey k) :
    trimSpace (k ++ ":".toList) ≠ [] ∧
    (trimSpace (k ++ ":".toList)).head? ≠ some '#' ∧
    trimSpace (k ++ ":".toList) ≠ "---".toList ∧
    ∃ a, splitN2 ':' (trimSpace (k ++ ":".toList)) = [a, []] ∧ trimSpace a = trimSpace k := by
  obtain ⟨hk1, _, hc⟩ := hk
  have hline : trimSpace (k ++ ":".toList) = List.dropWhile isSpace k ++ [':'] := by
    have : k ++ ":".toList = k ++ ':' :: [] := rfl
    rw [this, trimSpace_append_cons ':' (by decide)]
    rfl
  have hk2 : ':' ∉ List.dropWhile isSpace k :=
    fun h => hk1 ((List.dropWhile_suffix isSpace).subset h)
  rw [hline]
  refine ⟨by simp, ?_, ?_, _, splitN2_append_sep ':' _ _ hk2, trimSpace_dropWhile k⟩
  · rw [hasPrefix, head?_trimSpace] at hc
    cases hd : List.dropWhile isSpace k with
    | nil => simp
    | cons c cs =>
      rw [hd] at hc
      simpa using hc
  · intro h
    have : ':' ∈ List.dropWhile isSpace k ++ [':'] := by simp
    rw [h] at this
    revert this
    decide

theorem trimSpace_nil : trimSpace [] = [] := rfl

/-- The step of `parseYAMLLines` at a key line `k:` that is followed by a list
item. -/
theorem parseLinesAux_list_key (fuel : Nat) (first : Bool) (k : Str) (l0 : Str) (tl : List Str)
    (node : Node) (hk : blockKey k) (hl : isList l0 = true) :
    parseLinesAux (fuel + 1) first ((k ++ ":".toList) :: l0 :: tl) node =
      match listLoop (fun b => parseLinesAux fuel true b []) parseValue fuel (l0 :: tl) [] with
      | .error e => .error e
      | .ok (list, rest) =>
        parseLinesAux fuel false rest (node.set (trimSpace k) (Value.seq list)) := by
  obtain ⟨h1, h2, h3, a, hab, ha⟩ := key_line k hk
  rw [parseLinesAux]
  simp only [h1, h2, h3, or_self, if_false, hab, ha, trimSpace_nil, List.headD_cons, hl, if_true,
    ne_eq, not_false_eq_true, and_self, reduceCtorEq]

/-- The facts about a trimmed item line `- t` that the list loop inspects. -/
theorem item_line (ind t : Str) (hind : isIndentation ind) :
    trimSpace (ind ++ "- ".toList ++ t) = '-' :: List.rdropWhile isSpace (' ' :: t) ∧
    isList (trimSpace (ind ++ "- ".toList ++ t)) = true ∧
    isList (ind ++ "- ".toList ++ t) = true ∧
    trimSpace (trimPrefix (trimSpace (ind ++ "- ".toList ++ t)) '-') = trimSpace t := by
  have hline : trimSpace (ind ++ "- ".toList ++ t) = '-' :: List.rdropWhile isSpace (' ' :: t) := by
    have : ind ++ "- ".toList ++ t = ind ++ ('-' :: (' ' :: t)) := by simp
    rw [this, trimSpace_indentation ind hind]
    have := trimSpace_append_cons '-' (by decide) [] (' ' :: t)
    simpa using this
  refine ⟨hline, ?_, ?_, ?_⟩
  · rw [isList, trimSpace_trimSpace, hline]
    rfl
  · rw [isList, hline]
    rfl
  · rw [hline]
    simp only [trimPrefix, if_true]
    rw [trimSpace_rdropWhile, trimSpace_cons_space]

theorem contains_eq_false (s : Str) (c : Char) (h : c ∉ s) : contains s c = false := by
  simpa [contains] using h

theorem contains_eq_true (s : Str) (c : Char) (h : c ∈ s) : contains s c = true := by
  simpa [contains] using h

theorem listLoop_nil (parse : List Str → Except Fault Node) (pv : Str → Except Fault Value)
    (fuel : Nat) (acc : List Value) : listLoop parse pv fuel [] acc = .ok (acc, []) := by
  cases fuel <;> rw [listLoop]

/-- The list loop on lines `- t` of scalar tokens: the tokens are classified
in order and appended; no line is left. -/
theorem listLoop_scalars (parse : List Str → Except Fault Node) (pv : Str → Except Fault Value)
    (ind : Str) (hind : isIndentation ind) :
    ∀ (ts : List Str) (fuel : Nat) (acc : List Value), (∀ t ∈ ts, ':' ∉ t) → ts.length ≤ fuel →
      listLoop parse pv fuel (ts.map fun t => ind ++ "- ".toList ++ t) acc =
        Except.map (fun vs => (acc ++ vs, ([] : List Str))) (ts.mapM fun t => pv (trimSpace t))
  | [], fuel, acc, _, _ => by
    rw [List.map_nil, listLoop_nil, List.mapM_nil]
    simp [Except.map, pure, Except.pure]
  | t :: ts, 0, _, _, hf => by simp at hf
  | t :: ts, fuel + 1, acc, hts, hf => by
    obtain ⟨hline, hl, _, htrim⟩ := item_line ind t hind
    have hnc : contains (trimSpace (ind ++ "- ".toList ++ t)) ':' = false := by
      apply contains_eq_false
      rw [hline]
      intro h
      rcases List.mem_cons.1 h with h | h
      · revert h; decide
      · have := (List.rdropWhile_prefix isSpace _).subset h
        rcases List.mem_cons.1 this with h | h
        · revert h; decide
        · exact hts t (List.mem_cons_self _ _) h
    rw [List.map_cons, listLoop]
    simp only [hl, if_true, hnc, Bool.false_eq_true, if_false, htrim, List.mapM_cons]
    cases hv : pv (trimSpace t) with
    | error e => simp [Except.map, bind, Except.bind]
    | ok v =>
      simp only []
      rw [listLoop_scalars parse pv ind hind ts fuel _
        (fun x hx => hts x (List.mem_cons_of_mem _ hx)) (by simpa using hf)]
      generalize (List.mapM (fun t => pv (trimSpace t)) ts) = r
      cases r <;> simp [Except.map, bind, Except.bind, pure, Except.pure]

/-- For every key `k` (free of colons and line breaks, not starting a
comment), every indentation of spaces and tabs and every non-empty list of
tokens without colon or line break, `ParseYAML` of the line `k:` followed by
one line `- t` for each token, all at that indentation, is the Node with the
one key `k`, trimmed, and under it the Sequence of the results of `parseValue`
on the trimmed tokens: one element for each item line, in the order of the
lines.  The result is stated with the faults of `parseValue`: a token on which
`parseValue` faults makes `ParseYAML` fault in the same way. -/
theorem ParseYAML_scalar_sequence (k ind : Str) (ts : List Str) (hk : blockKey k)
    (hind : isIndentation ind) (hne : ts ≠ []) (hts : ∀ t ∈ ts, ':' ∉ t ∧ nl ∉ t) :
    ParseYAML (join [nl] (scalarSequenceLines k ind ts)) =
      Except.map (fun vs => [(trimSpace k, Value.seq vs)])
        (ts.mapM fun t => parseValue (trimSpace t)) := by
  have hs : split nl (join [nl] (scalarSequenceLines k ind ts)) = scalarSequenceLines k ind ts := by
    apply split_join
    intro s hs
    have hnl : nl ≠ ':' ∧ nl ≠ '-' ∧ nl ≠ ' ' := by decide
    rcases List.mem_cons.1 hs with rfl | hs
    · simp [hk.2.1, hnl.1]
    · obtain ⟨t, ht, rfl⟩ := List.mem_map.1 hs
      have hi : nl ∉ ind := by
        intro h
        rcases hind _ h with h | h <;> revert h <;> decide
      simp [hi, (hts t ht).2, hnl.2.1, hnl.2.2]
  obtain ⟨t0, ts0, rfl⟩ := List.exists_cons_of_ne_nil hne
  rw [ParseYAML, hs, parseYAMLLines, scalarSequenceLines, List.map_cons, List.length_cons,
    parseLinesAux_list_key _ _ _ _ _ _ hk (item_line ind t0 hind).2.2.1, ← List.map_cons,
    listLoop_scalars _ _ ind hind (t0 :: ts0) _ _ (fun t ht => (hts t ht).1) (by simp)]
  generalize (List.mapM (fun t => parseValue (trimSpace t)) (t0 :: ts0)) = r
  cases r with
  | error e => rfl
  | ok vs => simp [Except.map, parseLinesAux_nil, Node.set]

/-- The input of the repository's test `list`: the key `a` with the Sequence
of the Integers 1 and 2. -/
theorem ParseYAML_scalar_sequence_example :
    ParseYAML (join [nl] (scalarSequenceLines "a".toList "  ".toList ["1".toList, "2".toList])) =
      .ok [("a".toList, Value.seq [Value.int 1, Value.int 2])] :=
  (ParseYAML_scalar_sequence "a".toList "  ".toList ["1".toList, "2".toList]
    ⟨by decide, by decide, by decide⟩ (by unfold isIndentation; decide) (by decide)
    (by decide)).trans rfl

/-! ## Block sequences of maps -/

theorem getIndent_indentation (ind : Str) (h : isIndentation ind) (s : Str) :
    getIndent (ind ++ s) = getIndent ind + getIndent s := by
  induction ind with
  | nil => simp [getIndent]
  | cons c cs ih =>
    have ih := ih (fun x hx => h x (List.mem_cons_of_mem _ hx))
    rcases h c (List.mem_cons_self _ _) with rfl | rfl
    · rw [List.cons_append, getIndent, getIndent, if_pos rfl, if_pos rfl, ih]
      omega
    · have : ¬ (Char.ofNat 9 = ' ') := by decide
      rw [List.cons_append, getIndent, getIndent, if_neg this, if_neg this, if_pos rfl,
        if_pos rfl, ih]
      omega

theorem getIndent_append_of_zero (k : Str) (c : Char) (rest : Str) (hk : getIndent k = 0)
    (hc : c ≠ ' ' ∧ c ≠ Char.ofNat 9) : getIndent (k ++ c :: rest) = 0 := by
  cases k with
  | nil => simp [getIndent, hc.1, hc.2]
  | cons d ds =>
    unfold getIndent at hk
    rw [List.cons_append]
    unfold getIndent
    split_ifs at hk ⊢
    all_goals omega

theorem replaceFirst_indentation (ind : Str) (h : isIndentation ind) (rest : Str) :
    replaceFirst '-' ' ' (ind ++ '-' :: rest) = ind ++ ' ' :: rest := by
  induction ind with
  | nil => simp [replaceFirst]
  | cons c cs ih =>
    have ih := ih (fun x hx => h x (List.mem_cons_of_mem _ hx))
    have hc : c ≠ '-' := by
      rcases h c (List.mem_cons_self _ _) with rfl | rfl <;> decide
    rw [List.cons_append, replaceFirst, if_neg hc, ih]
    rfl

theorem takeWhile_append_stop {α : Type} (p : α → Bool) (a b : List α) (ha : ∀ x ∈ a, p x = true)
    (hb : ∀ x, b.head? = some x → p x = false) : (a ++ b).takeWhile p = a := by
  induction a with
  | nil =>
    cases b with
    | nil => rfl
    | cons x xs => simp [List.takeWhile, hb x rfl]
  | cons x xs ih =>
    rw [List.cons_append, List.takeWhile_cons_of_pos (ha x (List.mem_cons_self _ _)),
      ih (fun y hy => ha y (List.mem_cons_of_mem _ hy))]


theorem isIndentation_append_two (ind : Str) (h : isIndentation ind) :
    isIndentation (ind ++ "  ".toList) := by
  intro c hc
  rcases List.mem_append.1 hc with hc | hc
  · exact h c hc
  · left
    simpa using hc

theorem not_mem_indentation (ind : Str) (h : isIndentation ind) (c : Char)
    (hc : c ≠ ' ' ∧ c ≠ Char.ofNat 9) : c ∉ ind := by
  intro hm
  rcases h c hm with e | e
  · exact hc.1 e
  · exact hc.2 e

theorem getIndent_pairLine (ind2 : Str) (hind2 : isIndentation ind2) (kv : Str × Str)
    (hkv : itemPair kv) : getIndent (ind2 ++ (kv.1 ++ ": ".toList ++ kv.2)) = getIndent ind2 := by
  have : kv.1 ++ ": ".toList ++ kv.2 = kv.1 ++ ':' :: (' ' :: kv.2) := by simp
  rw [getIndent_indentation ind2 hind2, this,
    getIndent_append_of_zero kv.1 ':' _ hkv.2.2.2.2.1 (by decide)]
  rfl

theorem classifyPair_indentation (ind2 : Str) (hind2 : isIndentation ind2) (kv : Str × Str) :
    classifyPair (ind2 ++ kv.1, kv.2) = classifyPair kv := by
  simp [classifyPair, trimSpace_indentation ind2 hind2]

/-- The lines of the pairs of one item, parsed as a block, give the map of the
item. -/
theorem parseLinesAux_pairLines (ind2 : Str) (hind2 : isIndentation ind2) :
    ∀ (item : List (Str × Str)) (fuel : Nat) (first : Bool) (node : Node),
      (∀ kv ∈ item, itemPair kv) → item.length ≤ fuel →
      parseLinesAux fuel first (item.map fun kv => ind2 ++ (kv.1 ++ ": ".toList ++ kv.2)) node =
        Except.map (fun kvs => kvs.foldl (fun n kv => Node.set n kv.1 kv.2) node)
          (item.mapM classifyPair) := by
  intro item fuel first node hitem hf
  have hdoc := parseLinesAux_doc (item.map fun kv => DocLine.entry (ind2 ++ kv.1) kv.2) fuel first
    node (by
      intro d hd
      obtain ⟨kv, hkv, rfl⟩ := List.mem_map.1 hd
      obtain ⟨h1, h2, h3, h4, _, h6, h7, h8⟩ := hitem kv hkv
      refine ⟨?_, ?_, h3, ?_, h6, h7, h8⟩
      · simp [h1, not_mem_indentation ind2 hind2 ':' (by decide)]
      · simp [h2, not_mem_indentation ind2 hind2 nl (by decide)]
      · rw [trimSpace_indentation ind2 hind2]
        exact h4) (by simpa using hf)
  have e1 : (item.map fun kv => DocLine.entry (ind2 ++ kv.1) kv.2).map DocLine.text =
      item.map fun kv => ind2 ++ (kv.1 ++ ": ".toList ++ kv.2) := by
    rw [List.map_map]
    apply List.map_congr_left
    intro kv _
    simp [DocLine.text]
  have e2 : ∀ l : List (Str × Str),
      (docEntries (l.map fun kv => DocLine.entry (ind2 ++ kv.1) kv.2)).mapM classifyPair =
        l.mapM classifyPair := by
    intro l
    induction l with
    | nil => rfl
    | cons kv l ih =>
      rw [List.map_cons, docEntries, List.mapM_cons, List.mapM_cons, ih,
        classifyPair_indentation ind2 hind2]
  rw [e1, e2] at hdoc
  exact hdoc

theorem length_itemLines (ind : Str) (item : List (Str × Str)) :
    (itemLines ind item).length = item.length := by
  cases item <;> simp [itemLines]

/-- One item of a block sequence of maps in the list loop: its lines are parsed
as a block, the map is appended, and the loop goes on behind them. -/
theorem listLoop_item (fuelP : Nat) (pv : Str → Except Fault Value) (ind : Str)
    (hind : isIndentation ind) (item : List (Str × Str)) (hne : item ≠ [])
    (hitem : ∀ kv ∈ item, itemPair kv) (rest : List Str)
    (hrest : ∀ x, rest.head? = some x → getIndent x < getIndent ind + 2)
    (fuel : Nat) (acc : List Value) (hfp : item.length ≤ fuelP) :
    listLoop (fun b => parseLinesAux fuelP true b []) pv (fuel + 1) (itemLines ind item ++ rest) acc =
      match itemNode item with
      | .error e => .error e
      | .ok v => listLoop (fun b => parseLinesAux fuelP true b []) pv fuel rest (acc ++ [v]) := by
  obtain ⟨kv, others, rfl⟩ := List.exists_cons_of_ne_nil hne
  have hind2 := isIndentation_append_two ind hind
  have hw : getIndent (ind ++ "  ".toList) = getIndent ind + 2 := by
    rw [getIndent_indentation ind hind]
    rfl
  obtain ⟨hline, hl, _, _⟩ := item_line ind (kv.1 ++ ": ".toList ++ kv.2) hind
  have hc : contains (trimSpace (ind ++ "- ".toList ++ (kv.1 ++ ": ".toList ++ kv.2))) ':' = true := by
    apply contains_eq_true
    rw [hline]
    have : ' ' :: (kv.1 ++ ": ".toList ++ kv.2) = (' ' :: kv.1) ++ ':' :: (' ' :: kv.2) := by simp
    rw [this, rdropWhile_append_cons isSpace ':' (by decide)]
    simp
  have hrep : replaceFirst '-' ' ' (ind ++ "- ".toList ++ (kv.1 ++ ": ".toList ++ kv.2)) =
      (ind ++ "  ".toList) ++ (kv.1 ++ ": ".toList ++ kv.2) := by
    have : ind ++ "- ".toList ++ (kv.1 ++ ": ".toList ++ kv.2) =
        ind ++ '-' :: (' ' :: (kv.1 ++ ": ".toList ++ kv.2)) := by simp
    rw [this, replaceFirst_indentation ind hind]
    simp
  have hblock : ((ind ++ "  ".toList) ++ (kv.1 ++ ": ".toList ++ kv.2)) ::
      ((others.map fun kv1 => ind ++ "  ".toList ++ (kv1.1 ++ ": ".toList ++ kv1.2)) ++ rest) =
      ((kv :: others).map fun kv1 => (ind ++ "  ".toList) ++ (kv1.1 ++ ": ".toList ++ kv1.2)) ++ rest :=
    rfl
  have htake : List.takeWhile (fun l => decide (¬ getIndent l <
        getIndent ((ind ++ "  ".toList) ++ (kv.1 ++ ": ".toList ++ kv.2))))
      (((kv :: others).map fun kv1 => (ind ++ "  ".toList) ++ (kv1.1 ++ ": ".toList ++ kv1.2)) ++ rest) =
      (kv :: others).map fun kv1 => (ind ++ "  ".toList) ++ (kv1.1 ++ ": ".toList ++ kv1.2) := by
    apply takeWhile_append_stop
    · intro x hx
      obtain ⟨kv1, hkv1, rfl⟩ := List.mem_map.1 hx
      rw [getIndent_pairLine _ hind2 kv1 (hitem kv1 hkv1),
        getIndent_pairLine _ hind2 kv (hitem kv (List.mem_cons_self _ _))]
      simp
    · intro x hx
      have := hrest x hx
      rw [getIndent_pairLine _ hind2 kv (hitem kv (List.mem_cons_self _ _)), hw]
      simpa using this
  rw [itemLines, List.cons_append, listLoop]
  simp only [hl, if_true, hc]
  rw [hrep, getIndentedBlock]
  rw [hblock, htake, parseLinesAux_pairLines _ hind2 (kv :: others) fuelP true [] hitem hfp]
  unfold itemNode
  generalize (List.mapM classifyPair (kv :: others)) = r
  cases r with
  | error e => rfl
  | ok kvs =>
    simp only [Except.map, List.length_map, List.length_cons]
    have hdrop : List.drop (others.length + 1)
        ((ind ++ "- ".toList ++ (kv.1 ++ ": ".toList ++ kv.2)) ::
          ((others.map fun kv1 => ind ++ "  ".toList ++ (kv1.1 ++ ": ".toList ++ kv1.2)) ++ rest)) =
        rest := by
      rw [List.drop_succ_cons, List.drop_left' (by simp)]
    rw [hdrop]
    rfl


theorem getIndent_itemLines_head (ind : Str) (hind : isIndentation ind) (item : List (Str × Str))
    (rest : List Str) (x : Str) (hne : item ≠ []) (hx : (itemLines ind item ++ rest).head? = some x) :
    getIndent x < getIndent ind + 2 := by
  obtain ⟨kv, others, rfl⟩ := List.exists_cons_of_ne_nil hne
  simp only [itemLines, List.cons_append, List.head?_cons, Option.some.injEq] at hx
  subst hx
  have : ind ++ "- ".toList ++ (kv.1 ++ ": ".toList ++ kv.2) =
      ind ++ '-' :: (' ' :: (kv.1 ++ ": ".toList ++ kv.2)) := by simp
  rw [this, getIndent_indentation ind hind]
  have h0 : getIndent ('-' :: (' ' :: (kv.1 ++ ": ".toList ++ kv.2))) = 0 := by
    rw [getIndent, if_neg (by decide), if_neg (by decide)]
  omega

/-- The list loop on the lines of a block sequence of maps: one map for each
item, in order; no line is left. -/
theorem listLoop_items (fuelP : Nat) (pv : Str → Except Fault Value) (ind : Str)
    (hind : isIndentation ind) :
    ∀ (items : List (List (Str × Str))) (fuel : Nat) (acc : List Value),
      (∀ item ∈ items, item ≠ [] ∧ item.length ≤ fuelP ∧ ∀ kv ∈ item, itemPair kv) →
      items.length ≤ fuel →
      listLoop (fun b => parseLinesAux fuelP true b []) pv fuel
          (items.map (itemLines ind)).flatten acc =
        Except.map (fun vs => (acc ++ vs, ([] : List Str))) (items.mapM itemNode)
  | [], fuel, acc, _, _ => by
    rw [List.map_nil, List.flatten_nil, listLoop_nil, List.mapM_nil]
    simp [Except.map, pure, Except.pure]
  | item :: items, 0, _, _, hf => by simp at hf
  | item :: items, fuel + 1, acc, h, hf => by
    obtain ⟨hne, hfp, hitem⟩ := h item (List.mem_cons_self _ _)
    have hrest : ∀ x, ((items.map (itemLines ind)).flatten).head? = some x →
        getIndent x < getIndent ind + 2 := by
      intro x hx
      cases items with
      | nil => simp at hx
      | cons i2 is =>
        rw [List.map_cons, List.flatten_cons] at hx
        exact getIndent_itemLines_head ind hind i2 _ x
          (h i2 (List.mem_cons_of_mem _ (List.mem_cons_self _ _))).1 hx
    rw [List.map_cons, List.flatten_cons,
      listLoop_item fuelP pv ind hind item hne hitem _ hrest fuel acc hfp, List.mapM_cons]
    cases hv : itemNode item with
    | error e => simp [Except.map, bind, Except.bind]
    | ok v =>
      simp only []
      rw [listLoop_items fuelP pv ind hind items fuel _
        (fun i hi => h i (List.mem_cons_of_mem _ hi)) (by simpa using hf)]
      generalize (List.mapM itemNode items) = r
      cases r <;> simp [Except.map, bind, Except.bind, pure, Except.pure]

theorem length_le_flatten_itemLines (ind : Str) : ∀ (items : List (List (Str × Str))),
    (∀ item ∈ items, item ≠ []) →
    items.length ≤ (items.map (itemLines ind)).flatten.length ∧
    ∀ item ∈ items, item.length ≤ (items.map (itemLines ind)).flatten.length
  | [], _ => by simp
  | item :: items, h => by
    obtain ⟨ih1, ih2⟩ := length_le_flatten_itemLines ind items
      (fun i hi => h i (List.mem_cons_of_mem _ hi))
    have hpos : 0 < item.length := List.length_pos.2 (h item (List.mem_cons_self _ _))
    rw [List.map_cons, List.flatten_cons, List.length_append, length_itemLines]
    refine ⟨by simp only [List.length_cons]; omega, ?_⟩
    intro i hi
    rcases List.mem_cons.1 hi with rfl | hi
    · omega
    · have := ih2 i hi
      omega

theorem not_mem_itemLines (ind : Str) (hind : isIndentation ind) (item : List (Str × Str))
    (hitem : ∀ kv ∈ item, itemPair kv) : ∀ s ∈ itemLines ind item, nl ∉ s := by
  have hi : nl ∉ ind := not_mem_indentation ind hind nl (by decide)
  have hnl : nl ≠ ':' ∧ nl ≠ '-' ∧ nl ≠ ' ' := by decide
  intro s hs
  cases item with
  | nil => simp [itemLines] at hs
  | cons kv others =>
    rw [itemLines] at hs
    rcases List.mem_cons.1 hs with rfl | hs
    · obtain ⟨_, h2, h3, _⟩ := hitem kv (List.mem_cons_self _ _)
      simp [hi, h2, h3, hnl.1, hnl.2.1, hnl.2.2]
    · obtain ⟨kv1, hkv1, rfl⟩ := List.mem_map.1 hs
      obtain ⟨_, h2, h3, _⟩ := hitem kv1 (List.mem_cons_of_mem _ hkv1)
      simp [hi, h2, h3, hnl.1, hnl.2.2]

/-- For every key `k`, every indentation and every non-empty list of
items, each a non-empty list of `key: value` pairs with plain scalar values,
written with the first pair of an item on the `- ` line and its other pairs on
the following lines under the first key, `ParseYAML` is the Node with the one
key `k` and under it the Sequence of one Node for each item, in item order;
the Node of an item is built from the pairs of that item alone, and the loop
goes on at the next `- ` line behind the lines of the item.  The result is
stated with the faults of `parseValue`: a value on which `parseValue` faults
makes `ParseYAML` fault in the same way. -/
theorem ParseYAML_map_sequence (k ind : Str) (items : List (List (Str × Str)))
    (hk : blockKey k) (hind : isIndentation ind) (hne : items ≠ [])
    (hitems : ∀ item ∈ items, item ≠ [] ∧ ∀ kv ∈ item, itemPair kv) :
    ParseYAML (join [nl] (mapSequenceLines k ind items)) =
      Except.map (fun vs => [(trimSpace k, Value.seq vs)]) (items.mapM itemNode) := by
  have hs : split nl (join [nl] (mapSequenceLines k ind items)) = mapSequenceLines k ind items := by
    apply split_join
    intro s hs
    rcases List.mem_cons.1 hs with rfl | hs
    · have hnl : nl ≠ ':' := by decide
      simp [hk.2.1, hnl]
    · obtain ⟨l, hl, hsl⟩ := List.mem_flatten.1 hs
      obtain ⟨item, hitem, rfl⟩ := List.mem_map.1 hl
      exact not_mem_itemLines ind hind item (hitems item hitem).2 s hsl
  obtain ⟨hlen1, hlen2⟩ := length_le_flatten_itemLines ind items (fun i hi => (hitems i hi).1)
  obtain ⟨item0, items0, rfl⟩ := List.exists_cons_of_ne_nil hne
  obtain ⟨kv0, others0, rfl⟩ :=
    List.exists_cons_of_ne_nil (hitems item0 (List.mem_cons_self _ _)).1
  have hflat : (((kv0 :: others0) :: items0).map (itemLines ind)).flatten =
      (ind ++ "- ".toList ++ (kv0.1 ++ ": ".toList ++ kv0.2)) ::
        ((others0.map fun kv1 => ind ++ "  ".toList ++ (kv1.1 ++ ": ".toList ++ kv1.2)) ++
          (items0.map (itemLines ind)).flatten) := by
    rw [List.map_cons, List.flatten_cons, itemLines, List.cons_append]
  rw [ParseYAML, hs, parseYAMLLines, mapSequenceLines, List.length_cons]
  generalize hF : (((kv0 :: others0) :: items0).map (itemLines ind)).flatten.length = F at hlen1 hlen2
  rw [hflat, parseLinesAux_list_key _ _ _ _ _ _ hk (item_line ind _ hind).2.2.1, ← hflat,
    listLoop_items F parseValue ind hind _ F []
      (fun i hi => ⟨(hitems i hi).1, hlen2 i hi, (hitems i hi).2⟩) hlen1]
  generalize (List.mapM itemNode ((kv0 :: others0) :: items0)) = r
  cases r with
  | error e => rfl
  | ok vs => simp [Except.map, parseLinesAux_nil, Node.set]


/-- The input of the repository's test `list of maps`: two Nodes, the first
with the keys `b` and `c`, the second with the keys `d` and `e`. -/
theorem ParseYAML_map_sequence_example :
    ParseYAML (join [nl] (mapSequenceLines "a".toList "  ".toList
        [[("b".toList, "v1".toList), ("c".toList, "v2".toList)],
         [("d".toList, "v3".toList), ("e".toList, "v4".toList)]])) =
      .ok [("a".toList, Value.seq
        [Value.node [("b".toList, Value.str "v1".toList), ("c".toList, Value.str "v2".toList)],
         Value.node [("d".toList, Value.str "v3".toList), ("e".toList, Value.str "v4".toList)]])] :=
  (ParseYAML_map_sequence "a".toList "  ".toList
    [[("b".toList, "v1".toList), ("c".toList, "v2".toList)],
     [("d".toList, "v3".toList), ("e".toList, "v4".toList)]]
    ⟨by decide, by decide, by decide⟩ (by unfold isIndentation; decide) (by decide)
    (by
      intro item hitem
      simp only [List.mem_cons, List.mem_singleton, List.not_mem_nil, or_false] at hitem
      rcases hitem with rfl | rfl
      · refine ⟨by decide, fun kv hkv => ?_⟩
        simp only [List.mem_cons, List.mem_singleton, List.not_mem_nil, or_false] at hkv
        rcases hkv with rfl | rfl <;>
          exact ⟨by decide, by decide, by decide, by decide, by decide, by decide, by decide,
            by decide⟩
      · refine ⟨by decide, fun kv hkv => ?_⟩
        simp only [List.mem_cons, List.mem_singleton, List.not_mem_nil, or_false] at hkv
        rcases hkv with rfl | rfl <;>
          exact ⟨by decide, by decide, by decide, by decide, by decide, by decide, by decide,
            by decide⟩)).trans rfl

/-! ## Fuel of the block parser -/

theorem getIndentedBlock_spec (parse : List Str → Except Fault Node) (lines : List Str)
    (hp : ∀ b : List Str, b.length ≤ lines.length → parse b ≠ .error Fault.outOfFuel) :
    getIndentedBlock parse lines ≠ .error Fault.outOfFuel ∧
    ∀ child n, getIndentedBlock parse lines = .ok (child, n) → 1 ≤ n ∧ n ≤ lines.length := by
  cases lines with
  | nil => simp [getIndentedBlock]
  | cons l0 tl =>
    rw [getIndentedBlock]
    have hlen : (List.takeWhile (fun l => decide (¬ getIndent l < getIndent l0)) (l0 :: tl)).length ≤
        (l0 :: tl).length := (List.takeWhile_sublist _).length_le
    have hpos : 1 ≤ (List.takeWhile (fun l => decide (¬ getIndent l < getIndent l0)) (l0 :: tl)).length := by
      rw [List.takeWhile_cons_of_pos (by simp)]
      simp
    have hb := hp _ hlen
    cases hparse : parse (List.takeWhile (fun l => decide (¬ getIndent l < getIndent l0)) (l0 :: tl)) with
    | error e =>
      rw [hparse] at hb
      refine ⟨by simpa using hb, ?_⟩
      intro child n h
      simp at h
    | ok child =>
      refine ⟨by simp, ?_⟩
      intro c n h
      simp only [Except.ok.injEq, Prod.mk.injEq] at h
      rw [← h.2]
      exact ⟨hpos, hlen⟩

/-- The list loop does not run out of fuel when it has at least one unit for
each line, and it hands back no more lines than it was given. -/
theorem listLoop_spec (parse : List Str → Except Fault Node) (pv : Str → Except Fault Value)
    (hpv : ∀ s, pv s ≠ .error Fault.outOfFuel) :
    ∀ (fuel : Nat) (lines : List Str) (acc : List Value), lines.length ≤ fuel →
      (∀ b : List Str, b.length ≤ lines.length → parse b ≠ .error Fault.outOfFuel) →
      listLoop parse pv fuel lines acc ≠ .error Fault.outOfFuel ∧
      ∀ list rest, listLoop parse pv fuel lines acc = .ok (list, rest) →
        rest.length ≤ lines.length
  | fuel, [], acc, _, _ => by
    rw [listLoop_nil]
    refine ⟨by simp, ?_⟩
    intro list rest h
    simp only [Except.ok.injEq, Prod.mk.injEq] at h
    simp [← h.2]
  | 0, _ :: _, _, hf, _ => by simp at hf
  | fuel + 1, raw :: tl, acc, hf, hp => by
    have hf2 : tl.length ≤ fuel := by simpa using hf
    rw [listLoop]
    split_ifs with h1 h2 h3
    · -- an item that is a map
      obtain ⟨hg1, hg2⟩ := getIndentedBlock_spec parse (replaceFirst '-' ' ' raw :: tl)
        (fun b hb => hp b (by simpa using hb))
      cases hg : getIndentedBlock parse (replaceFirst '-' ' ' raw :: tl) with
      | error e =>
        rw [hg] at hg1
        refine ⟨by simpa using hg1, ?_⟩
        intro list rest h
        simp at h
      | ok r =>
        obtain ⟨item, childLines⟩ := r
        obtain ⟨hn1, hn2⟩ := hg2 item childLines hg
        have hd : (List.drop childLines (raw :: tl)).length ≤ tl.length := by
          simp only [List.length_drop, List.length_cons] at hn2 ⊢
          omega
        obtain ⟨ih1, ih2⟩ := listLoop_spec parse pv hpv fuel (List.drop childLines (raw :: tl))
          (acc ++ [Value.node item]) (le_trans hd hf2)
          (fun b hb => hp b (by simp only [List.length_cons]; omega))
        refine ⟨ih1, ?_⟩
        intro list rest h
        have := ih2 list rest h
        simp only [List.length_cons]
        omega
    · -- a scalar item
      have hv := hpv (trimSpace (trimPrefix (trimSpace raw) '-'))
      cases hpvr : pv (trimSpace (trimPrefix (trimSpace raw) '-')) with
      | error e =>
        rw [hpvr] at hv
        refine ⟨by simpa using hv, ?_⟩
        intro list rest h
        simp at h
      | ok item =>
        obtain ⟨ih1, ih2⟩ := listLoop_spec parse pv hpv fuel tl (acc ++ [item]) hf2
          (fun b hb => hp b (by simp only [List.length_cons]; omega))
        refine ⟨ih1, ?_⟩
        intro list rest h
        have := ih2 list rest h
        simp only [List.length_cons]
        omega
    · refine ⟨by simp, ?_⟩
      intro list rest h
      simp only [Except.ok.injEq, Prod.mk.injEq] at h
      simp [← h.2]
    · refine ⟨by simp, ?_⟩
      intro list rest h
      simp only [Except.ok.injEq, Prod.mk.injEq] at h
      simp [← h.2]


/-- The loop of `parseYAMLLines` does not run out of fuel when it has at least
one unit for each line: each step reads at least one line, and each recursive
call is on fewer lines. -/
theorem parseLinesAux_ne_outOfFuel : ∀ (fuel : Nat) (first : Bool) (lines : List Str)
    (node : Node), lines.length ≤ fuel →
    parseLinesAux fuel first lines node ≠ .error Fault.outOfFuel
  | fuel, first, [], node, _ => by
    rw [parseLinesAux_nil]
    simp
  | 0, _, _ :: _, _, hf => by simp at hf
  | fuel + 1, first, raw :: tl, node, hf => by
    have hf2 : tl.length ≤ fuel := by simpa using hf
    have ih := parseLinesAux_ne_outOfFuel fuel
    rw [parseLinesAux]
    by_cases h1 : trimSpace raw = [] ∨ (trimSpace raw).head? = some '#'
    · rw [if_pos h1]
      exact ih false tl node hf2
    rw [if_neg h1]
    by_cases h2 : trimSpace raw = "---".toList
    · rw [if_pos h2]
      cases first
      · simp
      · simpa using ih false tl node hf2
    rw [if_neg h2]
    split
    · next k v hkv =>
      simp only []
      by_cases h4 : trimSpace v = [] ∧ tl ≠ []
      · rw [if_pos h4]
        by_cases h5 : isList (tl.headD []) = true
        · -- a block sequence
          rw [if_pos h5]
          obtain ⟨hl1, hl2⟩ := listLoop_spec (fun b => parseLinesAux fuel true b []) parseValue
            parseValue_ne_outOfFuel fuel tl [] hf2 (fun b hb => ih true b [] (le_trans hb hf2))
          cases hl : listLoop (fun b => parseLinesAux fuel true b []) parseValue fuel tl [] with
          | error e =>
            rw [hl] at hl1
            simpa using hl1
          | ok r =>
            obtain ⟨list, rest⟩ := r
            exact ih false rest _ (le_trans (hl2 list rest hl) hf2)
        · -- a nested block
          rw [if_neg h5]
          obtain ⟨hg1, hg2⟩ := getIndentedBlock_spec (fun b => parseLinesAux fuel true b []) tl
            (fun b hb => ih true b [] (le_trans hb hf2))
          cases hg : getIndentedBlock (fun b => parseLinesAux fuel true b []) tl with
          | error e =>
            rw [hg] at hg1
            simpa using hg1
          | ok r =>
            obtain ⟨childNode, childLines⟩ := r
            exact ih false (List.drop childLines tl) _ (le_trans (by simp) hf2)
      · rw [if_neg h4]
        by_cases h6 : hasPrefix (trimSpace v) '|' = true ∨ hasPrefix (trimSpace v) '>' = true
        · -- a multiline block
          rw [if_pos h6]
          cases tl with
          | nil => simp
          | cons l0 rest =>
            exact ih false _ _ (le_trans (by simp only [List.length_drop]; omega) hf2)
        · -- a scalar
          rw [if_neg h6]
          have hv := parseValue_ne_outOfFuel (trimSpace v)
          cases hpv : parseValue (trimSpace v) with
          | error e =>
            rw [hpv] at hv
            simpa using hv
          | ok val => exact ih false tl _ hf2
    · exact ih false tl node hf2

/-- The embedding of `parseYAMLLines` never runs out of fuel: each result is a
Node or a fault of the Go program. -/
theorem parseYAMLLines_ne_outOfFuel (lines : List Str) :
    parseYAMLLines lines ≠ .error Fault.outOfFuel :=
  parseLinesAux_ne_outOfFuel lines.length true lines [] (le_refl _)

/-! ## Faults and the boolean literals -/

/-- C1: `ParseYAML` does not return a Node for every input.  A `|` or `>` block
indicator on the last line makes the loop read `lines[i]` one past the end
(index out of range); a value that is a lone quote makes `parseValue` slice
`value[1:0]` (slice bounds out of range); a value `{}` makes it read `parts[1]`
of a pair without a colon (index out of range). -/
theorem ParseYAML_faults_on_trailing_block_indicator :
    ParseYAML "a: |".toList = .error Fault.indexOutOfRange ∧
    ParseYAML "a: >".toList = .error Fault.indexOutOfRange ∧
    ParseYAML ("a: ".toList ++ [sq]) = .error Fault.sliceBoundsOutOfRange ∧
    ParseYAML "a: \x7b\x7d".toList = .error Fault.indexOutOfRange :=
  ⟨rfl, rfl, rfl, rfl⟩

/-- C2: `parseValue` is not total.  On the one-character texts that are a
single quote or a double quote it faults with slice bounds out of range, and
on the brace-wrapped texts `{}` and `{a}`, whose segments have no colon, with
index out of range; none of them is returned as a String. -/
theorem parseValue_faults_on_lone_quote :
    parseValue [sq] = .error Fault.sliceBoundsOutOfRange ∧
    parseValue [dq] = .error Fault.sliceBoundsOutOfRange ∧
    parseValue "\x7b\x7d".toList = .error Fault.indexOutOfRange ∧
    parseValue "\x7ba\x7d".toList = .error Fault.indexOutOfRange :=
  ⟨rfl, rfl, rfl, rfl⟩

/-- C4: `parseValue` does not return the Boolean true for every token that
equals `true` when letter case is ignored: `strconv.ParseBool` is called on
the token as written, its error is dropped, and the mixed-case token `tRuE`
gives the Boolean false.  The three spellings `ParseBool` knows give true. -/
theorem parseValue_mixed_case_true_is_false :
    parseValue "tRuE".toList = .ok (Value.bool false) ∧
    parseValue "true".toList = .ok (Value.bool true) ∧
    parseValue "True".toList = .ok (Value.bool true) ∧
    parseValue "TRUE".toList = .ok (Value.bool true) :=
  ⟨rfl, rfl, rfl, rfl⟩

/-- C6: `parseValue` does not return a Sequence for every bracketed text.  For
every interior text its result is the Sequence of the results of `parseValue`
on the trimmed pieces between the commas, with their faults, and there is one
piece more than there are commas; but the one piece of the interior of `[` +
quote + `]` is a lone quote, and the one piece of `[{}]` is a brace pair
without a colon: on both the recursive call faults, and so does the call on
the bracketed text. -/
theorem parseValue_inline_array_faults :
    (∀ t : Str, parseValue ('[' :: (t ++ [']'])) =
        Except.map Value.seq ((split ',' t).mapM fun p => parseValue (trimSpace p)) ∧
      (split ',' t).length = t.count ',' + 1) ∧
    parseValue ('[' :: sq :: [']']) = .error Fault.sliceBoundsOutOfRange ∧
    parseValue "[\x7b\x7d]".toList = .error Fault.indexOutOfRange :=
  ⟨fun t => ⟨parseValue_inline_array t, length_split ',' t⟩, rfl, rfl⟩

/-- C7: `parseValue` does not return a Node for every inline map of the stated
form.  Its result is the Node built by assigning, in order, to each trimmed
key the result of `parseValue` on the trimmed value text, with the faults of
those calls, and a look-up gives the value of the last pair with the key; but
in the map text with the one key `a` and a lone quote as value text the call
on the value faults, and so does the call on the map text. -/
theorem parseValue_inline_map_faults :
    (∀ pairs : List (Str × Str), pairs ≠ [] →
      (∀ kv ∈ pairs, ',' ∉ kv.1 ∧ ':' ∉ kv.1) → (∀ kv ∈ pairs, ',' ∉ kv.2) →
      parseValue (inlineMapText pairs) =
        Except.map (fun kvs => Value.node (Node.ofList kvs)) (pairs.mapM classifyPair)) ∧
    (∀ (kvs : List (Str × Value)) (q : Str), (Node.ofList kvs).get? q = lastValue kvs q) ∧
    parseValue (inlineMapText [("a".toList, [sq])]) = .error Fault.sliceBoundsOutOfRange :=
  ⟨parseValue_inline_map, Node.get?_ofList, rfl⟩


/-- C8: `ParseYAML` does not return a Node for every flat document of the
stated form.  Its result is the Node built by assigning, in the order of the
lines, to each trimmed key the result of `parseValue` on its trimmed value,
with the faults of those calls; blank and comment lines add nothing and a
look-up gives the value of the last line with the key.  But on the one line
with the key `a` and a lone quote as value, a value that is not empty and does
not start with `|` or `>`, `parseValue` faults, and so does `ParseYAML`. -/
theorem ParseYAML_flat_document_faults :
    (∀ doc : List DocLine, (∀ d ∈ doc, d.wellFormed) →
      ParseYAML (join [nl] (doc.map DocLine.text)) =
        Except.map Node.ofList ((docEntries doc).mapM classifyPair)) ∧
    (∀ (kvs : List (Str × Value)) (q : Str), (Node.ofList kvs).get? q = lastValue kvs q) ∧
    (DocLine.entry "a".toList [sq]).wellFormed ∧
    ParseYAML (join [nl] ([DocLine.entry "a".toList [sq]].map DocLine.text)) =
      .error Fault.sliceBoundsOutOfRange :=
  ⟨fun doc hwf => (ParseYAML_flat_document doc hwf).1, Node.get?_ofList,
   ⟨by decide, by decide, by decide, by decide, by decide, by decide, by decide⟩, rfl⟩

/-- C9: `ParseYAML` does not return a Node for every block sequence of scalar
tokens.  Its result is the Node with the one key `k` and under it the Sequence
of the results of `parseValue` on the trimmed tokens, one for each item line in
the order of the lines, with the faults of those calls.  But under the key `k`
the one item line `- ` + quote holds a token without colon on which
`parseValue` faults, and so does `ParseYAML`. -/
theorem ParseYAML_scalar_sequence_faults :
    (∀ (k ind : Str) (ts : List Str), blockKey k → isIndentation ind → ts ≠ [] →
      (∀ t ∈ ts, ':' ∉ t ∧ nl ∉ t) →
      ParseYAML (join [nl] (scalarSequenceLines k ind ts)) =
        Except.map (fun vs => [(trimSpace k, Value.seq vs)])
          (ts.mapM fun t => parseValue (trimSpace t))) ∧
    ParseYAML (join [nl] (scalarSequenceLines "k".toList [] [[sq]])) =
      .error Fault.sliceBoundsOutOfRange :=
  ⟨ParseYAML_scalar_sequence, rfl⟩

/-- C10: `ParseYAML` does not return a Node for every block sequence of maps.
Its result is the Node with the one key `k` and under it the Sequence of one
Node for each item, in item order, the Node of an item built from the pairs of
that item alone, with the faults of `parseValue` on the values.  But under the
key `k` the one item with the pair of the key `a` and a lone quote as value
makes `parseValue` fault, and so does `ParseYAML`. -/
theorem ParseYAML_map_sequence_faults :
    (∀ (k ind : Str) (items : List (List (Str × Str))), blockKey k → isIndentation ind →
      items ≠ [] → (∀ item ∈ items, item ≠ [] ∧ ∀ kv ∈ item, itemPair kv) →
      ParseYAML (join [nl] (mapSequenceLines k ind items)) =
        Except.map (fun vs => [(trimSpace k, Value.seq vs)]) (items.mapM itemNode)) ∧
    itemPair ("a".toList, [sq]) ∧
    ParseYAML (join [nl] (mapSequenceLines "k".toList [] [[("a".toList, [sq])]])) =
      .error Fault.sliceBoundsOutOfRange :=
  ⟨ParseYAML_map_sequence,
   ⟨by decide, by decide, by decide, by decide, by decide, by decide, by decide, by decide⟩, rfl⟩

/-! ## The path accessor -/

theorem parseUintLoop_lt : ∀ (ds : Str) (a r : Nat), parseUintLoop ds a = some r →
    a < 2 ^ 64 → r < 2 ^ 64
  | [], a, r, h, ha => by
    simp only [parseUintLoop, Option.some.injEq] at h
    omega
  | c :: cs, a, r, h, ha => by
    unfold parseUintLoop at h
    cases hd : digitVal c with
    | none => simp [hd] at h
    | some d =>
      simp only [hd] at h
      split_ifs at h with h1 h2
      exact parseUintLoop_lt cs _ r h (by omega)

/-- The number `parseUintLoop` returns is the number the digits denote. -/
theorem parseUintLoop_value : ∀ (ds : Str) (a r : Nat), parseUintLoop ds a = some r →
    r = ds.foldl (fun a c => a * 10 + (c.toNat - 48)) a
  | [], a, r, h => by
    simp only [parseUintLoop, Option.some.injEq] at h
    simp [h]
  | c :: cs, a, r, h => by
    unfold parseUintLoop at h
    cases hd : digitVal c with
    | none => simp [hd] at h
    | some d =>
      simp only [hd] at h
      split_ifs at h with h1 h2
      have hv : d = c.toNat - 48 := by
        unfold digitVal at hd
        split_ifs at hd
        simpa using hd.symm
      rw [List.foldl_cons, ← hv]
      exact parseUintLoop_value cs _ r h

theorem digitChar_toNat (d : Nat) (h : d < 10) : (Nat.digitChar d).toNat - 48 = d := by
  interval_cases d <;> rfl

/-- The digits that `Nat.toDigitsCore` writes in front of `ds` denote the number
written. -/
theorem foldl_toDigitsCore : ∀ (fuel n : Nat) (ds : Str), n < fuel →
    ∃ k : Nat, ∀ a : Nat,
      (Nat.toDigitsCore 10 fuel n ds).foldl (fun a c => a * 10 + (c.toNat - 48)) a =
        ds.foldl (fun a c => a * 10 + (c.toNat - 48)) (a * 10 ^ k + n)
  | 0, n, ds, h => absurd h (Nat.not_lt_zero _)
  | fuel + 1, n, ds, h => by
    unfold Nat.toDigitsCore
    simp only []
    by_cases hn : n / 10 = 0
    · rw [if_pos hn]
      refine ⟨1, fun a => ?_⟩
      have hlt : n < 10 := by omega
      have hmod : n % 10 = n := Nat.mod_eq_of_lt hlt
      rw [hmod, List.foldl_cons, digitChar_toNat n hlt, pow_one]
    · rw [if_neg hn]
      obtain ⟨k, hk⟩ := foldl_toDigitsCore fuel (n / 10) (Nat.digitChar (n % 10) :: ds) (by omega)
      refine ⟨k + 1, fun a => ?_⟩
      have hdm := Nat.div_add_mod n 10
      have hpow : a * 10 ^ (k + 1) = (a * 10 ^ k) * 10 := by ring
      rw [hk a, List.foldl_cons, digitChar_toNat _ (Nat.mod_lt _ (by decide))]
      congr 1
      omega

theorem foldl_toDigits (i : Nat) :
    (Nat.toDigits 10 i).foldl (fun a c => a * 10 + (c.toNat - 48)) 0 = i := by
  obtain ⟨k, hk⟩ := foldl_toDigitsCore (i + 1) i [] (Nat.lt_succ_self _)
  simpa [Nat.toDigits] using hk 0

/-- The characters of a decimal numeral are digits. -/
theorem digit_of_mem_toDigitsCore : ∀ (fuel n : Nat) (ds : Str),
    (∀ c ∈ ds, (digitVal c).isSome) → ∀ c ∈ Nat.toDigitsCore 10 fuel n ds, (digitVal c).isSome
  | 0, n, ds, h => by simpa [Nat.toDigitsCore] using h
  | fuel + 1, n, ds, h => by
    have hd : ∀ c ∈ Nat.digitChar (n % 10) :: ds, (digitVal c).isSome := by
      intro c hc
      rcases List.mem_cons.1 hc with rfl | hc
      · rw [digitVal_digitChar _ (Nat.mod_lt _ (by decide))]
        rfl
      · exact h c hc
    unfold Nat.toDigitsCore
    simp only []
    split_ifs
    · exact hd
    · exact digit_of_mem_toDigitsCore fuel _ _ hd

theorem digit_of_mem_toDigits (i : Nat) : ∀ c ∈ Nat.toDigits 10 i, (digitVal c).isSome :=
  digit_of_mem_toDigitsCore _ _ _ (by simp)

/-- The function `atoi` on a decimal numeral: the number when it is a Go `int`,
an error otherwise. -/
theorem atoi_toDigits (i : Nat) :
    atoi (Nat.toDigits 10 i) = if i < 2 ^ 63 then some (i : Int) else none := by
  unfold atoi
  split_ifs with h
  · have := parseInt_formatInt (i : Int) (by omega) (by exact_mod_cast h)
    simpa [formatInt] using this
  · cases hp : parseInt (Nat.toDigits 10 i) with
    | none => rfl
    | some m =>
      exfalso
      have hr := parseInt_range _ _ hp
      cases hds : Nat.toDigits 10 i with
      | nil => exact toDigits_ne_nil i hds
      | cons c cs =>
        have hc : (digitVal c).isSome := digit_of_mem_toDigits i c (by simp [hds])
        obtain ⟨-, -, hplus, hminus⟩ := toLowerRune_of_digit c hc
        rw [hds] at hp
        unfold parseInt at hp
        simp only [hplus, hminus, or_self, if_false, decide_False] at hp
        cases hu : parseUint (c :: cs) with
        | none => simp [hu] at hp
        | some un =>
          have hv : un = i := by
            unfold parseUint at hu
            have := parseUintLoop_value _ _ _ hu
            rw [← hds, foldl_toDigits] at this
            exact this
          simp only [hu] at hp
          by_cases h1 : un ≥ 2 ^ 63
          · simp at hp
            omega
          · subst hv
            exact h (by omega)

theorem index_append_cons (a : Str) (c : Char) (b : Str) (h : c ∉ a) :
    index (a ++ c :: b) c = (a.length : Int) := by
  unfold index
  rw [if_pos (by simp), List.indexOf_append_of_not_mem h, List.indexOf_cons_self]
  simp

theorem sliceInt_prefix (a b : Str) : sliceInt (a ++ b) 0 (a.length : Int) = .ok a := by
  unfold sliceInt
  rw [if_pos (by simp)]
  simp

theorem sliceInt_middle (a b c : Str) :
    sliceInt (a ++ b ++ c) (a.length : Int) ((a ++ b).length : Int) = .ok b := by
  unfold sliceInt
  rw [if_pos (by simp), Int.toNat_ofNat, Int.toNat_ofNat, List.take_left, List.drop_left]

theorem pathPart_key (n : Node) (name : Str) (h : '[' ∉ name) :
    pathPart n name = .ok (some (n.read name)) := by
  unfold pathPart
  rw [if_neg (by simp [contains_eq_false name '[' h])]

theorem pathPart_indexed (n : Node) (name ds : Str) (h1 : '[' ∉ name) (h2 : ']' ∉ name)
    (h3 : ']' ∉ ds) :
    pathPart n (name ++ '[' :: (ds ++ [']'])) =
      match atoi ds with
      | none => .ok none
      | some idx =>
        match n.read name with
        | .seq list =>
          if idx ≥ list.length then .ok none
          else (elemAt list idx).map some
        | _ => .ok none := by
  have e1 : index (name ++ '[' :: (ds ++ [']'])) '[' = (name.length : Int) :=
    index_append_cons name '[' _ h1
  have e2 : index (name ++ '[' :: (ds ++ [']'])) ']' = (name.length : Int) + 1 + ds.length := by
    have : name ++ '[' :: (ds ++ [']']) = (name ++ '[' :: ds) ++ ']' :: [] := by simp
    rw [this, index_append_cons _ ']' _ (by simp [h2, h3])]
    simp only [List.length_append, List.length_cons]
    push_cast
    ring
  have s1 : sliceInt (name ++ '[' :: (ds ++ [']'])) 0 (name.length : Int) = .ok name :=
    sliceInt_prefix name _
  have s2 : sliceInt (name ++ '[' :: (ds ++ [']'])) ((name.length : Int) + 1)
      ((name.length : Int) + 1 + ds.length) = .ok ds := by
    have := sliceInt_middle (name ++ ['[']) ds [']']
    have hl : name ++ ['['] ++ ds ++ [']'] = name ++ '[' :: (ds ++ [']']) := by simp
    have e : ((name ++ ['[']).length : Int) = (name.length : Int) + 1 := by simp
    have e3 : ((name ++ ['['] ++ ds).length : Int) = (name.length : Int) + 1 + ds.length := by
      simp only [List.length_append, List.length_cons, List.length_nil]
      push_cast
      ring
    rw [hl, e, e3] at this
    exact this
  unfold pathPart
  rw [if_pos (by simp [contains]), e1, e2, s1]
  simp only [s2]


theorem resolve_asNode (v : Value) (seg : Segment) (rest : List Segment) :
    resolve (Value.node (asNode v)) (seg :: rest) = resolve v (seg :: rest) := by
  cases v <;> first | rfl | (cases seg <;> rfl)

theorem not_mem_toDigits (i : Nat) (c : Char) (hc : digitVal c = none) : c ∉ Nat.toDigits 10 i := by
  intro h
  have := digit_of_mem_toDigits i c h
  rw [hc] at this
  exact absurd this (by decide)

theorem pathLoop_nil (n : Node) (v : Value) : pathLoop [] n v = .ok v := rfl

/-- What the loop does after a part has given the value `v`. -/
theorem pathLoop_continue (v : Value) (rest : List Segment)
    (ih : ∀ seg r, rest = seg :: r → ∀ n v0, pathLoop ((seg :: r).map Segment.text) n v0 =
      .ok (if (seg :: r).all Segment.fitsInt then (resolve (Value.node n) (seg :: r)).getD Value.null
        else Value.null)) :
    (if v.isNil then Except.ok Value.null else pathLoop (rest.map Segment.text) (asNode v) v) =
      .ok (if rest.all Segment.fitsInt then
        ((if v.isNil then none else some v).bind fun w => resolve w rest).getD Value.null
        else Value.null) := by
  by_cases hv : v.isNil = true
  · simp [hv]
  · simp only [hv, if_false, Bool.false_eq_true, Option.some_bind]
    cases rest with
    | nil => simp [pathLoop_nil, resolve]
    | cons seg r => rw [ih seg r rfl, resolve_asNode]


theorem pathLoop_step (seg : Segment) (rest : List Segment) (n : Node) (v0 : Value)
    (hwf : seg.wellFormed)
    (ih : ∀ s r, rest = s :: r → ∀ n v0, pathLoop ((s :: r).map Segment.text) n v0 =
      .ok (if (s :: r).all Segment.fitsInt then (resolve (Value.node n) (s :: r)).getD Value.null
        else Value.null)) :
    pathLoop ((seg :: rest).map Segment.text) n v0 =
      .ok (if (seg :: rest).all Segment.fitsInt then
        (resolve (Value.node n) (seg :: rest)).getD Value.null else Value.null) := by
  obtain ⟨-, hb1, hb2⟩ := hwf
  rw [List.map_cons, pathLoop]
  cases seg with
  | key name =>
    simp only [Segment.name] at hb1 hb2
    simp only [Segment.text, pathPart_key n name hb1, pathLoop_continue _ rest ih, List.all_cons,
      Segment.fitsInt, Bool.true_and, resolve, resolveSegment, Node.read]
    cases hg : n.get? name with
    | none => simp [Value.isNil]
    | some v =>
      by_cases hv : v.isNil = true
      · simp [hv]
      · simp [hv]
  | indexed name i =>
    simp only [Segment.name] at hb1 hb2
    have hd : ']' ∉ Nat.toDigits 10 i := not_mem_toDigits i ']' (by decide)
    simp only [Segment.text, pathPart_indexed n name _ hb1 hb2 hd, atoi_toDigits, List.all_cons,
      Segment.fitsInt, resolve, resolveSegment, Node.read]
    by_cases hi : i < 2 ^ 63
    · simp only [hi, if_true, decide_True, Bool.true_and]
      cases hg : n.get? name with
      | none => simp
      | some v =>
        cases v with
        | seq list =>
          simp only [Option.getD_some]
          by_cases hlen : i < list.length
          · have hge : ¬ ((i : Int) ≥ (list.length : Int)) := by omega
            obtain ⟨w, hw⟩ : ∃ w, list.get? i = some w := ⟨list.get ⟨i, hlen⟩, List.get?_eq_get hlen⟩
            have he : elemAt list (i : Int) = .ok w := by
              unfold elemAt
              rw [if_pos (by omega), Int.toNat_ofNat, hw]
            simp only [hge, if_false, he, Except.map, hw]
            have := pathLoop_continue w rest ih
            by_cases hv : w.isNil = true
            · simp [hv]
            · simp only [hv, if_false, Bool.false_eq_true, Option.some_bind] at this ⊢
              exact this
          · have hge : (i : Int) ≥ (list.length : Int) := by omega
            have hn : list[i]? = none := List.getElem?_eq_none (by omega)
            simp [hge, hn]
        | _ => simp
    · have hi1 : ¬ i < 9223372036854775808 := by omega
      simp [hi1]

theorem pathLoop_resolve : ∀ (rest : List Segment) (seg : Segment) (n : Node) (v0 : Value),
    (∀ s ∈ seg :: rest, s.wellFormed) →
    pathLoop ((seg :: rest).map Segment.text) n v0 =
      .ok (if (seg :: rest).all Segment.fitsInt then
        (resolve (Value.node n) (seg :: rest)).getD Value.null else Value.null)
  | [], seg, n, v0, h =>
    pathLoop_step seg [] n v0 (h seg (List.mem_cons_self _ _)) (fun _ _ e => nomatch e)
  | s2 :: r, seg, n, v0, h =>
    pathLoop_step seg (s2 :: r) n v0 (h seg (List.mem_cons_self _ _)) (fun s r1 e testNode v1 => by
      cases e
      exact pathLoop_resolve r s2 testNode v1 (fun x hx => h x (List.mem_cons_of_mem _ hx)))

theorem not_mem_segment_text (s : Segment) (h : s.wellFormed) : '.' ∉ s.text := by
  obtain ⟨h1, -, -⟩ := h
  cases s with
  | key name => simpa [Segment.text, Segment.name] using h1
  | indexed name i =>
    have hd : '.' ∉ Nat.toDigits 10 i := not_mem_toDigits i '.' (by decide)
    simp only [Segment.name] at h1
    simp [Segment.text, h1, hd]

/-- C17: for every Node `n` and every path whose segments, separated by dots,
have the form `name` or `name[i]` with `i` written in decimal and the name free
of `.`, `[` and `]`, `Path` returns the result of the stepwise resolution from
`n`, with `nil` for not-found.  An index of `2^63` or more is no Go `int` and
below the length of no Go slice: `strconv.Atoi` rejects it and `Path` returns
`nil`. -/
theorem Path_resolve (n : Node) (segs : List Segment) (hne : segs ≠ [])
    (hwf : ∀ s ∈ segs, s.wellFormed) :
    Path n (join ['.'] (segs.map Segment.text)) =
      .ok (if segs.all Segment.fitsInt then (resolve (Value.node n) segs).getD Value.null
        else Value.null) := by
  cases segs with
  | nil => exact absurd rfl hne
  | cons seg rest =>
    unfold Path
    rw [List.map_cons, split_join '.' _ _ (by
      intro s hs
      rw [← List.map_cons] at hs
      obtain ⟨x, hx, rfl⟩ := List.mem_map.1 hs
      exact not_mem_segment_text x (hwf x hx)), ← List.map_cons]
    exact pathLoop_resolve rest seg n _ hwf

/-- The path `a[0].b` of the repository's test `nested list` gives the String
`v1`. -/
theorem Path_resolve_witness :
    Path testNode "a[0].b".toList = .ok (Value.str "v1".toList) :=
  (Path_resolve testNode [Segment.indexed "a".toList 0, Segment.key "b".toList] (by simp)
    (by simp [Segment.wellFormed, Segment.name])).trans rfl

/-- C18: `Path` does not return `nil` for every segment with `[` and `]` that
addresses no element.  A negative index passes the test `index >= len(list)`
and `list[index]` faults with index out of range; a `]` placed before the `[`
makes the slice of the index text run backwards and fault with slice bounds
out of range, whatever the Node.  A missing key, a value that is no Sequence, an
index text that is no number and an index not below the length give `nil`. -/
theorem Path_faults_on_negative_index :
    Path testNode "a[-1]".toList = .error Fault.indexOutOfRange ∧
    (∀ n : Node, Path n "a]0[".toList = .error Fault.sliceBoundsOutOfRange) ∧
    Path testNode "c[0]".toList = .ok Value.null ∧
    Path [("a".toList, Value.str "v1".toList)] "a[0]".toList = .ok Value.null ∧
    Path testNode "a[b].b".toList = .ok Value.null ∧
    Path testNode "a[1].b".toList = .ok Value.null :=
  ⟨rfl, fun _ => rfl, rfl, rfl, rfl, rfl⟩

/-! ## Indentation -/

/-- C19: for every text `s`, `getIndent s` is the number of spaces plus eight
times the number of tabs in the longest prefix of `s` made only of spaces and
tabs; what follows the first other character does not count. -/
theorem getIndent_eq_count (s : Str) :
    getIndent s =
      (s.takeWhile fun c => decide (c = ' ' ∨ c = Char.ofNat 9)).count ' ' +
        8 * (s.takeWhile fun c => decide (c = ' ' ∨ c = Char.ofNat 9)).count (Char.ofNat 9) := by
  induction s with
  | nil => rfl
  | cons c cs ih =>
    unfold getIndent
    by_cases h1 : c = ' '
    · subst h1
      rw [if_pos rfl, List.takeWhile_cons_of_pos (by decide), List.count_cons_self,
        List.count_cons_of_ne (by decide), ih]
      omega
    · rw [if_neg h1]
      by_cases h2 : c = Char.ofNat 9
      · subst h2
        rw [if_pos rfl, List.takeWhile_cons_of_pos (by decide), List.count_cons_self,
          List.count_cons_of_ne (by decide), ih]
        omega
      · rw [if_neg h2, List.takeWhile_cons_of_neg (by simp [h1, h2])]
        rfl

/-! ## Multiline blocks -/

theorem takeWhile_eq_self {α : Type} (p : α → Bool) (l : List α) (h : ∀ x ∈ l, p x = true) :
    l.takeWhile p = l := by
  induction l with
  | nil => rfl
  | cons a l ih =>
    rw [List.takeWhile_cons_of_pos (h a (List.mem_cons_self _ _)),
      ih (fun x hx => h x (List.mem_cons_of_mem _ hx))]

/-- The step of `parseYAMLLines` at a key line with a block indicator `v` (a
text that starts with `|` or `>`), when each line after it is indented at least
as far as the first of them: the block takes every line. -/
theorem parseLinesAux_block (fuel : Nat) (first : Bool) (k v : Str) (l0 : Str) (tl : List Str)
    (node : Node) (hk : ':' ∉ k) (hc : hasPrefix (trimSpace k) '#' = false)
    (hv : hasPrefix (trimSpace v) '|' = true ∨ hasPrefix (trimSpace v) '>' = true)
    (hind : ∀ l ∈ tl, getIndent l0 ≤ getIndent l) :
    parseLinesAux (fuel + 1) first ((k ++ ": ".toList ++ v) :: l0 :: tl) node =
      .ok (node.set (trimSpace k) (Value.str (blockText (hasPrefix (trimSpace v) '>')
        ((l0 :: tl).map (blockLine (hasPrefix (trimSpace v) '>')))))) := by
  obtain ⟨h1, h2, h3, a, b, hab, ha, hb⟩ := entry_line k v hk hc
  have hne : trimSpace v ≠ [] := by
    intro h
    rw [h] at hv
    simp [hasPrefix] at hv
  have htw : (l0 :: tl).takeWhile (fun l => decide (¬ getIndent l < getIndent l0)) = l0 :: tl := by
    apply takeWhile_eq_self
    intro x hx
    rcases List.mem_cons.1 hx with rfl | hx
    · simp
    · have := hind x hx
      simp only [decide_eq_true_eq]
      omega
  rw [parseLinesAux]
  simp only [h1, h2, h3, or_self, if_false, hab, ha, hb, hne, false_and, hv, if_true, htw,
    List.drop_length, parseLinesAux_nil]

theorem join_append (sep : Str) : ∀ (A B : List Str), A ≠ [] → B ≠ [] →
    join sep (A ++ B) = join sep A ++ sep ++ join sep B
  | [], _, h, _ => absurd rfl h
  | [a], b :: B, _, _ => by simp [join]
  | [a], [], _, h => absurd rfl h
  | a :: a2 :: A, B, _, hB => by
    have ih := join_append sep (a2 :: A) B (by simp) hB
    rw [List.cons_append, List.cons_append, join, ← List.cons_append, ih, join]
    simp

theorem foldBreaks_of_not_mem : ∀ X : Str, nl ∉ X → foldBreaks X = X
  | [], _ => rfl
  | [c], _ => rfl
  | [c, d], _ => rfl
  | c :: d :: e :: rest, h => by
    have hd : d ≠ nl := fun e1 => h (by simp [e1])
    have ih := foldBreaks_of_not_mem (d :: e :: rest) (fun hm => h (List.mem_cons_of_mem _ hm))
    rw [foldBreaks, if_neg (fun hh => hd hh.2.1), ih]

theorem foldBreaks_append (Y : Str) : ∀ X : Str, nl ∉ X →
    foldBreaks (X ++ ' ' :: nl :: ' ' :: Y) = X ++ nl :: foldBreaks Y
  | [], _ => by
    rw [List.nil_append, foldBreaks, if_pos ⟨rfl, rfl, rfl⟩]
    rfl
  | [c], h => by
    have := foldBreaks_append Y [] (by simp)
    rw [List.nil_append] at this
    rw [List.singleton_append, foldBreaks, if_neg (fun hh => absurd hh.2.1 (by decide)), this]
    rfl
  | c :: d :: X, h => by
    have hd : d ≠ nl := fun e1 => h (by simp [e1])
    have ih := foldBreaks_append Y (d :: X) (fun hm => h (List.mem_cons_of_mem _ hm))
    cases X with
    | nil =>
      rw [List.cons_append, List.cons_append, List.nil_append] at ih ⊢
      rw [foldBreaks, if_neg (fun hh => hd hh.2.1), ih]
      rfl
    | cons e X =>
      rw [List.cons_append, List.cons_append, List.cons_append] at ih ⊢
      rw [foldBreaks, if_neg (fun hh => hd hh.2.1), ih]
      rfl

theorem not_mem_join (c : Char) (sep : Str) (hsep : c ∉ sep) : ∀ L : List Str,
    (∀ s ∈ L, c ∉ s) → c ∉ join sep L
  | [], _ => by simp [join]
  | [a], h => by simpa [join] using h
  | a :: b :: L, h => by
    have ih := not_mem_join c sep hsep (b :: L) (fun s hs => h s (List.mem_cons_of_mem _ hs))
    have ha := h a (List.mem_cons_self _ _)
    rw [join]
    simp only [List.mem_append, not_or]
    exact ⟨⟨ha, hsep⟩, ih⟩

theorem not_mem_trimSpace (c : Char) (l : Str) (h : c ∉ l) : c ∉ trimSpace l := by
  intro hm
  apply h
  unfold trimSpace at hm
  exact (List.dropWhile_suffix isSpace).subset ((List.rdropWhile_prefix isSpace _).subset hm)


theorem blockLine_literal (raw : Str) : blockLine false raw = trimSpace raw := by
  unfold blockLine
  by_cases h : trimSpace raw = []
  · rw [if_pos h, h]
    rfl
  · rw [if_neg h]

theorem not_mem_paragraphText (p : List Str) (h : ∀ l ∈ p, nl ∉ l) : nl ∉ paragraphText p := by
  apply not_mem_join nl [' '] (by decide)
  intro s hs
  obtain ⟨l, hl, rfl⟩ := List.mem_map.1 hs
  exact not_mem_trimSpace nl l (h l hl)

theorem map_blockLine_paragraph (p : List Str) (h : ∀ l ∈ p, trimSpace l ≠ []) :
    p.map (blockLine true) = p.map trimSpace := by
  apply List.map_congr_left
  intro l hl
  unfold blockLine
  rw [if_neg (h l hl)]

/-- The text of a folded block whose paragraphs are separated by one blank line
each: the paragraphs joined by a newline. -/
theorem blockText_folded : ∀ (rest : List (Str × List Str)) (p0 : List Str),
    (∀ p ∈ p0 :: rest.map Prod.snd, p ≠ [] ∧ ∀ l ∈ p, trimSpace l ≠ [] ∧ nl ∉ l) →
    (∀ sp ∈ rest, trimSpace sp.1 = []) →
    blockText true ((foldedContent p0 rest).map (blockLine true)) =
      join [nl] ((p0 :: rest.map Prod.snd).map paragraphText)
  | [], p0, hp, _ => by
    have h0 := hp p0 (List.mem_cons_self _ _)
    simp only [foldedContent, List.map_nil, List.flatten_nil, List.append_nil, blockText, if_true,
      List.map_cons, join]
    rw [map_blockLine_paragraph p0 (fun l hl => (h0.2 l hl).1)]
    exact foldBreaks_of_not_mem _ (not_mem_paragraphText p0 (fun l hl => (h0.2 l hl).2))
  | sp :: rest, p0, hp, hs => by
    have h0 := hp p0 (List.mem_cons_self _ _)
    have h1 := hp sp.2 (by simp)
    have ih := blockText_folded rest sp.2
      (fun p hpm => hp p (by
        rcases List.mem_cons.1 hpm with rfl | hpm
        · simp
        · simp only [List.map_cons, List.mem_cons]
          exact Or.inr (Or.inr hpm)))
      (fun x hx => hs x (List.mem_cons_of_mem _ hx))
    have hsep : blockLine true sp.1 = [nl] := by
      unfold blockLine
      rw [if_pos (hs sp (List.mem_cons_self _ _))]
      rfl
    have hshape : (foldedContent p0 (sp :: rest)).map (blockLine true) =
        p0.map trimSpace ++ ([nl] :: (foldedContent sp.2 rest).map (blockLine true)) := by
      simp only [foldedContent, List.map_cons, List.flatten_cons, List.map_append, hsep,
        List.cons_append]
      rw [map_blockLine_paragraph p0 (fun l hl => (h0.2 l hl).1)]
    have hne0 : p0.map trimSpace ≠ [] := by simpa using h0.1
    have hne1 : (foldedContent sp.2 rest).map (blockLine true) ≠ [] := by
      simp [foldedContent, h1.1]
    simp only [blockText, if_true] at ih ⊢
    rw [hshape, join_append [' '] _ _ hne0 (by simp)]
    obtain ⟨c, C, hC⟩ := List.exists_cons_of_ne_nil hne1
    rw [hC] at ih ⊢
    rw [join]
    simp only [List.append_assoc, List.singleton_append, List.cons_append, List.nil_append]
    have := foldBreaks_append (join [' '] (c :: C)) (join [' '] (p0.map trimSpace))
      (not_mem_paragraphText p0 (fun l hl => (h0.2 l hl).2))
    rw [this, ih]
    simp [join, paragraphText]


/-- The document that is a key line with the block indicator `|` or `>` and
content lines each indented at least as far as the first: the key holds the
text of the block over all content lines. -/
theorem ParseYAML_block (k ind : Str) (content : List Str) (hk : blockKey k)
    (hi : ind = "|".toList ∨ ind = ">".toList) (hne : content ≠ [])
    (hc : ∀ l ∈ content, nl ∉ l ∧ getIndent (content.headD []) ≤ getIndent l) :
    ParseYAML (join [nl] ((k ++ ": ".toList ++ ind) :: content)) =
      .ok [(trimSpace k, Value.str (blockText (hasPrefix ind '>')
        (content.map (blockLine (hasPrefix ind '>')))))] := by
  obtain ⟨hk1, hk2, hk3⟩ := hk
  have hnl : nl ∉ ind := by
    rcases hi with rfl | rfl <;> decide
  have ht : trimSpace ind = ind := by
    rcases hi with rfl | rfl <;> decide
  have hp : hasPrefix (trimSpace ind) '|' = true ∨ hasPrefix (trimSpace ind) '>' = true := by
    rcases hi with rfl | rfl
    · exact Or.inl (by decide)
    · exact Or.inr (by decide)
  have hs : split nl (join [nl] ((k ++ ": ".toList ++ ind) :: content)) =
      (k ++ ": ".toList ++ ind) :: content := by
    apply split_join
    intro s hs
    rcases List.mem_cons.1 hs with rfl | hs
    · simp only [List.mem_append, not_or]
      exact ⟨⟨hk2, by decide⟩, hnl⟩
    · exact (hc s hs).1
  obtain ⟨l0, tl, rfl⟩ := List.exists_cons_of_ne_nil hne
  rw [ParseYAML, hs, parseYAMLLines]
  simp only [List.length_cons]
  rw [parseLinesAux_block _ true k ind l0 tl [] hk1 hk3 hp
    (fun l hl => (hc l (List.mem_cons_of_mem _ hl)).2), ht]
  rfl

/-- C13: `ParseYAML` does not keep every internal blank line of a literal block.
The loop of the block tests the indentation of a line before it tests whether
the line is blank, so an empty line, or a blank line indented less than the
first content line, ends the block: the content lines after it are not in the
value.  When every content line, blank ones included, is indented at least as
far as the first, the value is the trimmed content lines joined by a newline,
each blank line an empty line. -/
theorem ParseYAML_literal_block_ends_at_empty_line :
    (∀ (k : Str) (content : List Str), blockKey k → content ≠ [] →
      (∀ l ∈ content, nl ∉ l ∧ getIndent (content.headD []) ≤ getIndent l) →
      ParseYAML (join [nl] ((k ++ ": |".toList) :: content)) =
        .ok [(trimSpace k, Value.str (join [nl] (content.map trimSpace)))]) ∧
    ParseYAML "a: |\n  line1\n\n  line2".toList = .ok [("a".toList, Value.str "line1".toList)] ∧
    ParseYAML "a: |\n  line1\n \n  line2".toList = .ok [("a".toList, Value.str "line1".toList)] ∧
    ParseYAML "a: |\n  line1\n  \n  line2".toList =
      .ok [("a".toList, Value.str "line1\n\nline2".toList)] := by
  refine ⟨fun k content hk hne hc => ?_, rfl, rfl, rfl⟩
  have e : k ++ ": |".toList = k ++ ": ".toList ++ "|".toList := by simp
  rw [e, ParseYAML_block k "|".toList content hk (Or.inl rfl) hne hc]
  have hf : hasPrefix "|".toList '>' = false := by decide
  simp only [hf, blockText, Bool.false_eq_true, if_false]
  rw [List.map_congr_left (fun l _ => blockLine_literal l)]

/-! ## Dividers -/

/-- The flag `first` of the loop is read only at a divider line. -/
theorem parseLinesAux_first (fuel : Nat) (first : Bool) (lines : List Str) (node : Node)
    (h : trimSpace (lines.headD []) ≠ "---".toList) :
    parseLinesAux fuel first lines node = parseLinesAux fuel false lines node := by
  cases lines with
  | nil => rw [parseLinesAux_nil, parseLinesAux_nil]
  | cons raw tl =>
    cases fuel with
    | zero => rfl
    | succ fuel =>
      simp only [List.headD_cons] at h
      rw [parseLinesAux, parseLinesAux]
      simp only [if_neg h]

theorem parseLinesAux_divider (fuel : Nat) (tl : List Str) (node : Node) :
    parseLinesAux (fuel + 1) true ("---".toList :: tl) node = parseLinesAux fuel false tl node := by
  have e : trimSpace "---".toList = "---".toList := by decide
  rw [parseLinesAux]
  simp only [e]
  simp

/-- C16: for every text `A` whose first line is not a divider (its trimmed text
is not `---`), `ParseYAML` of `---`, a line break and `A` is `ParseYAML` of `A`:
a divider on the very first line of the input is ignored. -/
theorem ParseYAML_leading_divider (A : Str)
    (h : trimSpace ((split nl A).headD []) ≠ "---".toList) :
    ParseYAML ("---".toList ++ nl :: A) = ParseYAML A := by
  unfold ParseYAML parseYAMLLines
  rw [split_append_sep nl A "---".toList (by decide), List.length_cons, parseLinesAux_divider,
    parseLinesAux_first _ true _ _ h]

/-- The input of the repository's test `divider` without its first line. -/
theorem ParseYAML_leading_divider_witness :
    ParseYAML "---\na: v1\n---\nb: v2".toList = ParseYAML "a: v1\n---\nb: v2".toList ∧
    ParseYAML "---\na: v1\n---\nb: v2".toList = .ok [("a".toList, Value.str "v1".toList)] :=
  ⟨ParseYAML_leading_divider "a: v1\n---\nb: v2".toList (by decide), rfl⟩

/-! ## Dividers and nested blocks in a document -/

theorem split_append (sep : Char) (Y : Str) : ∀ X : Str,
    split sep (X ++ sep :: Y) = split sep X ++ split sep Y
  | [] => by simp [split]
  | c :: X => by
    have ih := split_append sep Y X
    rw [List.cons_append, split, split, ih]
    by_cases h : c = sep
    · simp [h]
    · simp only [if_neg h]
      cases hs : split sep X with
      | nil => exact absurd hs (split_ne_nil sep X)
      | cons p ps => rfl

theorem text_ne_divider (d : DocLine) (h : d.wellFormed) : trimSpace d.text ≠ "---".toList := by
  cases d with
  | entry k v =>
    obtain ⟨hk, _, _, hc, _⟩ := h
    exact (entry_line k v hk hc).2.2.1
  | filler t =>
    rcases h.2 with h1 | h1
    · rw [DocLine.text, h1]
      decide
    · intro e
      simp only [DocLine.text] at e
      rw [e] at h1
      revert h1
      decide

/-- A flat document followed by a divider line: the loop stops at the divider,
whatever comes after it. -/
theorem parseLinesAux_doc_divider (more : List Str) :
    ∀ (doc : List DocLine) (fuel : Nat) (node : Node),
    (∀ d ∈ doc, d.wellFormed) → doc.length < fuel →
    parseLinesAux fuel false (doc.map DocLine.text ++ "---".toList :: more) node =
      Except.map (fun kvs => kvs.foldl (fun n kv => Node.set n kv.1 kv.2) node)
        ((docEntries doc).mapM classifyPair)
  | [], 0, _, _, hf => by simp at hf
  | [], fuel + 1, node, _, _ => by
    have e : trimSpace "---".toList = "---".toList := by decide
    rw [List.map_nil, List.nil_append, parseLinesAux, docEntries, List.mapM_nil]
    simp only [e]
    simp [Except.map, pure, Except.pure]
  | .filler t :: rest, 0, _, _, hf => by simp at hf
  | .entry k v :: rest, 0, _, _, hf => by simp at hf
  | .filler t :: rest, fuel + 1, node, hwf, hf => by
    have ht := hwf (.filler t) (List.mem_cons_self _ _)
    rw [List.map_cons, DocLine.text, List.cons_append, parseLinesAux_filler _ _ _ _ _ ht.2,
      docEntries]
    exact parseLinesAux_doc_divider more rest fuel node
      (fun d hd => hwf d (List.mem_cons_of_mem _ hd)) (by simpa using hf)
  | .entry k v :: rest, fuel + 1, node, hwf, hf => by
    obtain ⟨hk, _, _, hc, hv, hb1, hb2⟩ := hwf (.entry k v) (List.mem_cons_self _ _)
    rw [List.map_cons, DocLine.text, List.cons_append,
      parseLinesAux_entry _ _ _ _ _ _ hk hc hv hb1 hb2, docEntries, List.mapM_cons]
    unfold classifyPair
    cases hp : parseValue (trimSpace v) with
    | error e => simp [Except.map, bind, Except.bind]
    | ok val =>
      simp only []
      rw [parseLinesAux_doc_divider more rest fuel _
        (fun d hd => hwf d (List.mem_cons_of_mem _ hd)) (by simpa using hf)]
      unfold classifyPair
      generalize (List.mapM (fun kv : Str × Str =>
        Except.map (fun w => (trimSpace kv.1, w)) (parseValue (trimSpace kv.2))) (docEntries rest)) = r
      cases r <;> simp [Except.map, bind, Except.bind, pure, Except.pure]

/-- After a flat document a divider ends the parse: what follows it does not
change the result. -/
theorem ParseYAML_doc_divider (doc : List DocLine) (B : Str) (hne : doc ≠ [])
    (hwf : ∀ d ∈ doc, d.wellFormed) :
    ParseYAML (join [nl] (doc.map DocLine.text) ++ "\n---\n".toList ++ B) =
      ParseYAML (join [nl] (doc.map DocLine.text)) := by
  obtain ⟨d, rest, rfl⟩ := List.exists_cons_of_ne_nil hne
  have hs : split nl (join [nl] ((d :: rest).map DocLine.text)) = (d :: rest).map DocLine.text := by
    rw [List.map_cons]
    apply split_join
    intro s hs
    rw [← List.map_cons] at hs
    obtain ⟨x, hx, rfl⟩ := List.mem_map.1 hs
    exact not_mem_text x (hwf x hx)
  have e : join [nl] ((d :: rest).map DocLine.text) ++ "\n---\n".toList ++ B =
      join [nl] ((d :: rest).map DocLine.text) ++ nl :: ("---".toList ++ nl :: B) := by
    simp [nl]
  rw [(ParseYAML_flat_document (d :: rest) hwf).1, ParseYAML, e, split_append, hs,
    split_append_sep nl B "---".toList (by decide), parseYAMLLines,
    parseLinesAux_first _ true _ _ (by
      simpa using text_ne_divider d (hwf d (List.mem_cons_self _ _))),
    parseLinesAux_doc_divider _ (d :: rest) _ [] hwf (by simp)]
  rfl


/-- C15: a divider after the first line does not always end the document.
`isList` takes the line `---` for a list item, because it starts with `-`:
after a key with an empty value, or inside a block sequence, the divider
becomes the String `--` of the Sequence and the lines after it are parsed too.
After a block indicator whose content is not indented the divider is taken
into the block.  After a flat document of `key: value` lines the divider does
end the parse, whatever follows it. -/
theorem ParseYAML_divider_read_as_list_item :
    (∀ (doc : List DocLine) (B : Str), doc ≠ [] → (∀ d ∈ doc, d.wellFormed) →
      ParseYAML (join [nl] (doc.map DocLine.text) ++ "\n---\n".toList ++ B) =
        ParseYAML (join [nl] (doc.map DocLine.text))) ∧
    ParseYAML ("a:\n- 1".toList ++ "\n---\n".toList ++ "b: 2".toList) =
      .ok [("a".toList, Value.seq [Value.int 1, Value.str "--".toList]),
        ("b".toList, Value.int 2)] ∧
    ParseYAML "a:\n- 1".toList = .ok [("a".toList, Value.seq [Value.int 1])] ∧
    ParseYAML ("k:".toList ++ "\n---\n".toList ++ "".toList) =
      .ok [("k".toList, Value.seq [Value.str "--".toList])] ∧
    ParseYAML "k:".toList = .ok [("k".toList, Value.null)] ∧
    ParseYAML ("k: |\nx".toList ++ "\n---\n".toList ++ "b: 2".toList) =
      .ok [("k".toList, Value.str "x\n---\nb: 2".toList)] ∧
    ParseYAML "k: |\nx".toList = .ok [("k".toList, Value.str "x".toList)] :=
  ⟨fun doc B hne hwf => ParseYAML_doc_divider doc B hne hwf, rfl, rfl, rfl, rfl, rfl, rfl⟩

/-- C11: the nested Node under a key with an empty value is not parsed only
from lines that are more indented than the key line.  `getIndentedBlock` takes
the indentation of the line after the key line as the threshold and never
compares it with the indentation of the key line: after `a:` the line `b: 1`
at the same indentation, and every line after it that is indented as far,
goes into the Node under `a`, and `b` is no key of the outer Node.  A line that
is more indented than the key line is nested, and a later line at the
indentation of the key line is then a sibling. -/
theorem ParseYAML_nests_line_at_key_indentation :
    ParseYAML "a:\nb: 1".toList =
      .ok [("a".toList, Value.node [("b".toList, Value.int 1)])] ∧
    ParseYAML "a:\nb: 1\nc: 2".toList =
      .ok [("a".toList, Value.node [("b".toList, Value.int 1), ("c".toList, Value.int 2)])] ∧
    ParseYAML "  a:\nb: 1".toList =
      .ok [("a".toList, Value.node [("b".toList, Value.int 1)])] ∧
    ParseYAML "a:\n  b: 1\nc: 2".toList =
      .ok [("a".toList, Value.node [("b".toList, Value.int 1)]), ("c".toList, Value.int 2)] :=
  ⟨rfl, rfl, rfl, rfl⟩

/-! ## Tabs and spaces in the indentation -/

theorem indentEquiv_refl (l : Str) : IndentEquiv l l :=
  ⟨[], [], l, rfl, rfl, by simp, by simp, fun _ => rfl⟩

theorem dropWhile_append_of_all (p : Char → Bool) (s : Str) :
    ∀ ws : Str, (∀ c ∈ ws, p c = true) → List.dropWhile p (ws ++ s) = List.dropWhile p s
  | [], _ => rfl
  | c :: ws, h => by
    rw [List.cons_append, List.dropWhile_cons_of_pos (h c (List.mem_cons_self _ _))]
    exact dropWhile_append_of_all p s ws (fun x hx => h x (List.mem_cons_of_mem _ hx))

theorem trimSpace_append_of_all (ws s : Str) (h : ∀ c ∈ ws, isSpace c = true) :
    trimSpace (ws ++ s) = trimSpace s := by
  unfold trimSpace
  rw [dropWhile_append_of_all isSpace s ws h]

theorem replaceFirst_append_of_not_mem (old new : Char) (s : Str) :
    ∀ ws : Str, old ∉ ws → replaceFirst old new (ws ++ s) = ws ++ replaceFirst old new s
  | [], _ => rfl
  | c :: ws, h => by
    have hc : c ≠ old := fun e => h (e ▸ List.mem_cons_self _ _)
    rw [List.cons_append, replaceFirst, if_neg hc,
      replaceFirst_append_of_not_mem old new s ws (fun hm => h (List.mem_cons_of_mem _ hm))]
    rfl

theorem indentEquiv_getIndent {l l1 : Str} (h : IndentEquiv l l1) : getIndent l = getIndent l1 := by
  obtain ⟨ws, ws1, body, rfl, rfl, -, -, hx⟩ := h
  exact hx body

theorem indentEquiv_trimSpace {l l1 : Str} (h : IndentEquiv l l1) : trimSpace l = trimSpace l1 := by
  obtain ⟨ws, ws1, body, rfl, rfl, h1, h2, -⟩ := h
  rw [trimSpace_append_of_all ws body h1, trimSpace_append_of_all ws1 body h2]

theorem not_mem_of_all_isSpace (ws : Str) (h : ∀ c ∈ ws, isSpace c = true) : '-' ∉ ws := by
  intro hm
  have := h '-' hm
  revert this
  decide

theorem indentEquiv_replaceFirst {l l1 : Str} (h : IndentEquiv l l1) :
    IndentEquiv (replaceFirst '-' ' ' l) (replaceFirst '-' ' ' l1) := by
  obtain ⟨ws, ws1, body, rfl, rfl, h1, h2, hx⟩ := h
  refine ⟨ws, ws1, replaceFirst '-' ' ' body, ?_, ?_, h1, h2, hx⟩
  · exact replaceFirst_append_of_not_mem _ _ _ ws (not_mem_of_all_isSpace ws h1)
  · exact replaceFirst_append_of_not_mem _ _ _ ws1 (not_mem_of_all_isSpace ws1 h2)

theorem getIndent_tab (x : Str) : ∀ a : Str,
    getIndent ((a ++ [Char.ofNat 9]) ++ x) = getIndent ((a ++ List.replicate 8 ' ') ++ x)
  | [] => by
    simp only [List.nil_append, List.singleton_append, List.replicate, List.cons_append, getIndent]
    simp
  | c :: a => by
    have ih := getIndent_tab x a
    simp only [List.cons_append] at ih ⊢
    rw [getIndent, getIndent, ih]

/-- A tab in the leading white space of a line and eight spaces in its place
give equivalent lines. -/
theorem indentEquiv_tab (a rest : Str) (ha : ∀ c ∈ a, isSpace c = true) :
    IndentEquiv (a ++ Char.ofNat 9 :: rest) (a ++ List.replicate 8 ' ' ++ rest) := by
  refine ⟨a ++ [Char.ofNat 9], a ++ List.replicate 8 ' ', rest, by simp, rfl, ?_, ?_,
    fun x => getIndent_tab x a⟩
  · intro c hc
    rcases List.mem_append.1 hc with hc | hc
    · exact ha c hc
    · rw [List.mem_singleton.1 hc]
      decide
  · intro c hc
    rcases List.mem_append.1 hc with hc | hc
    · exact ha c hc
    · rw [List.eq_of_mem_replicate hc]
      decide

theorem forall₂_takeWhile {R : Str → Str → Prop} (p p1 : Str → Bool)
    (hp : ∀ x x1, R x x1 → p x = p1 x1) :
    ∀ (xs xs1 : List Str), List.Forall₂ R xs xs1 →
      List.Forall₂ R (xs.takeWhile p) (xs1.takeWhile p1)
  | _, _, .nil => by simp
  | a :: l, b :: l1, .cons hab hl => by
    have ih := forall₂_takeWhile p p1 hp l l1 hl
    have e := hp a b hab
    by_cases h : p a = true
    · rw [List.takeWhile_cons_of_pos h, List.takeWhile_cons_of_pos (e ▸ h)]
      exact List.Forall₂.cons hab ih
    · rw [List.takeWhile_cons_of_neg h, List.takeWhile_cons_of_neg (e ▸ h)]
      exact List.Forall₂.nil


theorem getIndentedBlock_equiv (parse : List Str → Except Fault Node)
    (hP : ∀ b b1, List.Forall₂ IndentEquiv b b1 → parse b = parse b1) :
    ∀ (lines lines1 : List Str), List.Forall₂ IndentEquiv lines lines1 →
      getIndentedBlock parse lines = getIndentedBlock parse lines1
  | _, _, .nil => rfl
  | l0 :: tl, l1 :: tl1, .cons h0 htl => by
    have hb : List.Forall₂ IndentEquiv
        ((l0 :: tl).takeWhile fun l => decide (¬ getIndent l < getIndent l0))
        ((l1 :: tl1).takeWhile fun l => decide (¬ getIndent l < getIndent l1)) := by
      apply forall₂_takeWhile _ _ _ _ _ (List.Forall₂.cons h0 htl)
      intro x x1 hx
      rw [indentEquiv_getIndent hx, indentEquiv_getIndent h0]
    rw [getIndentedBlock, getIndentedBlock]
    simp only [hP _ _ hb, hb.length_eq]

/-- The list loop on equivalent lines: the same fault, or the same list and
equivalent lines left. -/
theorem listLoop_equiv (parse : List Str → Except Fault Node) (pv : Str → Except Fault Value)
    (hP : ∀ b b1, List.Forall₂ IndentEquiv b b1 → parse b = parse b1) :
    ∀ (fuel : Nat) (lines lines1 : List Str) (acc : List Value),
      List.Forall₂ IndentEquiv lines lines1 →
      (∃ e, listLoop parse pv fuel lines acc = .error e ∧
        listLoop parse pv fuel lines1 acc = .error e) ∨
      (∃ list rest rest1, listLoop parse pv fuel lines acc = .ok (list, rest) ∧
        listLoop parse pv fuel lines1 acc = .ok (list, rest1) ∧
        List.Forall₂ IndentEquiv rest rest1)
  | fuel, _, _, acc, .nil => by
    right
    exact ⟨acc, [], [], listLoop_nil _ _ _ _, listLoop_nil _ _ _ _, List.Forall₂.nil⟩
  | 0, _, _, acc, .cons _ _ => by
    left
    exact ⟨Fault.outOfFuel, rfl, rfl⟩
  | fuel + 1, raw :: tl, raw1 :: tl1, acc, .cons h0 htl => by
    have ht := indentEquiv_trimSpace h0
    rw [listLoop, listLoop, ← ht]
    by_cases h1 : isList (trimSpace raw) = true
    · simp only [h1, if_true]
      by_cases h2 : contains (trimSpace raw) ':' = true
      · simp only [h2, if_true]
        have hg := getIndentedBlock_equiv parse hP _ _
          (List.Forall₂.cons (indentEquiv_replaceFirst h0) htl)
        rw [← hg]
        cases hgb : getIndentedBlock parse (replaceFirst '-' ' ' raw :: tl) with
        | error e => exact Or.inl ⟨e, rfl, rfl⟩
        | ok r =>
          obtain ⟨item, childLines⟩ := r
          exact listLoop_equiv parse pv hP fuel _ _ _
            (List.forall₂_drop childLines (List.Forall₂.cons h0 htl))
      · simp only [h2, if_false, Bool.false_eq_true]
        cases hpv : pv (trimSpace (trimPrefix (trimSpace raw) '-')) with
        | error e => exact Or.inl ⟨e, rfl, rfl⟩
        | ok item => exact listLoop_equiv parse pv hP fuel _ _ _ htl
    · simp only [h1, if_false, Bool.false_eq_true]
      by_cases h3 : trimSpace raw = []
      · simp only [h3, if_true]
        exact Or.inr ⟨acc, tl, tl1, rfl, rfl, htl⟩
      · simp only [h3, if_false]
        exact Or.inr ⟨acc, raw :: tl, raw1 :: tl1, rfl, rfl, List.Forall₂.cons h0 htl⟩


theorem map_blockLine_equiv (folded : Bool) : ∀ (xs xs1 : List Str),
    List.Forall₂ IndentEquiv xs xs1 → xs.map (blockLine folded) = xs1.map (blockLine folded)
  | _, _, .nil => rfl
  | a :: l, b :: l1, .cons hab hl => by
    rw [List.map_cons, List.map_cons, map_blockLine_equiv folded l l1 hl]
    unfold blockLine
    rw [indentEquiv_trimSpace hab]

/-- The loop of `parseYAMLLines` gives the same result on equivalent lines. -/
theorem parseLinesAux_equiv : ∀ (fuel : Nat) (first : Bool) (lines lines1 : List Str)
    (node : Node), List.Forall₂ IndentEquiv lines lines1 →
    parseLinesAux fuel first lines node = parseLinesAux fuel first lines1 node
  | fuel, first, _, _, node, .nil => rfl
  | 0, first, _, _, node, .cons _ _ => rfl
  | fuel + 1, first, raw :: tl, raw1 :: tl1, node, .cons h0 htl => by
    have ih := parseLinesAux_equiv fuel
    have hP : ∀ b b1, List.Forall₂ IndentEquiv b b1 →
        (fun b => parseLinesAux fuel true b []) b = (fun b => parseLinesAux fuel true b []) b1 :=
      fun b b1 h => ih true b b1 [] h
    have ht := indentEquiv_trimSpace h0
    have hnil : tl = [] ↔ tl1 = [] := by
      cases htl <;> simp
    have hhead : isList (tl.headD []) = isList (tl1.headD []) := by
      cases htl with
      | nil => rfl
      | cons hab _ =>
        simp only [List.headD_cons, isList]
        rw [indentEquiv_trimSpace hab]
    rw [parseLinesAux, parseLinesAux, ← ht]
    by_cases c1 : trimSpace raw = [] ∨ (trimSpace raw).head? = some '#'
    · rw [if_pos c1, if_pos c1]
      exact ih false tl tl1 node htl
    rw [if_neg c1, if_neg c1]
    by_cases c2 : trimSpace raw = "---".toList
    · rw [if_pos c2, if_pos c2]
      cases first
      · rfl
      · simpa using ih false tl tl1 node htl
    rw [if_neg c2, if_neg c2]
    split
    · next k v hkv =>
      simp only []
      by_cases c4 : trimSpace v = [] ∧ tl ≠ []
      · have c4' : trimSpace v = [] ∧ tl1 ≠ [] := ⟨c4.1, fun h => c4.2 (hnil.2 h)⟩
        rw [if_pos c4, if_pos c4', ← hhead]
        by_cases c5 : isList (tl.headD []) = true
        · rw [if_pos c5, if_pos c5]
          rcases listLoop_equiv _ parseValue hP fuel tl tl1 [] htl with
            ⟨e, h1, h2⟩ | ⟨list, rest, rest1, h1, h2, hr⟩
          · rw [h1, h2]
          · rw [h1, h2]
            exact ih false rest rest1 _ hr
        · rw [if_neg c5, if_neg c5, ← getIndentedBlock_equiv _ hP tl tl1 htl]
          cases hg : getIndentedBlock (fun b => parseLinesAux fuel true b []) tl with
          | error e => rfl
          | ok r =>
            obtain ⟨childNode, childLines⟩ := r
            exact ih false _ _ _ (List.forall₂_drop childLines htl)
      · have c4' : ¬ (trimSpace v = [] ∧ tl1 ≠ []) := fun h => c4 ⟨h.1, fun h2 => h.2 (hnil.1 h2)⟩
        rw [if_neg c4, if_neg c4']
        by_cases c6 : hasPrefix (trimSpace v) '|' = true ∨ hasPrefix (trimSpace v) '>' = true
        · rw [if_pos c6, if_pos c6]
          cases htl with
          | nil => rfl
          | cons hab hrest =>
            rename_i l0 l1 r r1
            have hb : List.Forall₂ IndentEquiv
                ((l0 :: r).takeWhile fun l => decide (¬ getIndent l < getIndent l0))
                ((l1 :: r1).takeWhile fun l => decide (¬ getIndent l < getIndent l1)) := by
              apply forall₂_takeWhile _ _ _ _ _ (List.Forall₂.cons hab hrest)
              intro x x1 hx
              rw [indentEquiv_getIndent hx, indentEquiv_getIndent hab]
            simp only []
            rw [map_blockLine_equiv _ _ _ hb, hb.length_eq]
            exact ih false _ _ _ (List.forall₂_drop _ (List.Forall₂.cons hab hrest))
        · rw [if_neg c6, if_neg c6]
          cases hpv : parseValue (trimSpace v) with
          | error e => rfl
          | ok val => exact ih false tl tl1 _ htl
    · exact ih false tl tl1 node htl


theorem split_prefix_line (sep : Char) (x : Str) : ∀ w : Str, sep ∉ w →
    split sep (w ++ x) = (w ++ (split sep x).headD []) :: (split sep x).tail
  | [], _ => by
    cases hs : split sep x with
    | nil => exact absurd hs (split_ne_nil sep x)
    | cons p ps => simp [hs]
  | c :: w, h => by
    have hc : c ≠ sep := fun e => h (e ▸ List.mem_cons_self _ _)
    have ih := split_prefix_line sep x w (fun hm => h (List.mem_cons_of_mem _ hm))
    rw [List.cons_append, split, if_neg hc, ih]
    rfl

theorem forall₂_indentEquiv_refl (l : List Str) : List.Forall₂ IndentEquiv l l :=
  List.forall₂_same.2 (fun x _ => indentEquiv_refl x)

/-- C12: for every input, a tab in the leading white space of a line can be
replaced by eight spaces without a change of the result of `ParseYAML`.  The
tab stands after the text `pre`, which is empty or ends with a line break, and
the white space `a` of the line it is in; `rest` is what follows it. -/
theorem ParseYAML_tab_is_eight_spaces (pre a rest : Str)
    (hpre : pre = [] ∨ pre.getLast? = some nl)
    (ha : ∀ c ∈ a, isSpace c = true ∧ c ≠ nl) :
    ParseYAML (pre ++ (a ++ Char.ofNat 9 :: rest)) =
      ParseYAML (pre ++ (a ++ List.replicate 8 ' ' ++ rest)) := by
  have h1 : nl ∉ a ++ [Char.ofNat 9] := by
    intro hm
    rcases List.mem_append.1 hm with hm | hm
    · exact (ha nl hm).2 rfl
    · revert hm
      decide
  have h2 : nl ∉ a ++ List.replicate 8 ' ' := by
    intro hm
    rcases List.mem_append.1 hm with hm | hm
    · exact (ha nl hm).2 rfl
    · revert hm
      decide
  have e1 : a ++ Char.ofNat 9 :: rest = (a ++ [Char.ofNat 9]) ++ rest := by simp
  have hline : IndentEquiv ((a ++ [Char.ofNat 9]) ++ (split nl rest).headD [])
      ((a ++ List.replicate 8 ' ') ++ (split nl rest).headD []) := by
    have := indentEquiv_tab a ((split nl rest).headD []) (fun c hc => (ha c hc).1)
    simpa using this
  have hlines : List.Forall₂ IndentEquiv (split nl (a ++ Char.ofNat 9 :: rest))
      (split nl (a ++ List.replicate 8 ' ' ++ rest)) := by
    rw [e1, split_prefix_line nl rest _ h1, split_prefix_line nl rest _ h2]
    exact List.Forall₂.cons hline (forall₂_indentEquiv_refl _)
  have hall : List.Forall₂ IndentEquiv (split nl (pre ++ (a ++ Char.ofNat 9 :: rest)))
      (split nl (pre ++ (a ++ List.replicate 8 ' ' ++ rest))) := by
    rcases hpre with rfl | hl
    · simpa using hlines
    · obtain ⟨p, rfl⟩ := List.getLast?_eq_some_iff.1 hl
      rw [List.append_assoc, List.append_assoc, List.singleton_append, List.singleton_append,
        split_append, split_append]
      exact List.rel_append (forall₂_indentEquiv_refl _) hlines
  unfold ParseYAML parseYAMLLines
  rw [hall.length_eq]
  exact parseLinesAux_equiv _ true _ _ [] hall

/-- A nested line indented with two spaces and a tab, before a sibling line
indented with ten spaces: the tab replaced by eight spaces gives the same
result, the Node with `b` and `c` under `a`. -/
theorem ParseYAML_tab_is_eight_spaces_witness :
    ParseYAML "a:\n  \tb: 1\n          c: 2".toList =
      ParseYAML "a:\n          b: 1\n          c: 2".toList ∧
    ParseYAML "a:\n  \tb: 1\n          c: 2".toList =
      .ok [("a".toList, Value.node [("b".toList, Value.int 1), ("c".toList, Value.int 2)])] :=
  ⟨ParseYAML_tab_is_eight_spaces "a:\n".toList "  ".toList "b: 1\n          c: 2".toList
    (Or.inr (by decide)) (by decide), rfl⟩

/-! ## Termination -/

/-- The loop of `parseYAMLLines` is its iteration followed by the rest of the
loop. -/
theorem parseLinesAux_step (fuel : Nat) (first : Bool) (raw : Str) (tl : List Str) (node : Node) :
    parseLinesAux (fuel + 1) first (raw :: tl) node =
      (loopStep (fun b => parseLinesAux fuel true b []) fuel first raw tl node).bind
        (loopNext fuel) := by
  rw [parseLinesAux, loopStep]
  by_cases c1 : trimSpace raw = [] ∨ (trimSpace raw).head? = some '#'
  · simp only [if_pos c1]
    rfl
  simp only [if_neg c1]
  by_cases c2 : trimSpace raw = "---".toList
  · simp only [if_pos c2]
    cases first <;> rfl
  simp only [if_neg c2]
  rcases hs : splitN2 ':' (trimSpace raw) with _ | ⟨k, _ | ⟨v, _ | ⟨w, r⟩⟩⟩
  · rfl
  · rfl
  · simp only []
    by_cases c4 : trimSpace v = [] ∧ tl ≠ []
    · simp only [if_pos c4]
      by_cases c5 : isList (tl.headD []) = true
      · simp only [if_pos c5]
        cases listLoop (fun b => parseLinesAux fuel true b []) parseValue fuel tl [] with
        | error e => rfl
        | ok r => rfl
      · simp only [if_neg c5]
        cases getIndentedBlock (fun b => parseLinesAux fuel true b []) tl with
        | error e => rfl
        | ok r => rfl
    · simp only [if_neg c4]
      by_cases c6 : hasPrefix (trimSpace v) '|' = true ∨ hasPrefix (trimSpace v) '>' = true
      · simp only [if_pos c6]
        cases tl with
        | nil => rfl
        | cons l0 r => rfl
      · simp only [if_neg c6]
        cases parseValue (trimSpace v) with
        | error e => rfl
        | ok val => rfl
  · rfl


/-- The block `getIndentedBlock` parses has at least one line and no more
lines than it was given; `parse` is called on that block only. -/
theorem getIndentedBlock_count (parse : List Str → Except Fault Node) (lines : List Str)
    (child : Node) (n : Nat) (h : getIndentedBlock parse lines = .ok (child, n)) :
    1 ≤ n ∧ n ≤ lines.length := by
  cases lines with
  | nil => simp [getIndentedBlock] at h
  | cons l0 tl =>
    rw [getIndentedBlock] at h
    have hlen : (List.takeWhile (fun l => decide (¬ getIndent l < getIndent l0)) (l0 :: tl)).length ≤
        (l0 :: tl).length := (List.takeWhile_sublist _).length_le
    have hpos : 1 ≤ (List.takeWhile (fun l => decide (¬ getIndent l < getIndent l0)) (l0 :: tl)).length := by
      rw [List.takeWhile_cons_of_pos (by simp)]
      simp
    cases hparse : parse (List.takeWhile (fun l => decide (¬ getIndent l < getIndent l0)) (l0 :: tl)) with
    | error e =>
      rw [hparse] at h
      simp at h
    | ok c =>
      rw [hparse] at h
      simp only [Except.ok.injEq, Prod.mk.injEq] at h
      rw [← h.2]
      exact ⟨hpos, hlen⟩

theorem getIndentedBlock_local (parse parse1 : List Str → Except Fault Node) (lines : List Str)
    (h : ∀ b : List Str, b.length ≤ lines.length → parse b = parse1 b) :
    getIndentedBlock parse lines = getIndentedBlock parse1 lines := by
  cases lines with
  | nil => rfl
  | cons l0 tl =>
    rw [getIndentedBlock, getIndentedBlock]
    simp only [h _ (List.takeWhile_sublist _).length_le]

/-- The lines the list loop hands back are no more than it was given. -/
theorem listLoop_rest_length (parse : List Str → Except Fault Node) (pv : Str → Except Fault Value) :
    ∀ (fuel : Nat) (lines : List Str) (acc list : List Value) (rest : List Str),
      listLoop parse pv fuel lines acc = .ok (list, rest) → rest.length ≤ lines.length
  | fuel, [], acc, list, rest, h => by
    rw [listLoop_nil] at h
    simp only [Except.ok.injEq, Prod.mk.injEq] at h
    simp [← h.2]
  | 0, _ :: _, _, _, _, h => by simp [listLoop] at h
  | fuel + 1, raw :: tl, acc, list, rest, h => by
    rw [listLoop] at h
    split_ifs at h with h1 h2 h3
    · cases hg : getIndentedBlock parse (replaceFirst '-' ' ' raw :: tl) with
      | error e =>
        rw [hg] at h
        simp at h
      | ok r =>
        obtain ⟨item, childLines⟩ := r
        obtain ⟨hn1, hn2⟩ := getIndentedBlock_count _ _ _ _ hg
        rw [hg] at h
        simp only [] at h
        have := listLoop_rest_length parse pv fuel _ _ _ _ h
        simp only [List.length_drop, List.length_cons] at this hn2 ⊢
        omega
    · cases hpv : pv (trimSpace (trimPrefix (trimSpace raw) '-')) with
      | error e =>
        rw [hpv] at h
        simp at h
      | ok item =>
        rw [hpv] at h
        simp only [] at h
        have := listLoop_rest_length parse pv fuel _ _ _ _ h
        simp only [List.length_cons]
        omega
    · simp only [Except.ok.injEq, Prod.mk.injEq] at h
      simp [← h.2]
    · simp only [Except.ok.injEq, Prod.mk.injEq] at h
      simp [← h.2]

theorem listLoop_local (parse parse1 : List Str → Except Fault Node) (pv : Str → Except Fault Value) :
    ∀ (fuel : Nat) (lines : List Str) (acc : List Value),
      (∀ b : List Str, b.length ≤ lines.length → parse b = parse1 b) →
      listLoop parse pv fuel lines acc = listLoop parse1 pv fuel lines acc
  | fuel, [], acc, _ => by rw [listLoop_nil, listLoop_nil]
  | 0, _ :: _, _, _ => rfl
  | fuel + 1, raw :: tl, acc, h => by
    rw [listLoop, listLoop]
    have hg := getIndentedBlock_local parse parse1 (replaceFirst '-' ' ' raw :: tl)
      (fun b hb => h b (by simpa using hb))
    rw [← hg]
    split_ifs with h1 h2 h3
    · cases hgb : getIndentedBlock parse (replaceFirst '-' ' ' raw :: tl) with
      | error e => rfl
      | ok r =>
        obtain ⟨item, childLines⟩ := r
        obtain ⟨hn1, hn2⟩ := getIndentedBlock_count _ _ _ _ hgb
        exact listLoop_local parse parse1 pv fuel _ _ (fun b hb => h b (by
          simp only [List.length_drop, List.length_cons] at hb hn2 ⊢
          omega))
    · cases hpv : pv (trimSpace (trimPrefix (trimSpace raw) '-')) with
      | error e => rfl
      | ok item =>
        exact listLoop_local parse parse1 pv fuel tl _ (fun b hb => h b (by
          simp only [List.length_cons]
          omega))
    · rfl
    · rfl

/-- The fuel of the list loop: one unit for each line is enough, and more
changes nothing. -/
theorem listLoop_fuel (parse : List Str → Except Fault Node) (pv : Str → Except Fault Value) :
    ∀ (fuel fuel1 : Nat) (lines : List Str) (acc : List Value),
      lines.length ≤ fuel → lines.length ≤ fuel1 →
      listLoop parse pv fuel lines acc = listLoop parse pv fuel1 lines acc
  | fuel, fuel1, [], acc, _, _ => by rw [listLoop_nil, listLoop_nil]
  | 0, _, _ :: _, _, h, _ => by simp at h
  | _ + 1, 0, _ :: _, _, _, h => by simp at h
  | fuel + 1, fuel1 + 1, raw :: tl, acc, h, h1 => by
    have hf : tl.length ≤ fuel := by simpa using h
    have hf1 : tl.length ≤ fuel1 := by simpa using h1
    rw [listLoop, listLoop]
    split_ifs with c1 c2 c3
    · cases hgb : getIndentedBlock parse (replaceFirst '-' ' ' raw :: tl) with
      | error e => rfl
      | ok r =>
        obtain ⟨item, childLines⟩ := r
        obtain ⟨hn1, hn2⟩ := getIndentedBlock_count _ _ _ _ hgb
        have hd : (List.drop childLines (raw :: tl)).length ≤ tl.length := by
          simp only [List.length_drop, List.length_cons] at hn2 ⊢
          omega
        exact listLoop_fuel parse pv fuel fuel1 _ _ (le_trans hd hf) (le_trans hd hf1)
    · cases hpv : pv (trimSpace (trimPrefix (trimSpace raw) '-')) with
      | error e => rfl
      | ok item => exact listLoop_fuel parse pv fuel fuel1 tl _ hf hf1
    · rfl
    · rfl


/-- After an iteration the cursor has moved forward: the lines left are lines
after the line of the iteration, so fewer than at its start. -/
theorem loopStep_cursor (parse : List Str → Except Fault Node) (fuel : Nat) (first : Bool)
    (raw : Str) (tl : List Str) (node node1 : Node) (rest : List Str)
    (h : loopStep parse fuel first raw tl node = .ok (node1, some rest)) :
    rest.length < (raw :: tl).length := by
  suffices hr : rest.length ≤ tl.length by
    simp only [List.length_cons]
    omega
  rw [loopStep] at h
  by_cases c1 : trimSpace raw = [] ∨ (trimSpace raw).head? = some '#'
  · simp only [if_pos c1, Except.ok.injEq, Prod.mk.injEq, Option.some.injEq] at h
    simp [← h.2]
  simp only [if_neg c1] at h
  by_cases c2 : trimSpace raw = "---".toList
  · simp only [if_pos c2] at h
    cases first
    · simp at h
    · simp only [if_true, Except.ok.injEq, Prod.mk.injEq, Option.some.injEq] at h
      simp [← h.2]
  simp only [if_neg c2] at h
  rcases hs : splitN2 ':' (trimSpace raw) with _ | ⟨k, _ | ⟨v, _ | ⟨w, r⟩⟩⟩
  · rw [hs] at h
    simp only [Except.ok.injEq, Prod.mk.injEq, Option.some.injEq] at h
    simp [← h.2]
  · rw [hs] at h
    simp only [Except.ok.injEq, Prod.mk.injEq, Option.some.injEq] at h
    simp [← h.2]
  · rw [hs] at h
    simp only [] at h
    by_cases c4 : trimSpace v = [] ∧ tl ≠ []
    · simp only [if_pos c4] at h
      by_cases c5 : isList (tl.headD []) = true
      · simp only [if_pos c5] at h
        cases hl : listLoop parse parseValue fuel tl [] with
        | error e =>
          rw [hl] at h
          simp at h
        | ok r =>
          obtain ⟨list, rest1⟩ := r
          rw [hl] at h
          simp only [Except.ok.injEq, Prod.mk.injEq, Option.some.injEq] at h
          rw [← h.2]
          exact listLoop_rest_length _ _ _ _ _ _ _ hl
      · simp only [if_neg c5] at h
        cases hg : getIndentedBlock parse tl with
        | error e =>
          rw [hg] at h
          simp at h
        | ok r =>
          obtain ⟨childNode, childLines⟩ := r
          rw [hg] at h
          simp only [Except.ok.injEq, Prod.mk.injEq, Option.some.injEq] at h
          simp [← h.2]
    · simp only [if_neg c4] at h
      by_cases c6 : hasPrefix (trimSpace v) '|' = true ∨ hasPrefix (trimSpace v) '>' = true
      · simp only [if_pos c6] at h
        cases tl with
        | nil => simp at h
        | cons l0 r =>
          simp only [Except.ok.injEq, Prod.mk.injEq, Option.some.injEq] at h
          rw [← h.2]
          simp only [List.length_drop, List.length_cons]
          omega
      · simp only [if_neg c6] at h
        cases hpv : parseValue (trimSpace v) with
        | error e =>
          rw [hpv] at h
          simp at h
        | ok val =>
          rw [hpv] at h
          simp only [Except.ok.injEq, Prod.mk.injEq, Option.some.injEq] at h
          simp [← h.2]
  · rw [hs] at h
    simp only [Except.ok.injEq, Prod.mk.injEq, Option.some.injEq] at h
    simp [← h.2]

/-- An iteration calls `parseYAMLLines` only on lines fewer than the lines from
its cursor on: a `parse` that differs on longer lists gives the same result. -/
theorem loopStep_local (parse parse1 : List Str → Except Fault Node) (fuel : Nat) (first : Bool)
    (raw : Str) (tl : List Str) (node : Node)
    (h : ∀ b : List Str, b.length < (raw :: tl).length → parse b = parse1 b) :
    loopStep parse fuel first raw tl node = loopStep parse1 fuel first raw tl node := by
  have h1 : ∀ b : List Str, b.length ≤ tl.length → parse b = parse1 b :=
    fun b hb => h b (by simp only [List.length_cons]; omega)
  rw [loopStep, loopStep, listLoop_local parse parse1 parseValue fuel tl [] h1,
    getIndentedBlock_local parse parse1 tl h1]

/-- The fuel of the list loop inside an iteration: one unit for each line left
is enough. -/
theorem loopStep_fuel (parse : List Str → Except Fault Node) (fuel fuel1 : Nat) (first : Bool)
    (raw : Str) (tl : List Str) (node : Node) (h : tl.length ≤ fuel) (h1 : tl.length ≤ fuel1) :
    loopStep parse fuel first raw tl node = loopStep parse fuel1 first raw tl node := by
  rw [loopStep, loopStep, listLoop_fuel parse parseValue fuel fuel1 tl [] h h1]

/-- The result of the loop of `parseYAMLLines` does not depend on the fuel, once
there is one unit for each line. -/
theorem parseLinesAux_fuel : ∀ (fuel fuel1 : Nat) (first : Bool) (lines : List Str) (node : Node),
    lines.length ≤ fuel → lines.length ≤ fuel1 →
    parseLinesAux fuel first lines node = parseLinesAux fuel1 first lines node
  | fuel, fuel1, first, [], node, _, _ => by rw [parseLinesAux_nil, parseLinesAux_nil]
  | 0, _, _, _ :: _, _, h, _ => by simp at h
  | _ + 1, 0, _, _ :: _, _, _, h => by simp at h
  | fuel + 1, fuel1 + 1, first, raw :: tl, node, h, h1 => by
    have hf : tl.length ≤ fuel := by simpa using h
    have hf1 : tl.length ≤ fuel1 := by simpa using h1
    have ih := parseLinesAux_fuel fuel fuel1
    rw [parseLinesAux_step, parseLinesAux_step,
      loopStep_local (fun b => parseLinesAux fuel true b []) (fun b => parseLinesAux fuel1 true b [])
        fuel first raw tl node (fun b hb => ih true b []
          (by simp only [List.length_cons] at hb; omega)
          (by simp only [List.length_cons] at hb; omega)),
      loopStep_fuel _ fuel fuel1 first raw tl node hf hf1]
    cases hstep : loopStep (fun b => parseLinesAux fuel1 true b []) fuel1 first raw tl node with
    | error e => rfl
    | ok r =>
      obtain ⟨node1, next⟩ := r
      cases next with
      | none => rfl
      | some rest =>
        have hc := loopStep_cursor _ _ _ _ _ _ _ _ hstep
        simp only [List.length_cons] at hc
        exact ih false rest node1 (by omega) (by omega)

/-- C20: `parseYAMLLines` terminates on every list of lines.  With one unit of
fuel for each line the embedding never runs out of fuel, so each result is a
Node or a fault of the Go program, and more fuel gives the same result.  The
loop is its iteration `loopStep` followed by the rest of the loop; an iteration
calls `parseYAMLLines` only on lists that are shorter than the lines from its
cursor on, which are at most the lines the caller received; and the lines left
after an iteration are fewer than the lines at its start, so the cursor is
strictly greater, also after a list or a multiline block. -/
theorem parseYAMLLines_terminates :
    (∀ lines : List Str, parseYAMLLines lines ≠ .error Fault.outOfFuel) ∧
    (∀ (fuel : Nat) (first : Bool) (lines : List Str) (node : Node), lines.length ≤ fuel →
      parseLinesAux fuel first lines node = parseLinesAux lines.length first lines node) ∧
    (∀ (fuel : Nat) (first : Bool) (raw : Str) (tl : List Str) (node : Node),
      parseLinesAux (fuel + 1) first (raw :: tl) node =
        (loopStep (fun b => parseLinesAux fuel true b []) fuel first raw tl node).bind
          (loopNext fuel)) ∧
    (∀ (parse parse1 : List Str → Except Fault Node) (fuel : Nat) (first : Bool) (raw : Str)
      (tl : List Str) (node : Node),
      (∀ b : List Str, b.length < (raw :: tl).length → parse b = parse1 b) →
      loopStep parse fuel first raw tl node = loopStep parse1 fuel first raw tl node) ∧
    (∀ (parse : List Str → Except Fault Node) (fuel : Nat) (first : Bool) (raw : Str)
      (tl : List Str) (node node1 : Node) (rest : List Str),
      loopStep parse fuel first raw tl node = .ok (node1, some rest) →
      rest.length < (raw :: tl).length) :=
  ⟨parseYAMLLines_ne_outOfFuel,
   fun fuel first lines node h => parseLinesAux_fuel fuel lines.length first lines node h (le_refl _),
   parseLinesAux_step, loopStep_local, loopStep_cursor⟩

/-! ## Folded blocks inside a document -/

/-- The step of `parseYAMLLines` at a key line with a block indicator `v`, when
the lines `l0 :: tl` after it are indented at least as far as `l0` and the
lines `after` start with a line indented less, or are empty: the block is
`l0 :: tl`, and the loop goes on at `after`. -/
theorem parseLinesAux_block_after (fuel : Nat) (first : Bool) (k v : Str) (l0 : Str)
    (tl after : List Str) (node : Node) (hk : ':' ∉ k) (hc : hasPrefix (trimSpace k) '#' = false)
    (hv : hasPrefix (trimSpace v) '|' = true ∨ hasPrefix (trimSpace v) '>' = true)
    (hind : ∀ l ∈ tl, getIndent l0 ≤ getIndent l)
    (hafter : ∀ x, after.head? = some x → getIndent x < getIndent l0) :
    parseLinesAux (fuel + 1) first ((k ++ ": ".toList ++ v) :: ((l0 :: tl) ++ after)) node =
      parseLinesAux fuel false after
        (node.set (trimSpace k) (Value.str (blockText (hasPrefix (trimSpace v) '>')
          ((l0 :: tl).map (blockLine (hasPrefix (trimSpace v) '>')))))) := by
  obtain ⟨h1, h2, h3, a, b, hab, ha, hb⟩ := entry_line k v hk hc
  have hne : trimSpace v ≠ [] := by
    intro h
    rw [h] at hv
    simp [hasPrefix] at hv
  have htw : ((l0 :: tl) ++ after).takeWhile (fun l => decide (¬ getIndent l < getIndent l0)) =
      l0 :: tl := by
    apply takeWhile_append_stop
    · intro x hx
      rcases List.mem_cons.1 hx with rfl | hx
      · simp
      · have := hind x hx
        simp only [decide_eq_true_eq]
        omega
    · intro x hx
      have := hafter x hx
      simp only [decide_eq_false_iff_not, not_not]
      exact this
  have hdrop : List.drop (l0 :: tl).length ((l0 :: tl) ++ after) = after := List.drop_left _ _
  rw [parseLinesAux]
  simp only [h1, h2, h3, or_self, if_false, hab, ha, hb, hne, false_and, hv, if_true]
  rw [List.cons_append] at htw hdrop
  simp only [List.cons_append, htw, hdrop]


/-- A flat document in front of other lines: the loop assigns its pairs and
goes on at the other lines, when the first of them is no divider. -/
theorem parseLinesAux_doc_append (tail : List Str)
    (htail : trimSpace (tail.headD []) ≠ "---".toList) :
    ∀ (doc : List DocLine) (fuel : Nat) (first : Bool) (node : Node),
    (∀ d ∈ doc, d.wellFormed) →
    parseLinesAux (doc.length + fuel) first (doc.map DocLine.text ++ tail) node =
      ((docEntries doc).mapM classifyPair).bind fun kvs =>
        parseLinesAux fuel false tail (kvs.foldl (fun n kv => Node.set n kv.1 kv.2) node)
  | [], fuel, first, node, _ => by
    rw [List.map_nil, List.nil_append, List.length_nil, Nat.zero_add, docEntries, List.mapM_nil,
      parseLinesAux_first fuel first tail node htail]
    rfl
  | .filler t :: rest, fuel, first, node, hwf => by
    have ht := hwf (.filler t) (List.mem_cons_self _ _)
    have e : (DocLine.filler t :: rest).length + fuel = (rest.length + fuel) + 1 := by
      simp only [List.length_cons]
      omega
    rw [e, List.map_cons, DocLine.text, List.cons_append, parseLinesAux_filler _ _ _ _ _ ht.2,
      docEntries]
    exact parseLinesAux_doc_append tail htail rest fuel false node
      (fun d hd => hwf d (List.mem_cons_of_mem _ hd))
  | .entry k v :: rest, fuel, first, node, hwf => by
    obtain ⟨hk, _, _, hc, hv, hb1, hb2⟩ := hwf (.entry k v) (List.mem_cons_self _ _)
    have e : (DocLine.entry k v :: rest).length + fuel = (rest.length + fuel) + 1 := by
      simp only [List.length_cons]
      omega
    rw [e, List.map_cons, DocLine.text, List.cons_append,
      parseLinesAux_entry _ _ _ _ _ _ hk hc hv hb1 hb2, docEntries, List.mapM_cons]
    unfold classifyPair
    cases hp : parseValue (trimSpace v) with
    | error e => simp [Except.map, bind, Except.bind]
    | ok val =>
      simp only []
      rw [parseLinesAux_doc_append tail htail rest fuel false _
        (fun d hd => hwf d (List.mem_cons_of_mem _ hd))]
      unfold classifyPair
      generalize (List.mapM (fun kv : Str × Str =>
        Except.map (fun w => (trimSpace kv.1, w)) (parseValue (trimSpace kv.2))) (docEntries rest)) = r
      cases r <;> simp [Except.map, bind, Except.bind, pure, Except.pure]


theorem split_join_of_ne_nil (sep : Char) (L : List Str) (hne : L ≠ [])
    (h : ∀ s ∈ L, sep ∉ s) : split sep (join [sep] L) = L := by
  obtain ⟨a, l, rfl⟩ := List.exists_cons_of_ne_nil hne
  exact split_join sep l a h

theorem not_mem_foldedContent (p0 : List Str) (rest : List (Str × List Str))
    (hp : ∀ p ∈ p0 :: rest.map Prod.snd, p ≠ [] ∧ ∀ l ∈ p, trimSpace l ≠ [] ∧ nl ∉ l)
    (hs : ∀ sp ∈ rest, trimSpace sp.1 = [] ∧ nl ∉ sp.1) :
    ∀ l ∈ foldedContent p0 rest, nl ∉ l := by
  intro l hl
  simp only [foldedContent, List.mem_append, List.mem_flatten, List.mem_map] at hl
  rcases hl with hl | ⟨ls, ⟨sp, hsp, rfl⟩, hl⟩
  · exact ((hp p0 (List.mem_cons_self _ _)).2 l hl).2
  · rcases List.mem_cons.1 hl with rfl | hl
    · exact (hs sp hsp).2
    · exact ((hp sp.2 (by
        simp only [List.mem_cons, List.mem_map]
        exact Or.inr ⟨sp, hsp, rfl⟩)).2 l hl).2

/-- The step of the loop at the key line of a folded block, in any state of
the loop and before any lines that start with a line indented less than the
block. -/
theorem parseLinesAux_folded (k : Str) (p0 : List Str) (rest : List (Str × List Str))
    (hk : blockKey k)
    (hp : ∀ p ∈ p0 :: rest.map Prod.snd, p ≠ [] ∧ ∀ l ∈ p, trimSpace l ≠ [] ∧ nl ∉ l)
    (hs : ∀ sp ∈ rest, trimSpace sp.1 = [] ∧ nl ∉ sp.1)
    (hind : ∀ l ∈ foldedContent p0 rest, getIndent (p0.headD []) ≤ getIndent l)
    (fuel : Nat) (first : Bool) (node : Node) (after : List Str)
    (hafter : ∀ x, after.head? = some x → getIndent x < getIndent (p0.headD [])) :
    parseLinesAux (fuel + 1) first ((k ++ ": >".toList) :: (foldedContent p0 rest ++ after)) node =
      parseLinesAux fuel false after (node.set (trimSpace k)
        (Value.str (join [nl] ((p0 :: rest.map Prod.snd).map paragraphText)))) := by
  obtain ⟨hk1, hk2, hk3⟩ := hk
  have e : k ++ ": >".toList = k ++ ": ".toList ++ ">".toList := by simp
  have h0 := hp p0 (List.mem_cons_self _ _)
  obtain ⟨l0, tl, rfl⟩ := List.exists_cons_of_ne_nil h0.1
  have hshape : foldedContent (l0 :: tl) rest =
      l0 :: (tl ++ (rest.map fun sp => sp.1 :: sp.2).flatten) := rfl
  have ht : trimSpace ">".toList = ">".toList := by decide
  have hf : hasPrefix ">".toList '>' = true := by decide
  have hstep := parseLinesAux_block_after fuel first k ">".toList l0
    (tl ++ (rest.map fun sp => sp.1 :: sp.2).flatten) after node hk1 hk3 (Or.inr (by decide))
    (fun l hl => hind l (by rw [hshape]; exact List.mem_cons_of_mem _ hl))
    (by simpa using hafter)
  rw [ht, hf, ← hshape, blockText_folded rest (l0 :: tl) hp (fun sp hsp => (hs sp hsp).1)] at hstep
  rw [e]
  exact hstep


/-- C14: for every key `k` and every folded block `k: >` whose content is a
first paragraph and further paragraphs, each after one blank separator line,
where a paragraph is a non-empty list of lines that are not blank and every
content line is indented at least as far as the first, the key `k` gets the
paragraphs joined by a single newline, each paragraph being its trimmed lines
joined by a single space.  First, in every state of the loop of
`parseYAMLLines` (any map built so far, any lines after the block that are
empty or start with a line indented less than the block): the iteration at the
key line assigns that text to `k` and the loop goes on at the first line after
the block.  Second, for `ParseYAML` of a document in which the block stands
between two flat documents of `key: value`, blank and comment lines, the second
one starting with a line indented less than the block: the result is the Node
of the pairs before the block, `k` with that text, and the pairs after it,
assigned in this order, with the faults of `parseValue` on the values of the
pairs. -/
theorem ParseYAML_folded_block (k : Str) (p0 : List Str) (rest : List (Str × List Str))
    (hk : blockKey k)
    (hp : ∀ p ∈ p0 :: rest.map Prod.snd, p ≠ [] ∧ ∀ l ∈ p, trimSpace l ≠ [] ∧ nl ∉ l)
    (hs : ∀ sp ∈ rest, trimSpace sp.1 = [] ∧ nl ∉ sp.1)
    (hind : ∀ l ∈ foldedContent p0 rest, getIndent (p0.headD []) ≤ getIndent l) :
    (∀ (fuel : Nat) (first : Bool) (node : Node) (after : List Str),
      (∀ x, after.head? = some x → getIndent x < getIndent (p0.headD [])) →
      parseLinesAux (fuel + 1) first
          ((k ++ ": >".toList) :: (foldedContent p0 rest ++ after)) node =
        parseLinesAux fuel false after (node.set (trimSpace k)
          (Value.str (join [nl] ((p0 :: rest.map Prod.snd).map paragraphText))))) ∧
    (∀ (before after : List DocLine), (∀ d ∈ before, d.wellFormed) →
      (∀ d ∈ after, d.wellFormed) →
      (∀ d, after.head? = some d → getIndent d.text < getIndent (p0.headD [])) →
      ParseYAML (join [nl] (before.map DocLine.text ++
          (k ++ ": >".toList) :: (foldedContent p0 rest ++ after.map DocLine.text))) =
        ((docEntries before).mapM classifyPair).bind fun kb =>
          Except.map (fun ka => Node.ofList (kb ++
              (trimSpace k, Value.str (join [nl] ((p0 :: rest.map Prod.snd).map paragraphText)))
                :: ka))
            ((docEntries after).mapM classifyPair)) := by
  refine ⟨fun fuel first node after ha =>
    parseLinesAux_folded k p0 rest hk hp hs hind fuel first node after ha, ?_⟩
  intro before after hwb hwa hafter
  have hkey : trimSpace (k ++ ": >".toList) ≠ "---".toList := by
    have e : k ++ ": >".toList = k ++ ": ".toList ++ ">".toList := by simp
    rw [e]
    exact (entry_line k ">".toList hk.1 hk.2.2).2.2.1
  have hlines : ∀ s ∈ before.map DocLine.text ++
      (k ++ ": >".toList) :: (foldedContent p0 rest ++ after.map DocLine.text), nl ∉ s := by
    intro s hs1
    simp only [List.mem_append, List.mem_cons, List.mem_map] at hs1
    rcases hs1 with ⟨d, hd, rfl⟩ | rfl | hc | ⟨d, hd, rfl⟩
    · exact not_mem_text d (hwb d hd)
    · simp only [List.mem_append, not_or]
      exact ⟨hk.2.1, by decide⟩
    · exact not_mem_foldedContent p0 rest hp hs s hc
    · exact not_mem_text d (hwa d hd)
  have hlen : (before.map DocLine.text ++
      (k ++ ": >".toList) :: (foldedContent p0 rest ++ after.map DocLine.text)).length =
      before.length + (((foldedContent p0 rest).length + after.length) + 1) := by
    simp only [List.length_append, List.length_cons, List.length_map]
  rw [ParseYAML, split_join_of_ne_nil nl _ (by simp) hlines, parseYAMLLines, hlen,
    parseLinesAux_doc_append _ (by simpa using hkey) before _ true [] hwb]
  congr 1
  funext kb
  rw [parseLinesAux_folded k p0 rest hk hp hs hind _ false _ (after.map DocLine.text) (by
      intro x hx
      cases after with
      | nil => simp at hx
      | cons d r =>
        simp only [List.map_cons, List.head?_cons, Option.some.injEq] at hx
        rw [← hx]
        exact hafter d rfl),
    parseLinesAux_doc after _ false _ hwa (by omega)]
  simp only [Node.ofList, List.foldl_append, List.foldl_cons]

/-- The folded block of the repository's test `multiline block with empty
line`, reached by the loop after the literal block of that test, and a folded
block of two paragraphs between two `key: value` lines. -/
theorem ParseYAML_folded_block_witness :
    ParseYAML "a: |\n  line1\n  \n  line2\nb: >\n  line3\n  \n  line4".toList =
      .ok [("a".toList, Value.str "line1\n\nline2".toList),
        ("b".toList, Value.str "line3\nline4".toList)] ∧
    ParseYAML "a: 1\nb: >\n  line1\n  line2\n  \n  line3\n  line4\nc: 2".toList =
      .ok [("a".toList, Value.int 1),
        ("b".toList, Value.str "line1 line2\nline3 line4".toList),
        ("c".toList, Value.int 2)] :=
  ⟨(rfl : ParseYAML "a: |\n  line1\n  \n  line2\nb: >\n  line3\n  \n  line4".toList =
      parseLinesAux 7 false ["b: >".toList, "  line3".toList, "  ".toList, "  line4".toList]
        [("a".toList, Value.str "line1\n\nline2".toList)]).trans
    (((ParseYAML_folded_block "b".toList ["  line3".toList] [("  ".toList, ["  line4".toList])]
      ⟨by decide, by decide, by decide⟩ (by decide) (by decide) (by decide)).1 6 false
      [("a".toList, Value.str "line1\n\nline2".toList)] [] (by simp)).trans rfl),
   ((ParseYAML_folded_block "b".toList ["  line1".toList, "  line2".toList]
      [("  ".toList, ["  line3".toList, "  line4".toList])]
      ⟨by decide, by decide, by decide⟩ (by decide) (by decide) (by decide)).2
      [DocLine.entry "a".toList "1".toList] [DocLine.entry "c".toList "2".toList]
      (by
        intro d hd
        rw [List.mem_singleton.1 hd]
        exact ⟨by decide, by decide, by decide, by decide, by decide, by decide, by decide⟩)
      (by
        intro d hd
        rw [List.mem_singleton.1 hd]
        exact ⟨by decide, by decide, by decide, by decide, by decide, by decide, by decide⟩)
      (by
        intro d hd
        simp only [List.head?_cons, Option.some.injEq] at hd
        rw [← hd]
        decide)).trans rfl⟩

end SimpleYaml
